import Mathlib

/-!
Verification of the JSON2TOON advanced converter (`src/advanced_converter.py`) and the
strategy planner (`src/pattern_analyzer.py`).

The Python code is shallowly embedded: Python dicts become association lists with
Python's assignment semantics (`pyInsert`: overwrite in place, else append), Python
strings become Lean `String` (both are sequences of unicode code points, so `len`,
slicing and `startswith` translate to `List Char` operations on `String.data`),
Python `sorted` becomes a stable insertion sort over the code-point order, and
Python numbers that the converter merely passes through become `Int`.
All definitions are computable and reduce in the kernel, so concrete runs of the
encoder and decoder are settled by `rfl` / `decide`.
-/

set_option maxRecDepth 4000

namespace J2T

/-- Python dict assignment `d[k] = v`: if the key is present the value is replaced in
place (the key keeps its position), otherwise the pair is appended. -/
def pyInsert {β : Type} (l : List (String × β)) (k : String) (v : β) : List (String × β) :=
  if l.any (fun p => p.1 == k) then l.map (fun p => if p.1 == k then (p.1, v) else p)
  else l ++ [(k, v)]

/-- Building a Python dict by a sequence of assignments starting from `acc`. -/
def pyFold {β : Type} (acc : List (String × β)) (ps : List (String × β)) : List (String × β) :=
  ps.foldl (fun a kv => pyInsert a kv.1 kv.2) acc

/-- A Python dict literal: later duplicate keys overwrite earlier ones, the position
of a key is its first occurrence. -/
def pyDict {β : Type} (l : List (String × β)) : List (String × β) := pyFold [] l

/-- First-occurrence deduplication, the iteration order of a Python `set`-free
`dict`/`Counter` keyed by these values. -/
def pyDedup {α : Type} [BEq α] (l : List α) : List α :=
  l.foldl (fun acc x => if acc.contains x then acc else acc ++ [x]) []

theorem pyInsert_fresh {β : Type} (l : List (String × β)) (k : String) (v : β)
    (h : l.any (fun p => p.1 == k) = false) : pyInsert l k v = l ++ [(k, v)] := by
  simp [pyInsert, h]

theorem keys_not_mem_any {β : Type} (l : List (String × β)) (k : String)
    (h : k ∉ l.map Prod.fst) : l.any (fun p => p.1 == k) = false := by
  induction l with
  | nil => rfl
  | cons p t ih =>
    simp only [List.map_cons, List.mem_cons, not_or] at h
    simp only [List.any_cons, Bool.or_eq_false_iff]
    refine ⟨?_, ih h.2⟩
    simpa [beq_iff_eq] using fun hh => h.1 hh.symm

/-- When the keys of `ps` are distinct and disjoint from those of `acc`, Python dict
building is plain concatenation. -/
theorem pyFold_append {β : Type} :
    ∀ (ps acc : List (String × β)), (ps.map Prod.fst).Nodup →
      (∀ k ∈ ps.map Prod.fst, k ∉ acc.map Prod.fst) → pyFold acc ps = acc ++ ps := by
  intro ps
  induction ps with
  | nil => intro acc _ _; simp [pyFold]
  | cons p t ih =>
    intro acc hnd hdis
    simp only [List.map_cons, List.nodup_cons] at hnd
    have hfresh : acc.any (fun q => q.1 == p.1) = false :=
      keys_not_mem_any _ _ (hdis p.1 (by simp))
    have step : pyFold acc (p :: t) = pyFold (acc ++ [p]) t := by
      simp [pyFold, pyInsert_fresh _ _ _ hfresh]
    have hdis2 : ∀ k ∈ t.map Prod.fst, k ∉ (acc ++ [p]).map Prod.fst := by
      intro k hk
      simp only [List.map_append, List.mem_append, List.map_cons, List.map_nil,
        List.mem_cons, List.not_mem_nil, or_false, not_or]
      constructor
      · exact hdis k (by simp [hk])
      · intro hkp
        exact hnd.1 (hkp ▸ hk)
    rw [step, ih (acc ++ [p]) hnd.2 hdis2]
    simp


theorem pyDict_nodup_id {β : Type} (l : List (String × β)) (h : (l.map Prod.fst).Nodup) :
    pyDict l = l := by
  have := pyFold_append l [] h (by simp)
  simpa [pyDict] using this

/-- Value at a key after repeated fresh insertions: plain list lookup on the result. -/
theorem lookup_mem {β : Type} : ∀ (l : List (String × β)) (k : String) (v : β),
    List.lookup k l = some v → (k, v) ∈ l := by
  intro l
  induction l with
  | nil => intro k v h; simp [List.lookup] at h
  | cons p t ih =>
    intro k v h
    obtain ⟨k', v'⟩ := p
    rw [List.lookup] at h
    by_cases hk : k = k'
    · subst hk
      simp only [beq_self_eq_true, if_true, Option.some.injEq] at h
      subst h
      exact List.mem_cons_self _ _
    · have hne : (k == k') = false := by simpa using hk
      rw [hne] at h
      exact List.mem_cons_of_mem _ (ih k v h)

theorem lookup_eq_none {β : Type} : ∀ (l : List (String × β)) (k : String),
    k ∉ l.map Prod.fst → List.lookup k l = none := by
  intro l
  induction l with
  | nil => intro _ _; rfl
  | cons p t ih =>
    intro k hk
    simp only [List.map_cons, List.mem_cons, not_or] at hk
    rw [List.lookup]
    have : (k == p.1) = false := by simpa using hk.1
    rw [this]
    exact ih k hk.2

theorem lookup_cons_self {β : Type} (k : String) (v : β) (t : List (String × β)) :
    List.lookup k ((k, v) :: t) = some v := by
  simp [List.lookup]

/-! Decimal representation of naturals, the embedding of Python's f-string `f"s{i}"`.
Defined structurally (on a fuel bounded by the number itself) so that it reduces in
the kernel; proved injective via the evaluation map below. -/

def digitOf (n : Nat) : Char := Char.ofNat (48 + n)

def natToStrAux : Nat → Nat → List Char → List Char
  | 0, _, acc => acc
  | fuel + 1, n, acc =>
    if n < 10 then digitOf n :: acc
    else natToStrAux fuel (n / 10) (digitOf (n % 10) :: acc)

/-- Decimal representation of a natural number, as Python's `str(n)` produces it. -/
def natToStr (n : Nat) : String := ⟨natToStrAux (n + 1) n []⟩

def evalDigits : List Char → Nat → Nat
  | [], acc => acc
  | c :: t, acc => evalDigits t (acc * 10 + (c.toNat - 48))

theorem evalDigits_append : ∀ (a b : List Char) (acc : Nat),
    evalDigits (a ++ b) acc = evalDigits b (evalDigits a acc) := by
  intro a
  induction a with
  | nil => intro b acc; rfl
  | cons c t ih => intro b acc; simp [evalDigits, ih]

theorem digitOf_toNat : ∀ n < 10, (digitOf n).toNat = 48 + n := by decide

theorem natToStrAux_shift : ∀ (fuel n : Nat) (chars : List Char),
    natToStrAux fuel n chars = natToStrAux fuel n [] ++ chars := by
  intro fuel
  induction fuel with
  | zero => intro n chars; rfl
  | succ f ih =>
    intro n chars
    by_cases h : n < 10
    · simp [natToStrAux, h]
    · simp only [natToStrAux, h, if_false]
      rw [ih (n / 10) (digitOf (n % 10) :: chars), ih (n / 10) [digitOf (n % 10)]]
      simp

theorem evalDigits_natToStrAux : ∀ (fuel n acc : Nat), n < fuel →
    evalDigits (natToStrAux fuel n []) acc =
      acc * 10 ^ (natToStrAux fuel n []).length + n := by
  intro fuel
  induction fuel with
  | zero => intro n acc h; omega
  | succ f ih =>
    intro n acc h
    by_cases h10 : n < 10
    · have hx : natToStrAux (f + 1) n [] = [digitOf n] := by simp [natToStrAux, h10]
      rw [hx]
      have h1 : evalDigits [digitOf n] acc = acc * 10 + ((digitOf n).toNat - 48) := rfl
      rw [h1, digitOf_toNat n h10]
      simp
    · have hx : natToStrAux (f + 1) n [] =
          natToStrAux f (n / 10) [] ++ [digitOf (n % 10)] := by
        simp only [natToStrAux, h10, if_false]
        exact natToStrAux_shift f (n / 10) [digitOf (n % 10)]
      have hfuel : n / 10 < f := by
        have h1 : n / 10 < n := Nat.div_lt_self (by omega) (by omega)
        omega
      have hmlt : n % 10 < 10 := Nat.mod_lt n (by omega)
      rw [hx, evalDigits_append]
      have h1 : evalDigits [digitOf (n % 10)] (evalDigits (natToStrAux f (n / 10) []) acc) =
          (evalDigits (natToStrAux f (n / 10) []) acc) * 10 +
            ((digitOf (n % 10)).toNat - 48) := rfl
      rw [h1, ih (n / 10) acc hfuel, digitOf_toNat (n % 10) hmlt]
      have hlen : (natToStrAux f (n / 10) [] ++ [digitOf (n % 10)]).length =
          (natToStrAux f (n / 10) []).length + 1 := by simp
      rw [hlen]
      generalize (natToStrAux f (n / 10) []).length = L
      have hdm : 10 * (n / 10) + n % 10 = n := Nat.div_add_mod n 10
      have hm48 : 48 + n % 10 - 48 = n % 10 := by omega
      calc (acc * 10 ^ L + n / 10) * 10 + (48 + n % 10 - 48)
          = acc * 10 ^ L * 10 + ((n / 10) * 10 + n % 10) := by rw [hm48]; ring
        _ = acc * 10 ^ (L + 1) + n := by
            rw [pow_succ]
            have : (n / 10) * 10 + n % 10 = n := by omega
            rw [this]
            ring

theorem natToStr_inj : ∀ m n : Nat, natToStr m = natToStr n → m = n := by
  intro m n h
  have hd : natToStrAux (m + 1) m [] = natToStrAux (n + 1) n [] := by
    have := congrArg String.data h
    simpa [natToStr] using this
  have hm := evalDigits_natToStrAux (m + 1) m 0 (by omega)
  have hn := evalDigits_natToStrAux (n + 1) n 0 (by omega)
  rw [hd] at hm
  simp at hm hn
  omega

/-! Code-point order on strings, the order Python `sorted` uses for `str` keys, and a
stable insertion sort over a boolean comparator. Both are structural so concrete
sorts reduce in the kernel. -/

def strLeAux : List Char → List Char → Bool
  | [], _ => true
  | _ :: _, [] => false
  | a :: as, b :: bs =>
    if a.toNat < b.toNat then true
    else if b.toNat < a.toNat then false
    else strLeAux as bs

/-- Python's `<=` on strings: lexicographic on code points. -/
def strLe (a b : String) : Bool := strLeAux a.data b.data

theorem char_toNat_inj {a b : Char} (h : a.toNat = b.toNat) : a = b := by
  cases a; cases b
  simp only [Char.toNat] at h
  congr 1
  exact UInt32.ext h

theorem strLeAux_total : ∀ a b : List Char, strLeAux a b = true ∨ strLeAux b a = true := by
  intro a
  induction a with
  | nil => intro b; left; rfl
  | cons c t ih =>
    intro b
    cases b with
    | nil => right; rfl
    | cons d u =>
      by_cases h1 : c.toNat < d.toNat
      · left; simp [strLeAux, h1]
      · by_cases h2 : d.toNat < c.toNat
        · right; simp [strLeAux, h2]
        · rcases ih u with h | h
          · left; simp [strLeAux, h1, h2, h]
          · right; simp [strLeAux, h1, h2, h]

theorem strLeAux_antisymm : ∀ a b : List Char,
    strLeAux a b = true → strLeAux b a = true → a = b := by
  intro a
  induction a with
  | nil =>
    intro b _ hba
    cases b with
    | nil => rfl
    | cons d u => simp [strLeAux] at hba
  | cons c t ih =>
    intro b hab hba
    cases b with
    | nil => simp [strLeAux] at hab
    | cons d u =>
      by_cases h1 : c.toNat < d.toNat
      · simp [strLeAux, h1, Nat.lt_asymm h1] at hba
      · by_cases h2 : d.toNat < c.toNat
        · simp [strLeAux, h1, h2] at hab
        · have hc : c = d := char_toNat_inj (by omega)
          simp only [strLeAux, h1, h2, if_false] at hab hba
          rw [hc, ih u hab hba]

theorem strLeAux_trans : ∀ a b c : List Char,
    strLeAux a b = true → strLeAux b c = true → strLeAux a c = true := by
  intro a
  induction a with
  | nil => intro b c _ _; rfl
  | cons x t ih =>
    intro b c hab hbc
    cases b with
    | nil => simp [strLeAux] at hab
    | cons y u =>
      cases c with
      | nil => simp [strLeAux] at hbc
      | cons z v =>
        simp only [strLeAux] at hab hbc ⊢
        by_cases hxy : x.toNat < y.toNat
        · by_cases hyz : y.toNat < z.toNat
          · simp [show x.toNat < z.toNat by omega]
          · by_cases hzy : z.toNat < y.toNat
            · simp [hyz, hzy] at hbc
            · simp [show x.toNat < z.toNat by omega]
        · by_cases hyx : y.toNat < x.toNat
          · simp [hxy, hyx] at hab
          · by_cases hyz : y.toNat < z.toNat
            · simp [show x.toNat < z.toNat by omega]
            · by_cases hzy : z.toNat < y.toNat
              · simp [hyz, hzy] at hbc
              · have h1 : ¬ x.toNat < z.toNat := by omega
                have h2 : ¬ z.toNat < x.toNat := by omega
                simp only [hxy, hyx, if_false] at hab
                simp only [hyz, hzy, if_false] at hbc
                simp [h1, h2, ih u v hab hbc]

theorem strLe_total (a b : String) : strLe a b = true ∨ strLe b a = true :=
  strLeAux_total a.data b.data

theorem strLe_antisymm {a b : String} (h1 : strLe a b = true) (h2 : strLe b a = true) :
    a = b :=
  String.ext (strLeAux_antisymm a.data b.data h1 h2)

theorem strLe_trans {a b c : String} (h1 : strLe a b = true) (h2 : strLe b c = true) :
    strLe a c = true :=
  strLeAux_trans a.data b.data c.data h1 h2

/-- Stable insertion into a sorted list: the embedding of Python's stable `sorted`. -/
def insertLe {α : Type} (le : α → α → Bool) (x : α) : List α → List α
  | [] => [x]
  | y :: t => if le x y then x :: y :: t else y :: insertLe le x t

def sortLe {α : Type} (le : α → α → Bool) : List α → List α
  | [] => []
  | x :: t => insertLe le x (sortLe le t)

theorem insertLe_perm {α : Type} (le : α → α → Bool) (x : α) :
    ∀ l : List α, (insertLe le x l).Perm (x :: l) := by
  intro l
  induction l with
  | nil => simp [insertLe]
  | cons y t ih =>
    cases hxy : le x y with
    | true => simp [insertLe, hxy]
    | false =>
      have he : insertLe le x (y :: t) = y :: insertLe le x t := by simp [insertLe, hxy]
      rw [he]
      exact (List.Perm.cons y ih).trans (List.Perm.swap x y t)

theorem sortLe_perm {α : Type} (le : α → α → Bool) :
    ∀ l : List α, (sortLe le l).Perm l := by
  intro l
  induction l with
  | nil => simp [sortLe]
  | cons x t ih => exact (insertLe_perm le x _).trans (List.Perm.cons x ih)

theorem insertLe_sorted {α : Type} (le : α → α → Bool)
    (htot : ∀ a b, le a b = true ∨ le b a = true)
    (htr : ∀ a b c, le a b = true → le b c = true → le a c = true) (x : α) :
    ∀ l : List α, l.Pairwise (fun a b => le a b = true) →
      (insertLe le x l).Pairwise (fun a b => le a b = true) := by
  intro l
  induction l with
  | nil => intro _; simp [insertLe]
  | cons y t ih =>
    intro hp
    rw [List.pairwise_cons] at hp
    cases hxy : le x y with
    | true =>
      have he : insertLe le x (y :: t) = x :: y :: t := by simp [insertLe, hxy]
      rw [he, List.pairwise_cons]
      constructor
      · intro a ha
        rcases List.mem_cons.mp ha with rfl | ha
        · exact hxy
        · exact htr x y a hxy (hp.1 a ha)
      · exact List.pairwise_cons.mpr hp
    | false =>
      have he : insertLe le x (y :: t) = y :: insertLe le x t := by simp [insertLe, hxy]
      rw [he, List.pairwise_cons]
      constructor
      · intro a ha
        have hmem := (insertLe_perm le x t).mem_iff.mp ha
        rcases List.mem_cons.mp hmem with rfl | ha2
        · rcases htot a y with h2 | h2
          · exact absurd h2 (by simp [hxy])
          · exact h2
        · exact hp.1 a ha2
      · exact ih hp.2

theorem sortLe_sorted {α : Type} (le : α → α → Bool)
    (htot : ∀ a b, le a b = true ∨ le b a = true)
    (htr : ∀ a b c, le a b = true → le b c = true → le a c = true) :
    ∀ l : List α, (sortLe le l).Pairwise (fun a b => le a b = true) := by
  intro l
  induction l with
  | nil => simp [sortLe]
  | cons x t ih => exact insertLe_sorted le htot htr x _ ih

/-- Two arrangements of the same elements, both sorted along a key projection, with
no duplicate key, are equal: the sorted form of a dictionary is unique. -/
theorem sorted_perm_nodup_eq_gen {α : Type} (kf : α → String) :
    ∀ (l₁ l₂ : List α), l₁.Perm l₂ →
      l₁.Pairwise (fun a b => strLe (kf a) (kf b) = true) →
      l₂.Pairwise (fun a b => strLe (kf a) (kf b) = true) →
      (l₁.map kf).Nodup → l₁ = l₂ := by
  intro l₁
  induction l₁ with
  | nil => intro l₂ hp _ _ _; exact hp.symm.eq_nil.symm
  | cons a t₁ ih =>
    intro l₂ hp hs₁ hs₂ hnd
    cases l₂ with
    | nil => exact absurd hp.eq_nil (by simp)
    | cons b t₂ =>
      have hab : a = b := by
        have hbmem : b ∈ a :: t₁ := hp.symm.subset (by simp)
        rcases List.mem_cons.mp hbmem with h | h
        · exact h.symm
        · have hamem : a ∈ b :: t₂ := hp.subset (by simp)
          rcases List.mem_cons.mp hamem with h2 | h2
          · exact h2
          · have h1 : strLe (kf a) (kf b) = true := (List.pairwise_cons.mp hs₁).1 b h
            have h2' : strLe (kf b) (kf a) = true := (List.pairwise_cons.mp hs₂).1 a h2
            have hkey : kf a = kf b := strLe_antisymm h1 h2'
            exfalso
            have hdup : kf a ∈ t₁.map kf := by
              rw [hkey]
              exact List.mem_map.mpr ⟨b, h, rfl⟩
            rw [List.map_cons, List.nodup_cons] at hnd
            exact hnd.1 hdup
      subst hab
      have ht : t₁.Perm t₂ := hp.cons_inv
      have hndt : (t₁.map kf).Nodup := by
        rw [List.map_cons, List.nodup_cons] at hnd
        exact hnd.2
      have := ih t₂ ht (List.pairwise_cons.mp hs₁).2 (List.pairwise_cons.mp hs₂).2 hndt
      rw [this]

/-- Pair version used for dictionaries. -/
theorem sorted_perm_nodup_eq {β : Type} (l₁ l₂ : List (String × β)) (hp : l₁.Perm l₂)
    (h₁ : l₁.Pairwise (fun a b => strLe a.1 b.1 = true))
    (h₂ : l₂.Pairwise (fun a b => strLe a.1 b.1 = true))
    (hnd : (l₁.map Prod.fst).Nodup) : l₁ = l₂ :=
  sorted_perm_nodup_eq_gen Prod.fst l₁ l₂ hp h₁ h₂ hnd

/-- String-list counterpart of the uniqueness of the sorted arrangement. -/
theorem sorted_perm_nodup_eq_str (l₁ l₂ : List String) (hp : l₁.Perm l₂)
    (h₁ : l₁.Pairwise (fun a b => strLe a b = true))
    (h₂ : l₂.Pairwise (fun a b => strLe a b = true))
    (hnd : l₁.Nodup) : l₁ = l₂ :=
  sorted_perm_nodup_eq_gen id l₁ l₂ hp h₁ h₂ (by simpa using hnd)

/-- Python `s.startswith(p)`: both strings are code-point sequences. -/
def pyStartsWith (s p : String) : Bool := p.data.isPrefixOf s.data

/-- Python slicing `s[n:]` on code points. -/
def pyDrop (s : String) (n : Nat) : String := ⟨s.data.drop n⟩

/-! The document model: the values `json.loads` produces and the converter walks.
Python dicts are association lists with distinct keys in insertion order; numbers
that the converter passes through unchanged are embedded as `Int` (the code treats
`int`/`float` identically: `isinstance(data, (int, float)) → return data`). -/

inductive Doc where
  | null
  | bool (b : Bool)
  | num (n : Int)
  | str (s : String)
  | arr (xs : List Doc)
  | obj (kvs : List (String × Doc))
deriving Repr

/-- Python truthiness of a JSON value (`if optional:` and `if toon_data.get('_zlib'):`). -/
def docTruthy : Doc → Bool
  | .null => false
  | .bool b => b
  | .num n => n != 0
  | .str s => !s.data.isEmpty
  | .arr xs => !xs.isEmpty
  | .obj kvs => !kvs.isEmpty

def docTruthyOpt : Option Doc → Bool
  | none => false
  | some d => docTruthy d

/-- Key containment test `k in d` on a Python dict. -/
def hasKey (kvs : List (String × Doc)) (k : String) : Bool := kvs.any (fun p => p.1 == k)

/-- The compression levels of `CompressionLevel` in `advanced_converter.py`. -/
inductive CompressionLevel where
  | MINIMAL
  | STANDARD
  | AGGRESSIVE
  | EXTREME
deriving Repr, DecidableEq

def CompressionLevel.value : CompressionLevel → Nat
  | .MINIMAL => 1
  | .STANDARD => 2
  | .AGGRESSIVE => 3
  | .EXTREME => 4

/-- The `KEY_ABBREV` literal of `AdvancedTOONConverter`, transcribed pair by pair in
source order.  The Python literal assigns some keys twice (`state`, `position`,
`total`); Python dict-literal semantics (`pyDict`) keep the first position and the
last value. -/
def KEY_ABBREV_RAW : List (String × String) :=
  [("id", "i"), ("identifier", "idf"), ("uuid", "uid"), ("guid", "gid"),
   ("name", "n"), ("title", "ttl"), ("label", "lbl"), ("description", "dsc"),
   ("type", "t"), ("kind", "knd"), ("category", "cat"), ("class", "cls"),
   ("value", "v"), ("data", "d"), ("content", "cnt"), ("text", "txt"),
   ("status", "s"), ("state", "st"), ("enabled", "en"), ("disabled", "dis"),
   ("active", "act"), ("inactive", "inact"), ("visible", "vis"), ("hidden", "hid"),
   ("valid", "vld"), ("invalid", "invld"), ("pending", "pnd"), ("complete", "cmp"),
   ("metadata", "meta"), ("attributes", "attr"), ("properties", "prop"),
   ("configuration", "cfg"), ("settings", "set"), ("options", "opt"),
   ("parameters", "prm"), ("arguments", "arg"), ("flags", "flg"),
   ("timestamp", "ts"), ("created_at", "ca"), ("updated_at", "ua"),
   ("deleted_at", "da"), ("modified_at", "ma"), ("published_at", "pa"),
   ("created", "crt"), ("updated", "upd"), ("modified", "mod"),
   ("created_by", "cb"), ("updated_by", "ub"), ("modified_by", "mb"),
   ("user", "usr"), ("username", "unm"), ("email", "eml"), ("password", "pwd"),
   ("first_name", "fn"), ("last_name", "ln"), ("full_name", "fnm"),
   ("display_name", "dnm"), ("nickname", "nnm"), ("avatar", "avt"),
   ("profile", "prf"), ("account", "acc"), ("role", "rol"), ("permission", "prm"),
   ("phone", "ph"), ("mobile", "mob"), ("telephone", "tel"), ("fax", "fx"),
   ("address", "addr"), ("street", "str"), ("city", "cty"), ("state", "stt"),
   ("country", "ctry"), ("postal_code", "pc"), ("zip_code", "zc"),
   ("latitude", "lat"), ("longitude", "lng"), ("altitude", "alt"),
   ("coordinates", "coord"), ("location", "loc"), ("position", "pos"),
   ("region", "rgn"), ("zone", "zn"), ("area", "ar"),
   ("width", "w"), ("height", "h"), ("depth", "d"), ("length", "l"),
   ("size", "sz"), ("weight", "wt"), ("volume", "vol"), ("capacity", "cap"),
   ("distance", "dst"), ("duration", "dur"), ("quantity", "qty"),
   ("message", "m"), ("error", "err"), ("errors", "errs"), ("warning", "wrn"),
   ("success", "suc"), ("failure", "fail"), ("result", "res"), ("results", "rslts"),
   ("response", "rsp"), ("request", "req"), ("code", "cd"), ("status_code", "sc"),
   ("page", "pg"), ("per_page", "pp"), ("total", "tot"), ("count", "cnt"),
   ("total_pages", "tp"), ("total_count", "tc"), ("limit", "lmt"), ("offset", "ofs"),
   ("next", "nxt"), ("previous", "prv"), ("first", "fst"), ("last", "lst"),
   ("items", "itm"), ("list", "lst"), ("array", "arr"), ("collection", "col"),
   ("children", "ch"), ("parent", "par"), ("siblings", "sib"), ("ancestors", "anc"),
   ("index", "idx"), ("position", "pos"), ("order", "ord"), ("rank", "rnk"),
   ("priority", "pri"), ("sequence", "seq"), ("level", "lvl"),
   ("url", "url"), ("uri", "uri"), ("link", "lnk"), ("href", "hrf"),
   ("image", "img"), ("thumbnail", "thb"), ("icon", "icn"), ("logo", "lgo"),
   ("video", "vid"), ("audio", "aud"), ("file", "fil"), ("document", "doc"),
   ("table", "tbl"), ("column", "col"), ("row", "rw"), ("field", "fld"),
   ("primary_key", "pk"), ("foreign_key", "fk"), ("unique", "unq"),
   ("price", "prc"), ("cost", "cst"), ("amount", "amt"), ("total", "ttl"),
   ("subtotal", "sub"), ("tax", "tx"), ("discount", "dsc"), ("currency", "cur"),
   ("is_active", "ia"), ("is_valid", "iv"), ("is_deleted", "idl"),
   ("has_children", "hc"), ("can_edit", "ce"), ("can_delete", "cd"),
   ("version", "ver"), ("revision", "rev"), ("branch", "brn"), ("commit", "cmt")]

/-- The class attribute `KEY_ABBREV` as the Python dict it evaluates to. -/
def KEY_ABBREV : List (String × String) := pyDict KEY_ABBREV_RAW

/-- Reverse table: `ABBREV_KEY = {v: k for k, v in KEY_ABBREV.items()}`.  Where two
canonical keys share a short code, the later canonical key wins. -/
def ABBREV_KEY : List (String × String) := pyDict (KEY_ABBREV.map (fun p => (p.2, p.1)))

/-- `KEY_ABBREV` written out: the normalized dict the literal evaluates to, used in
lookups so that a key lookup is one linear scan instead of re-normalizing the
literal; `KEY_ABBREV_lit` below certifies it against the source literal. -/
def KEY_ABBREV_N : List (String × String) :=
  [("id", "i"), ("identifier", "idf"), ("uuid", "uid"), ("guid", "gid"), ("name", "n"),
   ("title", "ttl"), ("label", "lbl"), ("description", "dsc"), ("type", "t"),
   ("kind", "knd"), ("category", "cat"), ("class", "cls"), ("value", "v"), ("data", "d"),
   ("content", "cnt"), ("text", "txt"), ("status", "s"), ("state", "stt"),
   ("enabled", "en"), ("disabled", "dis"), ("active", "act"), ("inactive", "inact"),
   ("visible", "vis"), ("hidden", "hid"), ("valid", "vld"), ("invalid", "invld"),
   ("pending", "pnd"), ("complete", "cmp"), ("metadata", "meta"), ("attributes", "attr"),
   ("properties", "prop"), ("configuration", "cfg"), ("settings", "set"),
   ("options", "opt"), ("parameters", "prm"), ("arguments", "arg"), ("flags", "flg"),
   ("timestamp", "ts"), ("created_at", "ca"), ("updated_at", "ua"), ("deleted_at", "da"),
   ("modified_at", "ma"), ("published_at", "pa"), ("created", "crt"), ("updated", "upd"),
   ("modified", "mod"), ("created_by", "cb"), ("updated_by", "ub"), ("modified_by", "mb"),
   ("user", "usr"), ("username", "unm"), ("email", "eml"), ("password", "pwd"),
   ("first_name", "fn"), ("last_name", "ln"), ("full_name", "fnm"),
   ("display_name", "dnm"), ("nickname", "nnm"), ("avatar", "avt"), ("profile", "prf"),
   ("account", "acc"), ("role", "rol"), ("permission", "prm"), ("phone", "ph"),
   ("mobile", "mob"), ("telephone", "tel"), ("fax", "fx"), ("address", "addr"),
   ("street", "str"), ("city", "cty"), ("country", "ctry"), ("postal_code", "pc"),
   ("zip_code", "zc"), ("latitude", "lat"), ("longitude", "lng"), ("altitude", "alt"),
   ("coordinates", "coord"), ("location", "loc"), ("position", "pos"), ("region", "rgn"),
   ("zone", "zn"), ("area", "ar"), ("width", "w"), ("height", "h"), ("depth", "d"),
   ("length", "l"), ("size", "sz"), ("weight", "wt"), ("volume", "vol"),
   ("capacity", "cap"), ("distance", "dst"), ("duration", "dur"), ("quantity", "qty"),
   ("message", "m"), ("error", "err"), ("errors", "errs"), ("warning", "wrn"),
   ("success", "suc"), ("failure", "fail"), ("result", "res"), ("results", "rslts"),
   ("response", "rsp"), ("request", "req"), ("code", "cd"), ("status_code", "sc"),
   ("page", "pg"), ("per_page", "pp"), ("total", "ttl"), ("count", "cnt"),
   ("total_pages", "tp"), ("total_count", "tc"), ("limit", "lmt"), ("offset", "ofs"),
   ("next", "nxt"), ("previous", "prv"), ("first", "fst"), ("last", "lst"),
   ("items", "itm"), ("list", "lst"), ("array", "arr"), ("collection", "col"),
   ("children", "ch"), ("parent", "par"), ("siblings", "sib"), ("ancestors", "anc"),
   ("index", "idx"), ("order", "ord"), ("rank", "rnk"), ("priority", "pri"),
   ("sequence", "seq"), ("level", "lvl"), ("url", "url"), ("uri", "uri"), ("link", "lnk"),
   ("href", "hrf"), ("image", "img"), ("thumbnail", "thb"), ("icon", "icn"),
   ("logo", "lgo"), ("video", "vid"), ("audio", "aud"), ("file", "fil"),
   ("document", "doc"), ("table", "tbl"), ("column", "col"), ("row", "rw"),
   ("field", "fld"), ("primary_key", "pk"), ("foreign_key", "fk"), ("unique", "unq"),
   ("price", "prc"), ("cost", "cst"), ("amount", "amt"), ("subtotal", "sub"),
   ("tax", "tx"), ("discount", "dsc"), ("currency", "cur"), ("is_active", "ia"),
   ("is_valid", "iv"), ("is_deleted", "idl"), ("has_children", "hc"), ("can_edit", "ce"),
   ("can_delete", "cd"), ("version", "ver"), ("revision", "rev"), ("branch", "brn"),
   ("commit", "cmt")]

/-- `ABBREV_KEY` written out, certified by `ABBREV_KEY_lit` below. -/
def ABBREV_KEY_N : List (String × String) :=
  [("i", "id"), ("idf", "identifier"), ("uid", "uuid"), ("gid", "guid"), ("n", "name"),
   ("ttl", "total"), ("lbl", "label"), ("dsc", "discount"), ("t", "type"),
   ("knd", "kind"), ("cat", "category"), ("cls", "class"), ("v", "value"), ("d", "depth"),
   ("cnt", "count"), ("txt", "text"), ("s", "status"), ("stt", "state"),
   ("en", "enabled"), ("dis", "disabled"), ("act", "active"), ("inact", "inactive"),
   ("vis", "visible"), ("hid", "hidden"), ("vld", "valid"), ("invld", "invalid"),
   ("pnd", "pending"), ("cmp", "complete"), ("meta", "metadata"), ("attr", "attributes"),
   ("prop", "properties"), ("cfg", "configuration"), ("set", "settings"),
   ("opt", "options"), ("prm", "permission"), ("arg", "arguments"), ("flg", "flags"),
   ("ts", "timestamp"), ("ca", "created_at"), ("ua", "updated_at"), ("da", "deleted_at"),
   ("ma", "modified_at"), ("pa", "published_at"), ("crt", "created"), ("upd", "updated"),
   ("mod", "modified"), ("cb", "created_by"), ("ub", "updated_by"), ("mb", "modified_by"),
   ("usr", "user"), ("unm", "username"), ("eml", "email"), ("pwd", "password"),
   ("fn", "first_name"), ("ln", "last_name"), ("fnm", "full_name"),
   ("dnm", "display_name"), ("nnm", "nickname"), ("avt", "avatar"), ("prf", "profile"),
   ("acc", "account"), ("rol", "role"), ("ph", "phone"), ("mob", "mobile"),
   ("tel", "telephone"), ("fx", "fax"), ("addr", "address"), ("str", "street"),
   ("cty", "city"), ("ctry", "country"), ("pc", "postal_code"), ("zc", "zip_code"),
   ("lat", "latitude"), ("lng", "longitude"), ("alt", "altitude"),
   ("coord", "coordinates"), ("loc", "location"), ("pos", "position"), ("rgn", "region"),
   ("zn", "zone"), ("ar", "area"), ("w", "width"), ("h", "height"), ("l", "length"),
   ("sz", "size"), ("wt", "weight"), ("vol", "volume"), ("cap", "capacity"),
   ("dst", "distance"), ("dur", "duration"), ("qty", "quantity"), ("m", "message"),
   ("err", "error"), ("errs", "errors"), ("wrn", "warning"), ("suc", "success"),
   ("fail", "failure"), ("res", "result"), ("rslts", "results"), ("rsp", "response"),
   ("req", "request"), ("cd", "can_delete"), ("sc", "status_code"), ("pg", "page"),
   ("pp", "per_page"), ("tp", "total_pages"), ("tc", "total_count"), ("lmt", "limit"),
   ("ofs", "offset"), ("nxt", "next"), ("prv", "previous"), ("fst", "first"),
   ("lst", "list"), ("itm", "items"), ("arr", "array"), ("col", "column"),
   ("ch", "children"), ("par", "parent"), ("sib", "siblings"), ("anc", "ancestors"),
   ("idx", "index"), ("ord", "order"), ("rnk", "rank"), ("pri", "priority"),
   ("seq", "sequence"), ("lvl", "level"), ("url", "url"), ("uri", "uri"), ("lnk", "link"),
   ("hrf", "href"), ("img", "image"), ("thb", "thumbnail"), ("icn", "icon"),
   ("lgo", "logo"), ("vid", "video"), ("aud", "audio"), ("fil", "file"),
   ("doc", "document"), ("tbl", "table"), ("rw", "row"), ("fld", "field"),
   ("pk", "primary_key"), ("fk", "foreign_key"), ("unq", "unique"), ("prc", "price"),
   ("cst", "cost"), ("amt", "amount"), ("sub", "subtotal"), ("tx", "tax"),
   ("cur", "currency"), ("ia", "is_active"), ("iv", "is_valid"), ("idl", "is_deleted"),
   ("hc", "has_children"), ("ce", "can_edit"), ("ver", "version"), ("rev", "revision"),
   ("brn", "branch"), ("cmt", "commit")]

theorem KEY_ABBREV_lit : KEY_ABBREV = KEY_ABBREV_N := by decide

theorem ABBREV_KEY_lit : ABBREV_KEY = ABBREV_KEY_N := by decide

/-- Key abbreviation lookup `self.KEY_ABBREV.get(key, key)`. -/
def abbrevKey (k : String) : String := (List.lookup k KEY_ABBREV_N).getD k

/-- Key expansion lookup `self.ABBREV_KEY.get(key, key)`. -/
def expandKey (k : String) : String := (List.lookup k ABBREV_KEY_N).getD k

/-! The two value-pattern matchers `_compress_string` consults, the full-match
regular expressions `VALUE_PATTERNS['iso_timestamp']` and `VALUE_PATTERNS['uuid']`
unfolded into character-level checks.  `\d` is modelled as the ASCII digits; the
classification result only decides which round-tripping tag a string receives, so
no claim depends on the wider Unicode digit set. -/

def isDig (c : Char) : Bool := 48 ≤ c.toNat && c.toNat ≤ 57

/-- Tail `(Z|[+-]\d{2}:\d{2})?$` of the timestamp pattern. -/
def isoTzTail : List Char → Bool
  | [] => true
  | ['Z'] => true
  | [sg, h1, h2, ':', m1, m2] =>
    (sg == '+' || sg == '-') && isDig h1 && isDig h2 && isDig m1 && isDig m2
  | _ => false

/-- Tail `(\.\d+)?(Z|[+-]\d{2}:\d{2})?$` of the timestamp pattern. -/
def isoFracTail : List Char → Bool
  | '.' :: rest =>
    let ds := rest.takeWhile isDig
    !ds.isEmpty && isoTzTail (rest.drop ds.length)
  | cs => isoTzTail cs

/-- Full match of `^\d{4}-\d{2}-\d{2}T\d{2}:\d{2}:\d{2}(\.\d+)?(Z|[+-]\d{2}:\d{2})?$`. -/
def isoTimestamp (s : String) : Bool :=
  match s.data with
  | y1 :: y2 :: y3 :: y4 :: '-' :: mo1 :: mo2 :: '-' :: d1 :: d2 :: 'T' ::
      h1 :: h2 :: ':' :: mi1 :: mi2 :: ':' :: s1 :: s2 :: rest =>
    ([y1, y2, y3, y4, mo1, mo2, d1, d2, h1, h2, mi1, mi2, s1, s2].all isDig) &&
      isoFracTail rest
  | _ => false

def isHexL (c : Char) : Bool := isDig c || (97 ≤ c.toNat && c.toNat ≤ 102)

/-- Splitting on the dash character, the shape test of the uuid pattern. -/
def splitDash : List Char → List (List Char)
  | [] => [[]]
  | '-' :: t => [] :: splitDash t
  | c :: t =>
    match splitDash t with
    | g :: gs => (c :: g) :: gs
    | [] => [[c]]

/-- Full match of `^[0-9a-f]{8}-[0-9a-f]{4}-[0-9a-f]{4}-[0-9a-f]{4}-[0-9a-f]{12}$`. -/
def isUuidStr (s : String) : Bool :=
  match splitDash s.data with
  | [a, b, c, d, e] =>
    a.length == 8 && b.length == 4 && c.length == 4 && d.length == 4 &&
      e.length == 12 && (a ++ b ++ c ++ d ++ e).all isHexL
  | _ => false

/-! The encoder (`json_to_toon` and its helpers). -/

/-- The string transform `_compress_string`: dictionary substitution first (first
matching dictionary entry wins), then pattern tagging, both only at AGGRESSIVE and
above; otherwise the string passes through unchanged. -/
def compressString (lvl : Nat) (sdict : List (String × String)) (s : String) : String :=
  match (if 3 ≤ lvl then sdict.find? (fun p => p.2 == s) else none) with
  | some p => "@" ++ p.1
  | none =>
    if 3 ≤ lvl then
      if isoTimestamp s then "$ts:" ++ s
      else if isUuidStr s then "$uid:" ++ s
      else s
    else s

/-- The object transform `_compress_object`: abbreviate each key (guarded by the
always-true MINIMAL check in the source) and assign into a fresh dict. -/
def mkObjPy (lvl : Nat) (pairs : List (String × Doc)) : List (String × Doc) :=
  pairs.foldl (fun acc kv =>
    pyInsert acc (if 1 ≤ lvl then abbrevKey kv.1 else kv.1) kv.2) []

/-- Per-element view an array conversion needs: an object element keeps its original
keys with already-converted values, everything else is carried fully converted. -/
inductive ConvElem where
  | objE (pairs : List (String × Doc))
  | other (c : Doc)

def ConvElem.isObjE : ConvElem → Bool
  | .objE _ => true
  | .other _ => false

def ConvElem.pairs : ConvElem → List (String × Doc)
  | .objE ps => ps
  | .other _ => []

/-- The fully converted element (what the per-element fallback of `_compress_array`
emits). -/
def ConvElem.fallback (lvl : Nat) : ConvElem → Doc
  | .objE ps => .obj (mkObjPy lvl ps)
  | .other c => c

/-- `set.intersection(*all_keys)`: the distinct keys present in every element. -/
def interKeys : List (List String) → List String
  | [] => []
  | k :: rest => rest.foldl (fun acc ks => acc.filter (fun x => ks.contains x)) (pyDedup k)

/-- Keys of pairs sorted the way `sorted(keys)` sorts them. -/
def sortStr (l : List String) : List String := sortLe strLe l

def sortPairsLe (l : List (String × Doc)) : List (String × Doc) :=
  sortLe (fun a b => strLe a.1 b.1) l

/-- Row of a partial-schema block for one element: common-key values in sorted key
order, then, when the element has extra keys, one `\x7b'_opt': ...\x7d` side map built
with abbreviated keys in element order. -/
def mkPartialRow (common : List String) (o : List (String × Doc)) : Doc :=
  let row := (sortPairsLe (o.filter (fun kv => common.contains kv.1))).map Prod.snd
  let opt := (o.filter (fun kv => !common.contains kv.1)).foldl
    (fun acc kv => pyInsert acc (abbrevKey kv.1) kv.2) []
  .arr (if opt.isEmpty then row else row ++ [.obj [("_opt", .obj opt)]])

/-- The array transform `_compress_array`, assembled from the per-element converted
views.  The branch structure mirrors the source: empty arrays stay empty; for arrays
of dicts at STANDARD and above, identical sorted key sets give a schema block; at
AGGRESSIVE and above a common-key intersection of at least 3 gives a partial-schema
block; otherwise each element is converted individually.  A row of the perfect block
is the element's values in sorted-key order, which for a Python dict is exactly
`[convert(item[k]) for k in sorted(arr[0].keys())]`. -/
def mkArray (lvl : Nat) (es : List ConvElem) : Doc :=
  if es.isEmpty then .arr []
  else if es.all ConvElem.isObjE then
    let allPairs := es.map ConvElem.pairs
    let allKeys := allPairs.map (fun o => o.map Prod.fst)
    let shapes := allKeys.map (fun ks => sortStr (pyDedup ks))
    if 2 ≤ lvl then
      if (pyDedup shapes).length == 1 then
        let keys := sortStr (allKeys.headD [])
        .obj [("_sch", .arr (keys.map (fun k => .str (abbrevKey k)))),
              ("_dat", .arr (allPairs.map (fun o => .arr ((sortPairsLe o).map Prod.snd))))]
      else if 3 ≤ lvl then
        let common := interKeys allKeys
        if 3 ≤ common.length then
          .obj [("_sch", .arr ((sortStr common).map (fun k => .str (abbrevKey k)))),
                ("_dat", .arr (allPairs.map (mkPartialRow common)))]
        else .arr (es.map (ConvElem.fallback lvl))
      else .arr (es.map (ConvElem.fallback lvl))
    else .arr (es.map (ConvElem.fallback lvl))
  else .arr (es.map (ConvElem.fallback lvl))

mutual

/-- The recursive transform `_convert_to_toon`. -/
def conv (lvl : Nat) (sdict : List (String × String)) : Doc → Doc
  | .null => .str "~"
  | .bool b => .str (if b then "T" else "F")
  | .num n => .num n
  | .str s => .str (compressString lvl sdict s)
  | .arr xs => mkArray lvl (convElems lvl sdict xs)
  | .obj kvs => .obj (mkObjPy lvl (convVals lvl sdict kvs))

/-- Values of an object converted in place, original keys kept. -/
def convVals (lvl : Nat) (sdict : List (String × String)) :
    List (String × Doc) → List (String × Doc)
  | [] => []
  | (k, v) :: t => (k, conv lvl sdict v) :: convVals lvl sdict t

/-- Per-element converted views of an array. -/
def convElems (lvl : Nat) (sdict : List (String × String)) : List Doc → List ConvElem
  | [] => []
  | .obj kvs :: t => .objE (convVals lvl sdict kvs) :: convElems lvl sdict t
  | x :: t => .other (conv lvl sdict x) :: convElems lvl sdict t

end

/-! String-dictionary construction `_build_string_dict`: every string longer than 10
code points, counted over the whole tree (dict values and array items), kept when it
occurs at least twice, with ids `s0, s1, ...` in first-occurrence order. -/

mutual

def collectStrings : Doc → List String
  | .str s => if 10 < s.data.length then [s] else []
  | .arr xs => collectStringsList xs
  | .obj kvs => collectStringsPairs kvs
  | _ => []

def collectStringsList : List Doc → List String
  | [] => []
  | x :: t => collectStrings x ++ collectStringsList t

def collectStringsPairs : List (String × Doc) → List String
  | [] => []
  | (_, v) :: t => collectStrings v ++ collectStringsPairs t

end

def buildStringDict (d : Doc) : List (String × String) :=
  let strs := collectStrings d
  ((pyDedup strs).filter (fun s => 2 ≤ strs.count s)).enum.map
    (fun p => ("s" ++ natToStr p.1, p.2))

/-! Reference-cache construction `_build_ref_cache`: every dict in the tree is
recorded pre-order with its shape `json.dumps(sorted(d.keys()))`; shapes occurring
at least 3 times get ids `r0, r1, ...` in first-occurrence order, each bound to the
first dict of that shape. -/

mutual

def collectShapes : Doc → List (List String × List (String × Doc))
  | .obj kvs => (sortStr (kvs.map Prod.fst), kvs) :: collectShapesPairs kvs
  | .arr xs => collectShapesList xs
  | _ => []

def collectShapesList : List Doc → List (List String × List (String × Doc))
  | [] => []
  | x :: t => collectShapes x ++ collectShapesList t

def collectShapesPairs : List (String × Doc) → List (List String × List (String × Doc))
  | [] => []
  | (_, v) :: t => collectShapes v ++ collectShapesPairs t

end

def firstWithShape (occs : List (List String × List (String × Doc))) (sh : List String) :
    List (String × Doc) :=
  match occs.find? (fun o => o.1 == sh) with
  | some o => o.2
  | none => []

def buildRefCache (d : Doc) : List (String × Doc) :=
  let occs := collectShapes d
  let shapes := occs.map Prod.fst
  ((pyDedup shapes).filter (fun sh => 3 ≤ shapes.count sh)).enum.map
    (fun p => ("r" ++ natToStr p.1, .obj (firstWithShape occs p.2)))

/-! The envelope. -/

/-- The result dict `json_to_toon` assembles before serialization: version tag,
level tag, data, then the reference cache and the string dictionary when non-empty. -/
def mkEnvDoc (lvl : Int) (data : Doc) (refsC : List (String × Doc))
    (sdict : List (String × String)) : Doc :=
  .obj (([("_toon", Doc.str "2.0"), ("_lvl", Doc.num lvl), ("d", data)]
    ++ (if refsC.isEmpty then [] else [("_refs", Doc.obj refsC)]))
    ++ (if sdict.isEmpty then [] else
        [("_dict", Doc.obj (sdict.map (fun p => (p.1, Doc.str p.2))))]))

/-- The serialized text `json_to_toon` returns.  `raw env` stands for the compact
`json.dumps` of the envelope; `zwrap lvl zflag inner` stands for the EXTREME wrapper
`\x7b"_toon": "2.0", "_lvl": lvl, "_zlib": zflag, "d": base64(zlib(dumps(inner)))\x7d` —
the three byte-level steps are lossless library bijections inverted exactly by the
decoder, so the model carries the inner envelope itself. -/
inductive ToonText where
  | raw (env : Doc)
  | zwrap (lvl : Nat) (zflag : Bool) (inner : Doc)

/-- The `_zlib` flag the produced text carries. -/
def zlibFlagOf : ToonText → Bool
  | .raw env =>
    match env with
    | .obj kvs => docTruthyOpt (List.lookup "_zlib" kvs)
    | _ => false
  | .zwrap _ zf _ => zf

/-- The encoder `json_to_toon` for a document already parsed into the model (the
`json.loads` acceptance of string input and the per-call metrics counters are
outside the claims).  State is reset per call, the reference cache is built at
STANDARD+, the string dictionary at AGGRESSIVE+, the tree is converted, the
envelope assembled, and at EXTREME the envelope is wrapped in the zlib wrapper. -/
def json_to_toon (level : CompressionLevel) (data : Doc) : ToonText :=
  let lvl := level.value
  let refsC := if 2 ≤ lvl then buildRefCache data else []
  let sdict := if 3 ≤ lvl then buildStringDict data else []
  let toonData := conv lvl sdict data
  let env := mkEnvDoc lvl toonData refsC sdict
  if level = CompressionLevel.EXTREME then .zwrap 4 true env else .raw env

/-! The decoder (`toon_to_json` and its helpers).  Failures are explicit: the
constructors stand for the Python exceptions the corresponding lines raise. -/

inductive DErr where
  /-- `ValueError("Invalid TOON format: missing _toon version")` -/
  | missingVersion
  /-- `IndexError` from `row[-1]` on an empty row -/
  | indexError
  /-- `TypeError`/`AttributeError` from operating on a value of the wrong shape -/
  | typeError
  /-- `KeyError` from a mandatory key lookup -/
  | keyError
  /-- `binascii.Error`/`zlib.error` from an invalid compressed payload -/
  | zlibPayload
deriving Repr, DecidableEq

/-- The scalar-token half of `_convert_from_toon`: the sentinel equalities checked
first, then the string-prefix interpretations in source order.  The `@s`/`@r`
branches return the dictionary or reference entry as stored, without recursing. -/
def decStr (refs sdict : List (String × Doc)) (s : String) : Doc :=
  if s == "~" then .null
  else if s == "T" then .bool true
  else if s == "F" then .bool false
  else if pyStartsWith s "@s" then (List.lookup (pyDrop s 1) sdict).getD (.str s)
  else if pyStartsWith s "$ts:" then .str (pyDrop s 4)
  else if pyStartsWith s "$uid:" then .str (pyDrop s 5)
  else if pyStartsWith s "@r" then (List.lookup (pyDrop s 1) refs).getD (.str s)
  else .str s

/-- Entry of a schema list used as a key: the encoder only ever emits strings here;
a non-string entry would be used as a raw (non-string) dict key by Python and is
unrepresentable, so it is mapped to the empty key. -/
def schemaEntryKey : Doc → String
  | .str s => expandKey s
  | _ => ""

/-- Test `isinstance(row[-1], dict) and '_opt' in row[-1]` of a row's last cell. -/
def isOptMarker : Doc → Bool
  | .obj lkvs => hasKey lkvs "_opt"
  | _ => false

/-- Reading `schema = data['_sch']` and expanding its entries, the first two lines
of `_decompress_schema_array`; `none` stands for the TypeError Python raises when
iterating a non-list schema. -/
def schemaKeysOf (kvs : List (String × Doc)) : Option (List String) :=
  match List.lookup "_sch" kvs with
  | some (.arr ss) => some (ss.map schemaEntryKey)
  | _ => none

mutual

/-- The recursive transform `_convert_from_toon`. -/
def dec (refs sdict : List (String × Doc)) : Doc → Except DErr Doc
  | .null => .ok .null
  | .bool b => .ok (.bool b)
  | .num n => .ok (.num n)
  | .str s => .ok (decStr refs sdict s)
  | .arr xs =>
    match decList refs sdict xs with
    | .error e => .error e
    | .ok es => .ok (.arr es)
  | .obj kvs =>
    if hasKey kvs "_sch" && hasKey kvs "_dat" then
      match schemaKeysOf kvs with
      | none => .error .typeError
      | some keys => decSchemaDat refs sdict keys kvs
    else
      match decPairs refs sdict kvs with
      | .error e => .error e
      | .ok ps => .ok (.obj (pyFold [] ps))

/-- Elements of a list decoded in order, first error propagated. -/
def decList (refs sdict : List (String × Doc)) : List Doc → Except DErr (List Doc)
  | [] => .ok []
  | x :: t =>
    match dec refs sdict x with
    | .error e => .error e
    | .ok v =>
      match decList refs sdict t with
      | .error e => .error e
      | .ok vs => .ok (v :: vs)

/-- Pairs of `_decompress_object`: keys expanded, values decoded, in order. -/
def decPairs (refs sdict : List (String × Doc)) :
    List (String × Doc) → Except DErr (List (String × Doc))
  | [] => .ok []
  | (k, v) :: t =>
    match dec refs sdict v with
    | .error e => .error e
    | .ok w =>
      match decPairs refs sdict t with
      | .error e => .error e
      | .ok ws => .ok ((expandKey k, w) :: ws)

/-- Walk to the `_dat` entry; its value must be the row list. -/
def decSchemaDat (refs sdict : List (String × Doc)) (keys : List String) :
    List (String × Doc) → Except DErr Doc
  | [] => .error .keyError
  | ("_dat", .arr rows) :: _ =>
    match decRows refs sdict keys rows with
    | .error e => .error e
    | .ok objs => .ok (.arr objs)
  | ("_dat", _) :: _ => .error .typeError
  | _ :: t => decSchemaDat refs sdict keys t

/-- The `for row in values` loop of `_decompress_schema_array`.  For each row,
`row[-1]` on an empty row raises IndexError; otherwise the optional side map is
detected on the last cell, the cells are paired with the expanded keys
(`if i < len(row_data)` truncation on either side), and the object is assembled by
Python dict assignment with the optional pairs merged last — the exact effect of
the two loops in the source. -/
def decRows (refs sdict : List (String × Doc)) (keys : List String) :
    List Doc → Except DErr (List Doc)
  | [] => .ok []
  | .arr cells :: t =>
    match cells.getLast? with
    | none => .error .indexError
    | some last =>
      match decCells refs sdict keys cells (isOptMarker last) with
      | .error e => .error e
      | .ok (pairs, opts) =>
        match decRows refs sdict keys t with
        | .error e => .error e
        | .ok rest => .ok (.obj (pyFold (pyFold [] pairs) opts) :: rest)
  | _ :: _ => .error .typeError

/-- Cells paired with keys in step; when the marker flag is set the final cell is
the `\x7b'_opt': ...\x7d` side map and is processed as such instead of as a value. -/
def decCells (refs sdict : List (String × Doc)) :
    List String → List Doc → Bool → Except DErr (List (String × Doc) × List (String × Doc))
  | _, [], _ => .ok ([], [])
  | _, [c], true => decMarker refs sdict c
  | [], _ :: ct, mk => decCells refs sdict [] ct mk
  | k :: kt, c :: ct, mk =>
    match dec refs sdict c with
    | .error e => .error e
    | .ok v =>
      match decCells refs sdict kt ct mk with
      | .error e => .error e
      | .ok (pairs, opts) => .ok ((k, v) :: pairs, opts)

/-- The marker cell: `optional = row[-1]['_opt']`, then `if optional:` truthiness,
then `optional.items()` with keys expanded and values decoded. -/
def decMarker (refs sdict : List (String × Doc)) :
    Doc → Except DErr (List (String × Doc) × List (String × Doc))
  | .obj lkvs => decMarkerPairs refs sdict lkvs
  | _ => .error .typeError

def decMarkerPairs (refs sdict : List (String × Doc)) :
    List (String × Doc) → Except DErr (List (String × Doc) × List (String × Doc))
  | [] => .error .keyError
  | ("_opt", optv) :: _ =>
    if docTruthy optv then
      match optv with
      | .obj okvs =>
        match decOptPairs refs sdict okvs with
        | .error e => .error e
        | .ok opts => .ok ([], opts)
      | _ => .error .typeError
    else .ok ([], [])
  | _ :: t => decMarkerPairs refs sdict t

/-- The optional side map: keys expanded, values decoded, in order. -/
def decOptPairs (refs sdict : List (String × Doc)) :
    List (String × Doc) → Except DErr (List (String × Doc))
  | [] => .ok []
  | (k, v) :: t =>
    match dec refs sdict v with
    | .error e => .error e
    | .ok w =>
      match decOptPairs refs sdict t with
      | .error e => .error e
      | .ok ws => .ok ((expandKey k, w) :: ws)

end

/-- Accessor `d.get(k)` on a parsed envelope. -/
def pyGet (env : Doc) (k : String) : Option Doc :=
  match env with
  | .obj kvs => List.lookup k kvs
  | _ => none

/-- View of `toon_data.get('_refs', \x7b\x7d)` / `..get('_dict', \x7b\x7d)` as an
association list; the encoder only ever emits dicts here (Python would fail the
subsequent `.get` on anything else). -/
def asObjD : Option Doc → List (String × Doc)
  | some (.obj kvs) => kvs
  | _ => []

/-- Body of `toon_to_json` after the version and compression checks: load the
references and the string dictionary, then convert `toon_data['d']`. -/
def decodeBody (env : Doc) : Except DErr Doc :=
  let refs := asObjD (pyGet env "_refs")
  let sdict := asObjD (pyGet env "_dict")
  match pyGet env "d" with
  | some d => dec refs sdict d
  | none => .error .keyError

/-- The decoder `toon_to_json` on the serialized text: a missing `_toon` tag is a
format error; a truthy `_zlib` tag routes through the byte-decompression first
(which on the wrapper produced by the encoder recovers the inner envelope exactly,
and on a raw envelope's uncompressed payload raises); the level tag is never
consulted. -/
def toon_to_json : ToonText → Except DErr Doc
  | .raw env =>
    if (pyGet env "_toon").isSome then
      if docTruthyOpt (pyGet env "_zlib") then .error .zlibPayload
      else decodeBody env
    else .error .missingVersion
  | .zwrap _ zflag inner =>
    if zflag then decodeBody inner
    else .error .zlibPayload

/-! Structural equality up to object key order: `norm` recursively sorts every
object's pairs by key, after normalizing the values. -/

mutual

def normDoc : Doc → Doc
  | .null => .null
  | .bool b => .bool b
  | .num n => .num n
  | .str s => .str s
  | .arr xs => .arr (normList xs)
  | .obj kvs => .obj (sortPairsLe (normPairs kvs))

def normList : List Doc → List Doc
  | [] => []
  | x :: t => normDoc x :: normList t

def normPairs : List (String × Doc) → List (String × Doc)
  | [] => []
  | (k, v) :: t => (k, normDoc v) :: normPairs t

end

/-! The safe fragment: documents whose strings avoid the decoder's reserved token
forms, whose keys avoid the envelope's structural names and are faithfully inverted
by the abbreviation tables, and which contain no non-empty array made solely of
empty objects (the shape on which the decoder's `row[-1]` crashes). -/

/-- Key whose round trip through the tables is the identity and which cannot be
mistaken for a structural marker. -/
def safeKey (k : String) : Bool :=
  !pyStartsWith k "_" && expandKey (abbrevKey k) == k

/-- String scalar no reserved token form matches. -/
def safeStr (s : String) : Bool :=
  !(s == "~") && !(s == "T") && !(s == "F") &&
    !pyStartsWith s "@" && !pyStartsWith s "$"

/-- Distinctness of a key list, computably. -/
def nodupKeys : List String → Bool
  | [] => true
  | x :: t => !t.contains x && nodupKeys t

def isEmptyObj : Doc → Bool
  | .obj [] => true
  | _ => false

mutual

def safeDoc : Doc → Bool
  | .null => true
  | .bool _ => true
  | .num _ => true
  | .str s => safeStr s
  | .arr xs => !(!xs.isEmpty && xs.all isEmptyObj) && safeList xs
  | .obj kvs =>
    nodupKeys (kvs.map Prod.fst) && nodupKeys ((kvs.map Prod.fst).map abbrevKey) &&
      safePairs kvs

def safeList : List Doc → Bool
  | [] => true
  | x :: t => safeDoc x && safeList t

def safePairs : List (String × Doc) → Bool
  | [] => true
  | (k, v) :: t => safeKey k && safeDoc v && safePairs t

end

/-! No string literal of the document (value or key) starts with the
reference-marker prefix `@r`. -/

mutual

def noAtR : Doc → Bool
  | .null => true
  | .bool _ => true
  | .num _ => true
  | .str s => !pyStartsWith s "@r"
  | .arr xs => noAtRList xs
  | .obj kvs => noAtRPairs kvs

def noAtRList : List Doc → Bool
  | [] => true
  | x :: t => noAtR x && noAtRList t

def noAtRPairs : List (String × Doc) → Bool
  | [] => true
  | (k, v) :: t => !pyStartsWith k "@r" && noAtR v && noAtRPairs t

end

/-! The metrics calculator `calculate_metrics`.  Python's float arithmetic on the
two lengths is embedded as exact rational arithmetic; `round(x, 2)` becomes
rounding of the scaled rational (the two differ only on exact half-cent ties,
which the float computation does not produce reliably either). -/

/-- Python `round(x, 2)` on the exact rational value. -/
def round2 (q : ℚ) : ℚ := (round (q * 100) : ℤ) / 100

/-- The fields of `ConversionMetrics` the arithmetic fills (the technique counters
are copied from the per-call mutable counters and carry no arithmetic).  The source
field `compression_ratio` is named `ratio_q` here. -/
structure ConversionMetrics where
  original_size : Nat
  compressed_size : Nat
  ratio_q : ℚ
  savings_percent : ℚ
deriving Repr

/-- The arithmetic of `calculate_metrics`: sizes are `len` of the two texts,
savings percent is `savings / original_size * 100` guarded by `original_size > 0`,
the ratio is `compressed_size / original_size` under the same guard, and the
percent is rounded to two decimals at construction. -/
def calculate_metrics (original_json toon_str : String) : ConversionMetrics :=
  let original_size := original_json.data.length
  let compressed_size := toon_str.data.length
  let savings : ℚ := (original_size : ℚ) - (compressed_size : ℚ)
  let savings_percent : ℚ :=
    if 0 < original_size then savings / (original_size : ℚ) * 100 else 0
  let ratio_q : ℚ :=
    if 0 < original_size then (compressed_size : ℚ) / (original_size : ℚ) else 0
  ⟨original_size, compressed_size, ratio_q, round2 savings_percent⟩

/-! The strategy planner `get_compression_strategy` of `pattern_analyzer.py`.
The planner folds the analyzer's pattern findings into a strategy; the pattern
list and the custom-abbreviation suggestions are the fold's inputs here (the
source obtains them from `self.analyze(data)` and
`self.suggest_custom_abbreviations()`), which is exactly the quantification the
claim makes.  The human-readable `reasoning` trace carries no semantics and is
not modelled. -/

inductive PatternType where
  | api_response
  | database_record
  | user_data
  | pagination
  | nested_address
  | nested_coordinates
  | nested_dimensions
  | nested_metadata
  | homogeneous_array
  | consistent_schema_array
  | repeated_structure
  | time_series
  | graph_node
  | tree_structure
  | enum_values
  | sparse_array
  | deep_nesting
deriving Repr, DecidableEq

structure Pattern where
  pattern_type : PatternType
  confidence : ℚ
  location : String
  count : Nat
  compression_potential : ℚ
deriving Repr

structure CompressionStrategy where
  use_schema_compression : Bool
  use_reference_compression : Bool
  use_string_dictionary : Bool
  use_value_compression : Bool
  use_partial_schema : Bool
  custom_abbreviations : List (String × String)
  expected_savings : ℚ
  recommended_level : Nat
  patterns : List Pattern
deriving Repr

/-- One iteration of the `for pattern in patterns` loop. -/
def stratStep (st : CompressionStrategy) (p : Pattern) : CompressionStrategy :=
  if p.pattern_type = PatternType.consistent_schema_array then
    if (0.8 : ℚ) < p.confidence then
      CompressionStrategy.mk true st.use_reference_compression st.use_string_dictionary
        st.use_value_compression st.use_partial_schema st.custom_abbreviations
        (st.expected_savings + 0.25) st.recommended_level st.patterns
    else if (0.5 : ℚ) < p.confidence then
      CompressionStrategy.mk st.use_schema_compression st.use_reference_compression
        st.use_string_dictionary st.use_value_compression true st.custom_abbreviations
        (st.expected_savings + 0.15) st.recommended_level st.patterns
    else st
  else if p.pattern_type = PatternType.repeated_structure then
    if 3 ≤ p.count then
      CompressionStrategy.mk st.use_schema_compression true st.use_string_dictionary
        st.use_value_compression st.use_partial_schema st.custom_abbreviations
        (st.expected_savings + min (0.20 : ℚ) ((p.count : ℚ) * 0.02))
        st.recommended_level st.patterns
    else st
  else if p.pattern_type = PatternType.enum_values then
    CompressionStrategy.mk st.use_schema_compression st.use_reference_compression true
      st.use_value_compression st.use_partial_schema st.custom_abbreviations
      (st.expected_savings + 0.15) st.recommended_level st.patterns
  else if p.pattern_type = PatternType.time_series ∨
      p.pattern_type = PatternType.database_record then
    CompressionStrategy.mk st.use_schema_compression st.use_reference_compression
      st.use_string_dictionary true st.use_partial_schema st.custom_abbreviations
      (st.expected_savings + 0.10) st.recommended_level st.patterns
  else st

/-- The planner: default strategy (STANDARD), the pattern fold, the
custom-abbreviation bonus (guarded by Python truthiness of the dict), the level
thresholds on the accumulated savings, and the final cap at 0.85 — in source
order. -/
def get_compression_strategy (patterns : List Pattern)
    (custom_abbrevs : List (String × String)) : CompressionStrategy :=
  let st0 := CompressionStrategy.mk false false false false false [] 0 2 patterns
  let st1 := patterns.foldl stratStep st0
  let st2 :=
    if custom_abbrevs.isEmpty then st1
    else
      CompressionStrategy.mk st1.use_schema_compression st1.use_reference_compression
        st1.use_string_dictionary st1.use_value_compression st1.use_partial_schema
        custom_abbrevs
        (st1.expected_savings + (custom_abbrevs.length : ℚ) * 0.01)
        st1.recommended_level st1.patterns
  let lvl : Nat :=
    if (0.6 : ℚ) < st2.expected_savings then 4
    else if (0.4 : ℚ) < st2.expected_savings then 3
    else if (0.2 : ℚ) < st2.expected_savings then 2
    else 1
  CompressionStrategy.mk st2.use_schema_compression st2.use_reference_compression
    st2.use_string_dictionary st2.use_value_compression st2.use_partial_schema
    st2.custom_abbreviations (min st2.expected_savings 0.85) lvl st2.patterns

/-! Claim theorems. -/

/-- C2: the built-in abbreviation table is not a bijection in the expansion
direction — the canonical keys `title` and `total` share the short code `ttl`
(`last`/`list`, `data`/`depth`, `description`/`discount`, `content`/`count`,
`parameters`/`permission`, `code`/`can_delete`, `collection`/`column` collide
likewise), and expanding the abbreviation of `title` yields `total`, so
`expand(abbreviate('title')) ≠ 'title'`.  Stated over the source tables
`KEY_ABBREV`/`ABBREV_KEY` directly. -/
theorem abbrev_table_not_bijective :
    List.lookup "title" KEY_ABBREV = some "ttl" ∧
    List.lookup "total" KEY_ABBREV = some "ttl" ∧
    ("title" : String) ≠ "total" ∧
    abbrevKey "title" = "ttl" ∧ abbrevKey "total" = "ttl" ∧
    expandKey (abbrevKey "title") = "total" := by
  refine ⟨by decide, by decide, by decide, rfl, rfl, rfl⟩

/-- C3: encoding a non-empty array of empty objects at STANDARD or above produces
a schema block with an empty key list and empty rows, and decoding it fails with
the indexing error `row[-1]` raises on an empty row, rather than returning the
document or a format error. -/
theorem empty_objects_array_decode_index_error (L : CompressionLevel)
    (h : 2 ≤ L.value) :
    toon_to_json (json_to_toon L (.arr [.obj [], .obj [], .obj []])) =
      .error .indexError := by
  cases L with
  | MINIMAL => simp [CompressionLevel.value] at h
  | STANDARD => rfl
  | AGGRESSIVE => rfl
  | EXTREME => rfl

theorem empty_objects_array_decode_index_error_witness :
    2 ≤ CompressionLevel.STANDARD.value ∧
      toon_to_json (json_to_toon .STANDARD (.arr [.obj [], .obj [], .obj []])) =
        .error .indexError :=
  ⟨by decide, empty_objects_array_decode_index_error .STANDARD (by decide)⟩

/-- Helper: the body of the decoder on an assembled envelope is the tree transform
under the envelope's reference and dictionary tables, whatever the level tag. -/
theorem decodeBody_mkEnv (lvl : Int) (d : Doc) (r : List (String × Doc))
    (s : List (String × String)) :
    decodeBody (mkEnvDoc lvl d r s) =
      dec r (s.map (fun p => (p.1, Doc.str p.2))) d := by
  cases r <;> cases s <;> rfl

theorem pyGet_mkEnv_toon (lvl : Int) (d : Doc) (r : List (String × Doc))
    (s : List (String × String)) :
    pyGet (mkEnvDoc lvl d r s) "_toon" = some (.str "2.0") := by
  cases r <;> cases s <;> rfl

theorem pyGet_mkEnv_zlib (lvl : Int) (d : Doc) (r : List (String × Doc))
    (s : List (String × String)) :
    pyGet (mkEnvDoc lvl d r s) "_zlib" = none := by
  cases r <;> cases s <;> rfl

/-- C5 (amended): the decoder never inspects the level tag.  Decoding two
envelopes that differ only in their `_lvl` value yields identical results; no
unsupported-level check exists on the decode path of the codec. -/
theorem decode_ignores_level_tag (l1 l2 : Int) (d : Doc) (r : List (String × Doc))
    (s : List (String × String)) :
    toon_to_json (.raw (mkEnvDoc l1 d r s)) = toon_to_json (.raw (mkEnvDoc l2 d r s)) := by
  simp only [toon_to_json, pyGet_mkEnv_toon, pyGet_mkEnv_zlib, Option.isSome_some,
    if_true, docTruthyOpt, Bool.false_eq_true, if_false, decodeBody_mkEnv]

/-- C5 (counterexample): an envelope whose level tag is the out-of-range 99 is
decoded without any error — the claimed unsupported-level failure does not
happen. -/
theorem decode_out_of_range_level_succeeds :
    toon_to_json (.raw (mkEnvDoc 99 (.num 5) [] [])) = .ok (.num 5) := rfl

/-- C6: at EXTREME the encoder wraps the (level-4) envelope in the compression
wrapper with the `_zlib` flag set, and the decoder of such a wrapper first
reverses the byte-compression step — recovering the inner envelope — and only
then performs dictionary/pattern token expansion and key expansion on it. -/
theorem extreme_wraps_and_decode_unwraps_first (d : Doc) :
    json_to_toon .EXTREME d =
      .zwrap 4 true (mkEnvDoc 4 (conv 4 (buildStringDict d) d)
        (buildRefCache d) (buildStringDict d)) ∧
    zlibFlagOf (json_to_toon .EXTREME d) = true ∧
    toon_to_json (json_to_toon .EXTREME d) =
      dec (buildRefCache d)
        ((buildStringDict d).map (fun p => (p.1, Doc.str p.2)))
        (conv 4 (buildStringDict d) d) ∧
    (∀ (lvl : Nat) (env : Doc), toon_to_json (.zwrap lvl true env) = decodeBody env) := by
  refine ⟨rfl, rfl, ?_, fun _ _ => rfl⟩
  show decodeBody (mkEnvDoc 4 (conv 4 (buildStringDict d) d)
    (buildRefCache d) (buildStringDict d)) = _
  rw [decodeBody_mkEnv]

/-- C9 (counterexample): for original text of length 3 and encoded text of
length 1 the returned savings percent is the two-decimal rounding 66.67, which
differs from the claimed exact value (1 - 1/3) * 100. -/
theorem metrics_savings_percent_rounded :
    (calculate_metrics "abc" "a").savings_percent = 6667 / 100 ∧
      (6667 / 100 : ℚ) ≠ (1 - (1 : ℚ) / 3) * 100 := by
  constructor
  · show round2 ((((3 : ℚ) - 1) / 3) * 100) = 6667 / 100
    rw [round2]
    norm_num [round_eq]
  · norm_num

/-- C9 (amended): the metrics calculation returns the savings percent
(1 - encoded/original) × 100 rounded to two decimals, 0 when the original length
is 0; the compression ratio encoded/original is guarded the same way. -/
theorem metrics_formula (o c : String) :
    (calculate_metrics o c).savings_percent =
      (if 0 < o.data.length then
        round2 ((1 - (c.data.length : ℚ) / (o.data.length : ℚ)) * 100) else 0) ∧
    (calculate_metrics o c).ratio_q =
      (if 0 < o.data.length then (c.data.length : ℚ) / (o.data.length : ℚ) else 0) := by
  refine ⟨?_, rfl⟩
  show round2 (if 0 < o.data.length then _ else 0) = _
  by_cases h : 0 < o.data.length
  · simp only [h, if_true]
    congr 1
    have hne : ((o.data.length : ℚ)) ≠ 0 := by
      exact_mod_cast Nat.pos_iff_ne_zero.mp h
    rw [sub_div, div_self hne]
  · simp only [h, if_false]
    show round2 0 = 0
    simp [round2]

/-- C8: for every pattern list (and any custom-abbreviation suggestion set) the
planner's expected savings are capped at 0.85, and the recommended level is
EXTREME exactly when the capped savings exceed 0.6, AGGRESSIVE when they exceed
0.4, STANDARD when they exceed 0.2, and MINIMAL otherwise. -/
theorem strategy_savings_cap_and_level (ps : List Pattern)
    (ca : List (String × String)) :
    (get_compression_strategy ps ca).expected_savings ≤ 0.85 ∧
    (get_compression_strategy ps ca).recommended_level =
      (if (0.6 : ℚ) < (get_compression_strategy ps ca).expected_savings then 4
       else if (0.4 : ℚ) < (get_compression_strategy ps ca).expected_savings then 3
       else if (0.2 : ℚ) < (get_compression_strategy ps ca).expected_savings then 2
       else 1) := by
  rw [get_compression_strategy]
  generalize (if ca.isEmpty then ps.foldl stratStep
      (CompressionStrategy.mk false false false false false [] 0 2 ps)
    else
      CompressionStrategy.mk _ _ _ _ _ ca _ _ _) = st2
  constructor
  · exact min_le_right _ _
  · show (if (0.6 : ℚ) < st2.expected_savings then 4
      else if (0.4 : ℚ) < st2.expected_savings then 3
      else if (0.2 : ℚ) < st2.expected_savings then 2 else 1) =
      (if (0.6 : ℚ) < min st2.expected_savings 0.85 then 4
       else if (0.4 : ℚ) < min st2.expected_savings 0.85 then 3
       else if (0.2 : ℚ) < min st2.expected_savings 0.85 then 2 else 1)
    have h6 : ((0.6 : ℚ) < min st2.expected_savings 0.85) ↔
        (0.6 : ℚ) < st2.expected_savings := by
      rw [lt_min_iff]
      constructor
      · exact fun h => h.1
      · exact fun h => ⟨h, by norm_num⟩
    have h4 : ((0.4 : ℚ) < min st2.expected_savings 0.85) ↔
        (0.4 : ℚ) < st2.expected_savings := by
      rw [lt_min_iff]
      constructor
      · exact fun h => h.1
      · exact fun h => ⟨h, by norm_num⟩
    have h2 : ((0.2 : ℚ) < min st2.expected_savings 0.85) ↔
        (0.2 : ℚ) < st2.expected_savings := by
      rw [lt_min_iff]
      constructor
      · exact fun h => h.1
      · exact fun h => ⟨h, by norm_num⟩
    simp only [h6, h4, h2]

theorem mk_data (s : String) : String.mk s.data = s := rfl

theorem ts_tag_decode (refs sdict : List (String × Doc)) (s : String) :
    decStr refs sdict ("$ts:" ++ s) = .str s := by
  have hlit : ("$ts:").data = ['$', 't', 's', ':'] := rfl
  have hd : ("$ts:" ++ s).data = '$' :: 't' :: 's' :: ':' :: s.data := by
    rw [String.data_append, hlit]
    rfl
  have h1 : ("$ts:" ++ s == "~") = false := by
    rw [beq_eq_false_iff_ne]
    intro h
    have h2 := congrArg String.data h
    rw [hd] at h2
    simp at h2
  have h2 : ("$ts:" ++ s == "T") = false := by
    rw [beq_eq_false_iff_ne]
    intro h
    have h2 := congrArg String.data h
    rw [hd] at h2
    simp at h2
  have h3 : ("$ts:" ++ s == "F") = false := by
    rw [beq_eq_false_iff_ne]
    intro h
    have h2 := congrArg String.data h
    rw [hd] at h2
    simp at h2
  have h4 : pyStartsWith ("$ts:" ++ s) "@s" = false := by
    show ("@s").data.isPrefixOf (("$ts:" ++ s).data) = false
    rw [hd, show ("@s").data = ['@', 's'] from rfl]
    rfl
  have h5 : pyStartsWith ("$ts:" ++ s) "$ts:" = true := by
    show ("$ts:").data.isPrefixOf (("$ts:" ++ s).data) = true
    rw [hd, hlit]
    simp [List.isPrefixOf]
  have h6 : pyDrop ("$ts:" ++ s) 4 = s := by
    show String.mk (("$ts:" ++ s).data.drop 4) = s
    rw [hd]
    rfl
  simp only [decStr, h1, h2, h3, h4, h5, Bool.false_eq_true, if_false, if_true, h6]

theorem uid_tag_decode (refs sdict : List (String × Doc)) (s : String) :
    decStr refs sdict ("$uid:" ++ s) = .str s := by
  have hlit : ("$uid:").data = ['$', 'u', 'i', 'd', ':'] := rfl
  have hd : ("$uid:" ++ s).data = '$' :: 'u' :: 'i' :: 'd' :: ':' :: s.data := by
    rw [String.data_append, hlit]
    rfl
  have h1 : ("$uid:" ++ s == "~") = false := by
    rw [beq_eq_false_iff_ne]
    intro h
    have h2 := congrArg String.data h
    rw [hd] at h2
    simp at h2
  have h2 : ("$uid:" ++ s == "T") = false := by
    rw [beq_eq_false_iff_ne]
    intro h
    have h2 := congrArg String.data h
    rw [hd] at h2
    simp at h2
  have h3 : ("$uid:" ++ s == "F") = false := by
    rw [beq_eq_false_iff_ne]
    intro h
    have h2 := congrArg String.data h
    rw [hd] at h2
    simp at h2
  have h4 : pyStartsWith ("$uid:" ++ s) "@s" = false := by
    show ("@s").data.isPrefixOf (("$uid:" ++ s).data) = false
    rw [hd, show ("@s").data = ['@', 's'] from rfl]
    rfl
  have h5 : pyStartsWith ("$uid:" ++ s) "$ts:" = false := by
    show ("$ts:").data.isPrefixOf (("$uid:" ++ s).data) = false
    rw [hd, show ("$ts:").data = ['$', 't', 's', ':'] from rfl]
    rfl
  have h6 : pyStartsWith ("$uid:" ++ s) "$uid:" = true := by
    show ("$uid:").data.isPrefixOf (("$uid:" ++ s).data) = true
    rw [hd, hlit]
    simp [List.isPrefixOf]
  have h7 : pyDrop ("$uid:" ++ s) 5 = s := by
    show String.mk (("$uid:" ++ s).data.drop 5) = s
    rw [hd]
    rfl
  simp only [decStr, h1, h2, h3, h4, h5, h6, Bool.false_eq_true, if_false, if_true, h7]

/-- C10: the decoder interprets the reserved token forms unconditionally in every
data position — `~`, `T`, `F` become null/true/false, `$ts:`/`$uid:` prefixes are
stripped — while the encoder passes ordinary strings through unescaped below
AGGRESSIVE; hence the document consisting of the string "T" decodes to the
boolean true, a value of a different type. -/
theorem reserved_tokens_unescaped (refs sdict : List (String × Doc))
    (sd : List (String × String)) (s : String) :
    decStr refs sdict "~" = .null ∧
    decStr refs sdict "T" = .bool true ∧
    decStr refs sdict "F" = .bool false ∧
    dec refs sdict (.str ("$ts:" ++ s)) = .ok (.str s) ∧
    dec refs sdict (.str ("$uid:" ++ s)) = .ok (.str s) ∧
    compressString 1 sd s = s ∧
    compressString 2 sd s = s ∧
    toon_to_json (json_to_toon .MINIMAL (.str "T")) = .ok (.bool true) ∧
    Doc.bool true ≠ Doc.str "T" := by
  refine ⟨rfl, rfl, rfl, ?_, ?_, rfl, rfl, rfl, fun h => nomatch h⟩
  · show Except.ok (decStr refs sdict ("$ts:" ++ s)) = _
    rw [ts_tag_decode]
  · show Except.ok (decStr refs sdict ("$uid:" ++ s)) = _
    rw [uid_tag_decode]

/-! Helper lemmas connecting the per-element converted views to the raw array. -/

def docIsObj : Doc → Bool
  | .obj _ => true
  | _ => false

def docKeys : Doc → List String
  | .obj kvs => kvs.map Prod.fst
  | _ => []

theorem convVals_keys (lvl : Nat) (sdict : List (String × String)) :
    ∀ kvs : List (String × Doc),
      (convVals lvl sdict kvs).map Prod.fst = kvs.map Prod.fst := by
  intro kvs
  induction kvs with
  | nil => rfl
  | cons p t ih => cases p; simp [convVals, ih]

theorem convElems_all_objE (lvl : Nat) (sdict : List (String × String)) :
    ∀ xs : List Doc,
      (convElems lvl sdict xs).all ConvElem.isObjE = xs.all docIsObj := by
  intro xs
  induction xs with
  | nil => rfl
  | cons x t ih =>
    cases x <;> simp [convElems, ConvElem.isObjE, docIsObj, ih]

theorem convElems_keys (lvl : Nat) (sdict : List (String × String)) :
    ∀ xs : List Doc,
      (convElems lvl sdict xs).map (fun e => e.pairs.map Prod.fst) = xs.map docKeys := by
  intro xs
  induction xs with
  | nil => rfl
  | cons x t ih =>
    cases x with
    | null =>
      rw [show convElems lvl sdict (Doc.null :: t) =
          ConvElem.other (conv lvl sdict Doc.null) :: convElems lvl sdict t from rfl,
        List.map_cons, List.map_cons, ih]
      rfl
    | bool b =>
      rw [show convElems lvl sdict (Doc.bool b :: t) =
          ConvElem.other (conv lvl sdict (Doc.bool b)) :: convElems lvl sdict t from rfl,
        List.map_cons, List.map_cons, ih]
      rfl
    | num n =>
      rw [show convElems lvl sdict (Doc.num n :: t) =
          ConvElem.other (conv lvl sdict (Doc.num n)) :: convElems lvl sdict t from rfl,
        List.map_cons, List.map_cons, ih]
      rfl
    | str a =>
      rw [show convElems lvl sdict (Doc.str a :: t) =
          ConvElem.other (conv lvl sdict (Doc.str a)) :: convElems lvl sdict t from rfl,
        List.map_cons, List.map_cons, ih]
      rfl
    | arr ys =>
      rw [show convElems lvl sdict (Doc.arr ys :: t) =
          ConvElem.other (conv lvl sdict (Doc.arr ys)) :: convElems lvl sdict t from rfl,
        List.map_cons, List.map_cons, ih]
      rfl
    | obj kvs =>
      rw [show convElems lvl sdict (Doc.obj kvs :: t) =
          ConvElem.objE (convVals lvl sdict kvs) :: convElems lvl sdict t from rfl,
        List.map_cons, List.map_cons, ih]
      show (convVals lvl sdict kvs).map Prod.fst :: _ = _
      rw [convVals_keys]
      rfl

theorem convElems_isEmpty (lvl : Nat) (sdict : List (String × String)) :
    ∀ xs : List Doc, (convElems lvl sdict xs).isEmpty = xs.isEmpty := by
  intro xs
  cases xs with
  | nil => rfl
  | cons x t => cases x <;> rfl

theorem convElems_fallback (lvl : Nat) (sdict : List (String × String)) :
    ∀ xs : List Doc,
      (convElems lvl sdict xs).map (ConvElem.fallback lvl) = xs.map (conv lvl sdict) := by
  intro xs
  induction xs with
  | nil => rfl
  | cons x t ih =>
    cases x <;> simp [convElems, ConvElem.fallback, conv, ih]

/-- Shape of a schema or partial-schema block as the encoder emits it. -/
def isSchBlock : Doc → Bool
  | .obj [("_sch", _), ("_dat", _)] => true
  | _ => false

/-- C7: for an array of objects whose key sets are not all identical, encoding at
AGGRESSIVE or above emits a (partial-) schema block exactly when the intersection
of all elements' key sets has at least 3 keys, and otherwise encodes each element
individually; an empty array encodes as an empty array with no schema block, and
a schema block is only ever produced for a non-empty array. -/
theorem partial_schema_threshold (lvl : Nat) (sdict : List (String × String))
    (xs : List Doc) (hlvl : 3 ≤ lvl) (hne : xs ≠ []) (hobj : xs.all docIsObj = true)
    (hshapes : (pyDedup ((xs.map docKeys).map (fun ks => sortStr (pyDedup ks)))).length ≠ 1) :
    (isSchBlock (conv lvl sdict (.arr xs)) = true ↔
      3 ≤ (interKeys (xs.map docKeys)).length) ∧
    (¬ 3 ≤ (interKeys (xs.map docKeys)).length →
      conv lvl sdict (.arr xs) = .arr (xs.map (conv lvl sdict))) ∧
    conv lvl sdict (.arr []) = .arr [] ∧
    isSchBlock (conv lvl sdict (.arr [])) = false ∧
    (∀ ys : List Doc, isSchBlock (conv lvl sdict (.arr ys)) = true → ys ≠ []) := by
  have hconv : conv lvl sdict (.arr xs) = mkArray lvl (convElems lvl sdict xs) := rfl
  have hemp : (convElems lvl sdict xs).isEmpty = false := by
    rw [convElems_isEmpty]
    cases xs with
    | nil => exact absurd rfl hne
    | cons a t => rfl
  have hall : (convElems lvl sdict xs).all ConvElem.isObjE = true := by
    rw [convElems_all_objE]; exact hobj
  have hkeysEq : ((convElems lvl sdict xs).map ConvElem.pairs).map (fun o => o.map Prod.fst) =
      xs.map docKeys := by
    rw [List.map_map]
    exact convElems_keys lvl sdict xs
  have h2 : 2 ≤ lvl := by omega
  have hperf : ((pyDedup ((xs.map docKeys).map (fun ks => sortStr (pyDedup ks)))).length
      == 1) = false :=
    beq_eq_false_iff_ne.mpr hshapes
  have hmk : mkArray lvl (convElems lvl sdict xs) =
      (if 3 ≤ (interKeys (xs.map docKeys)).length then
        Doc.obj [("_sch", .arr ((sortStr (interKeys (xs.map docKeys))).map
            (fun k => .str (abbrevKey k)))),
          ("_dat", .arr (((convElems lvl sdict xs).map ConvElem.pairs).map
            (mkPartialRow (interKeys (xs.map docKeys)))))]
      else .arr (xs.map (conv lvl sdict))) := by
    rw [mkArray]
    rw [hemp, hall]
    simp only [Bool.false_eq_true, if_false, if_true]
    rw [hkeysEq, hperf]
    simp only [Bool.false_eq_true, if_false, hlvl, h2, if_true]
    by_cases hc : 3 ≤ (interKeys (xs.map docKeys)).length
    · simp only [hc, if_true]
    · simp only [hc, if_false]
      rw [convElems_fallback]
  refine ⟨?_, ?_, rfl, rfl, ?_⟩
  · rw [hconv, hmk]
    by_cases hc : 3 ≤ (interKeys (xs.map docKeys)).length
    · rw [if_pos hc]
      exact ⟨fun _ => hc, fun _ => rfl⟩
    · rw [if_neg hc]
      refine ⟨fun hblk => ?_, fun h => absurd h hc⟩
      exact absurd hblk (by simp [isSchBlock])
  · intro hc
    rw [hconv, hmk, if_neg hc]
  · intro ys hblk hnil
    subst hnil
    exact absurd hblk (by simp [conv, convElems, mkArray, isSchBlock])

def c7doc : List Doc :=
  [Doc.obj [("id", .num 1), ("name", .str "x"), ("type", .str "u"), ("extra", .num 5)],
   Doc.obj [("id", .num 2), ("name", .str "y"), ("type", .str "v")]]

theorem partial_schema_threshold_witness :
    ((3 : Nat) ≤ 3 ∧ c7doc ≠ [] ∧ c7doc.all docIsObj = true ∧
      (pyDedup ((c7doc.map docKeys).map (fun ks => sortStr (pyDedup ks)))).length ≠ 1) ∧
    ((isSchBlock (conv 3 [] (.arr c7doc)) = true ↔
        3 ≤ (interKeys (c7doc.map docKeys)).length) ∧
      (¬ 3 ≤ (interKeys (c7doc.map docKeys)).length →
        conv 3 [] (.arr c7doc) = .arr (c7doc.map (conv 3 []))) ∧
      conv 3 [] (.arr []) = .arr [] ∧
      isSchBlock (conv 3 [] (.arr [])) = false ∧
      (∀ ys : List Doc, isSchBlock (conv 3 [] (.arr ys)) = true → ys ≠ [])) :=
  ⟨⟨le_refl 3, by simp [c7doc], rfl, by decide⟩,
   partial_schema_threshold 3 [] c7doc (le_refl 3) (by simp [c7doc]) rfl (by decide)⟩

/-! Size bookkeeping for the strong inductions over documents. -/

theorem sizeOf_arr_elem {x : Doc} {xs : List Doc} (h : x ∈ xs) :
    sizeOf x < sizeOf (Doc.arr xs) := by
  have h1 := List.sizeOf_lt_of_mem h
  have h2 : sizeOf (Doc.arr xs) = 1 + sizeOf xs := by simp
  omega

theorem sizeOf_obj_val {k : String} {v : Doc} {kvs : List (String × Doc)}
    (h : (k, v) ∈ kvs) : sizeOf v < sizeOf (Doc.obj kvs) := by
  have h1 := List.sizeOf_lt_of_mem h
  have h2 : sizeOf (k, v) = 1 + sizeOf k + sizeOf v := by simp
  have h3 : sizeOf (Doc.obj kvs) = 1 + sizeOf kvs := by simp
  omega

/-! Membership and distinctness for `pyDedup` and `sortLe`. -/

theorem mem_sortLe {α : Type} (le : α → α → Bool) (l : List α) (x : α) :
    x ∈ sortLe le l ↔ x ∈ l := (sortLe_perm le l).mem_iff

theorem contains_iff {α : Type} [BEq α] [LawfulBEq α] (l : List α) (a : α) :
    l.contains a = true ↔ a ∈ l := by simp

theorem mem_pyDedup_aux {α : Type} [BEq α] [LawfulBEq α] :
    ∀ (l acc : List α) (y : α),
      y ∈ l.foldl (fun acc x => if acc.contains x then acc else acc ++ [x]) acc ↔
        y ∈ acc ∨ y ∈ l := by
  intro l
  induction l with
  | nil => intro acc y; simp
  | cons x t ih =>
    intro acc y
    by_cases hc : acc.contains x
    · rw [List.foldl_cons]
      simp only [hc, if_true]
      rw [ih]
      constructor
      · rintro (h | h)
        · exact Or.inl h
        · exact Or.inr (List.mem_cons_of_mem _ h)
      · rintro (h | h)
        · exact Or.inl h
        · rcases List.mem_cons.mp h with rfl | h2
          · exact Or.inl ((contains_iff _ _).mp hc)
          · exact Or.inr h2
    · rw [List.foldl_cons]
      simp only [hc, if_false]
      rw [ih]
      constructor
      · rintro (h | h)
        · rcases List.mem_append.mp h with h2 | h2
          · exact Or.inl h2
          · simp only [List.mem_singleton] at h2
            exact Or.inr (h2 ▸ List.mem_cons_self _ _)
        · exact Or.inr (List.mem_cons_of_mem _ h)
      · rintro (h | h)
        · exact Or.inl (List.mem_append.mpr (Or.inl h))
        · rcases List.mem_cons.mp h with rfl | h2
          · exact Or.inl (List.mem_append.mpr (Or.inr (by simp)))
          · exact Or.inr h2

theorem mem_pyDedup {α : Type} [BEq α] [LawfulBEq α] (l : List α) (y : α) :
    y ∈ pyDedup l ↔ y ∈ l := by
  rw [pyDedup, mem_pyDedup_aux]
  simp

theorem nodup_pyDedup_aux {α : Type} [BEq α] [LawfulBEq α] :
    ∀ (l acc : List α), acc.Nodup →
      (l.foldl (fun acc x => if acc.contains x then acc else acc ++ [x]) acc).Nodup := by
  intro l
  induction l with
  | nil => intro acc h; simpa using h
  | cons x t ih =>
    intro acc hnd
    by_cases hc : acc.contains x
    · rw [List.foldl_cons]
      simp only [hc, if_true]
      exact ih acc hnd
    · rw [List.foldl_cons]
      simp only [hc, if_false]
      refine ih (acc ++ [x]) ?_
      rw [List.nodup_append]
      refine ⟨hnd, List.nodup_singleton x, ?_⟩
      intro a ha hax
      simp only [List.mem_singleton] at hax
      subst hax
      exact absurd ((contains_iff _ _).mpr ha) (by simpa using hc)

theorem nodup_pyDedup {α : Type} [BEq α] [LawfulBEq α] (l : List α) :
    (pyDedup l).Nodup :=
  nodup_pyDedup_aux l [] List.nodup_nil

theorem pyDedup_nodup_self {α : Type} [BEq α] [LawfulBEq α] :
    ∀ (l acc : List α), l.Nodup → (∀ x ∈ l, x ∉ acc) →
      l.foldl (fun acc x => if acc.contains x then acc else acc ++ [x]) acc = acc ++ l := by
  intro l
  induction l with
  | nil => intro acc _ _; simp
  | cons x t ih =>
    intro acc hnd hdis
    rw [List.nodup_cons] at hnd
    have hc : acc.contains x = false := by
      by_contra hcc
      simp only [Bool.not_eq_false] at hcc
      exact hdis x (List.mem_cons_self _ _) ((contains_iff _ _).mp hcc)
    rw [List.foldl_cons]
    simp only [hc, Bool.false_eq_true, if_false]
    rw [ih (acc ++ [x]) hnd.2]
    · simp
    · intro a ha
      rw [List.mem_append]
      rintro (h | h)
      · exact hdis a (List.mem_cons_of_mem _ ha) h
      · simp only [List.mem_singleton] at h
        exact hnd.1 (h ▸ ha)

theorem pyDedup_of_nodup {α : Type} [BEq α] [LawfulBEq α] (l : List α) (h : l.Nodup) :
    pyDedup l = l := by
  have := pyDedup_nodup_self l [] h (by simp)
  simpa [pyDedup] using this

/-! Membership views of the Boolean tree predicates and the Python dict folds. -/

theorem noAtRList_iff : ∀ xs : List Doc,
    noAtRList xs = true ↔ ∀ x ∈ xs, noAtR x = true := by
  intro xs
  induction xs with
  | nil => simp [noAtRList]
  | cons x t ih =>
    show (noAtR x && noAtRList t) = true ↔ _
    rw [Bool.and_eq_true, ih]
    constructor
    · rintro ⟨h1, h2⟩ y hy
      rcases List.mem_cons.mp hy with rfl | hy
      · exact h1
      · exact h2 y hy
    · intro h
      exact ⟨h x (List.mem_cons_self _ _), fun y hy => h y (List.mem_cons_of_mem _ hy)⟩

theorem noAtRPairs_iff : ∀ kvs : List (String × Doc),
    noAtRPairs kvs = true ↔
      ∀ p ∈ kvs, pyStartsWith p.1 "@r" = false ∧ noAtR p.2 = true := by
  intro kvs
  induction kvs with
  | nil => simp [noAtRPairs]
  | cons p t ih =>
    obtain ⟨k, v⟩ := p
    show (!pyStartsWith k "@r" && noAtR v && noAtRPairs t) = true ↔ _
    simp only [Bool.and_eq_true, Bool.not_eq_true', ih, List.mem_cons]
    constructor
    · rintro ⟨⟨h1, h2⟩, h3⟩ q hq
      rcases hq with rfl | hq
      · exact ⟨h1, h2⟩
      · exact h3 q hq
    · intro h
      have h1 := h (k, v) (Or.inl rfl)
      exact ⟨⟨h1.1, h1.2⟩, fun q hq => h q (Or.inr hq)⟩

theorem mem_pyInsert {β : Type} {p : String × β} {l : List (String × β)} {k : String}
    {v : β} (h : p ∈ pyInsert l k v) : p ∈ l ∨ p = (k, v) := by
  rw [pyInsert] at h
  by_cases hc : l.any (fun q => q.1 == k)
  · rw [if_pos hc] at h
    obtain ⟨q, hq, hqe⟩ := List.mem_map.mp h
    by_cases hk : q.1 == k
    · rw [if_pos hk] at hqe
      right
      rw [← hqe]
      have : q.1 = k := by simpa using hk
      rw [this]
    · rw [if_neg hk] at hqe
      exact Or.inl (hqe ▸ hq)
  · rw [if_neg hc] at h
    rcases List.mem_append.mp h with h1 | h1
    · exact Or.inl h1
    · simp only [List.mem_singleton] at h1
      exact Or.inr h1

/-- Members of a Python dict built by assigning `(f k, v)` for the pairs of `l`
over `acc` come from `acc` or are such an assigned pair. -/
theorem mem_pyFoldF {β : Type} (f : String → String) :
    ∀ (l : List (String × β)) (acc : List (String × β)) (p : String × β),
      p ∈ l.foldl (fun a kv => pyInsert a (f kv.1) kv.2) acc →
        p ∈ acc ∨ ∃ q ∈ l, p = (f q.1, q.2) := by
  intro l
  induction l with
  | nil => intro acc p h; exact Or.inl h
  | cons q t ih =>
    intro acc p h
    rw [List.foldl_cons] at h
    rcases ih _ p h with h1 | ⟨w, hw, he⟩
    · rcases mem_pyInsert h1 with h2 | h2
      · exact Or.inl h2
      · exact Or.inr ⟨q, List.mem_cons_self _ _, h2⟩
    · exact Or.inr ⟨w, List.mem_cons_of_mem _ hw, he⟩

theorem mem_pyFold {β : Type} :
    ∀ (l acc : List (String × β)) (p : String × β),
      p ∈ pyFold acc l → p ∈ acc ∨ p ∈ l := by
  intro l
  induction l with
  | nil => intro acc p h; exact Or.inl h
  | cons q t ih =>
    intro acc p h
    rw [pyFold, List.foldl_cons] at h
    rcases ih _ p h with h1 | h1
    · rcases mem_pyInsert h1 with h2 | h2
      · exact Or.inl h2
      · right
        rw [h2]
        have : q = (q.1, q.2) := rfl
        rw [← this]
        exact List.mem_cons_self _ _
    · exact Or.inr (List.mem_cons_of_mem _ h1)

theorem mem_convVals (lvl : Nat) (sdict : List (String × String)) :
    ∀ (kvs : List (String × Doc)) (p : String × Doc), p ∈ convVals lvl sdict kvs →
      ∃ q ∈ kvs, p = (q.1, conv lvl sdict q.2) := by
  intro kvs
  induction kvs with
  | nil => intro p h; exact absurd h (by simp [convVals])
  | cons q t ih =>
    obtain ⟨k, v⟩ := q
    intro p h
    rw [convVals] at h
    rcases List.mem_cons.mp h with rfl | h1
    · exact ⟨(k, v), List.mem_cons_self _ _, rfl⟩
    · obtain ⟨w, hw, he⟩ := ih p h1
      exact ⟨w, List.mem_cons_of_mem _ hw, he⟩

theorem mem_convElems (lvl : Nat) (sdict : List (String × String)) :
    ∀ (xs : List Doc) (e : ConvElem), e ∈ convElems lvl sdict xs →
      (∃ kvs, Doc.obj kvs ∈ xs ∧ e = .objE (convVals lvl sdict kvs)) ∨
        (∃ x ∈ xs, e = .other (conv lvl sdict x)) := by
  intro xs
  induction xs with
  | nil => intro e h; exact absurd h (by simp [convElems])
  | cons x t ih =>
    intro e h
    have hstep : ∀ e', e' ∈ convElems lvl sdict t →
        (∃ kvs, Doc.obj kvs ∈ x :: t ∧ e' = .objE (convVals lvl sdict kvs)) ∨
          (∃ y ∈ x :: t, e' = .other (conv lvl sdict y)) := by
      intro e' he'
      rcases ih e' he' with ⟨kvs, hk, he⟩ | ⟨y, hy, he⟩
      · exact Or.inl ⟨kvs, List.mem_cons_of_mem _ hk, he⟩
      · exact Or.inr ⟨y, List.mem_cons_of_mem _ hy, he⟩
    cases x with
    | obj kvs =>
      rw [show convElems lvl sdict (Doc.obj kvs :: t) =
          ConvElem.objE (convVals lvl sdict kvs) :: convElems lvl sdict t from rfl] at h
      rcases List.mem_cons.mp h with rfl | h1
      · exact Or.inl ⟨kvs, List.mem_cons_self _ _, rfl⟩
      · exact hstep e h1
    | null =>
      rcases List.mem_cons.mp h with rfl | h1
      · exact Or.inr ⟨Doc.null, List.mem_cons_self _ _, rfl⟩
      · exact hstep e h1
    | bool b =>
      rcases List.mem_cons.mp h with rfl | h1
      · exact Or.inr ⟨Doc.bool b, List.mem_cons_self _ _, rfl⟩
      · exact hstep e h1
    | num n =>
      rcases List.mem_cons.mp h with rfl | h1
      · exact Or.inr ⟨Doc.num n, List.mem_cons_self _ _, rfl⟩
      · exact hstep e h1
    | str a =>
      rcases List.mem_cons.mp h with rfl | h1
      · exact Or.inr ⟨Doc.str a, List.mem_cons_self _ _, rfl⟩
      · exact hstep e h1
    | arr ys =>
      rcases List.mem_cons.mp h with rfl | h1
      · exact Or.inr ⟨Doc.arr ys, List.mem_cons_self _ _, rfl⟩
      · exact hstep e h1

/-! Prefix facts for the reserved markers. -/

theorem pyStartsWith_s_shape {x : String} (h : pyStartsWith x "s" = true) :
    ∃ t, x.data = 's' :: t := by
  rw [pyStartsWith] at h
  rcases hx : x.data with _ | ⟨c, t⟩
  · rw [hx] at h
    exact absurd h (by decide)
  · rw [hx] at h
    have hc : ('s' == c) = true := by
      have : List.isPrefixOf ['s'] (c :: t) = (('s' == c) && List.isPrefixOf [] t) := rfl
      rw [this] at h
      simpa using h
    have hcs : 's' = c := by simpa using hc
    exact ⟨t, by rw [← hcs]⟩

theorem atr_prefix_of_at_cons {c : Char} {t : List Char} (hc : ¬ c = '@') :
    List.isPrefixOf "@r".data (c :: t) = false := by
  have h1 : "@r".data = ['@', 'r'] := rfl
  rw [h1]
  show (('@' == c) && _) = false
  have : ('@' == c) = false := by simpa using fun h => hc h.symm
  rw [this]
  rfl

theorem no_atr_of_dict_marker (id : String) (h : pyStartsWith id "s" = true) :
    pyStartsWith ("@" ++ id) "@r" = false := by
  obtain ⟨t, ht⟩ := pyStartsWith_s_shape h
  rw [pyStartsWith]
  have hd : ("@" ++ id).data = '@' :: 's' :: t := by
    rw [String.data_append, show ("@").data = ['@'] from rfl, ht]
    rfl
  rw [hd, show ("@r").data = ['@', 'r'] from rfl]
  show (('@' == '@') && (('r' == 's') && _)) = false
  rfl

theorem no_atr_of_dollar (s : String) (c : Char) (rest : List Char)
    (hd : s.data = c :: rest) (hc : ¬ c = '@') : pyStartsWith s "@r" = false := by
  rw [pyStartsWith, hd]
  exact atr_prefix_of_at_cons hc

/-! Table facts, settled by evaluation over the written-out tables. -/

theorem keyAbbrev_vals_no_underscore :
    KEY_ABBREV_N.all (fun p => !pyStartsWith p.2 "_") = true := by decide

theorem keyAbbrev_vals_no_at :
    KEY_ABBREV_N.all (fun p => !pyStartsWith p.2 "@") = true := by decide

theorem isPrefixOf_cons_head {a b : Char} {as bs : List Char}
    (h : List.isPrefixOf (a :: as) (b :: bs) = true) :
    (a == b) = true ∧ List.isPrefixOf as bs = true := by
  have h2 : ((a == b) && List.isPrefixOf as bs) = true := h
  cases hc : (a == b) with
  | false => rw [hc] at h2; exact absurd h2 (by simp)
  | true => rw [hc] at h2; exact ⟨rfl, by simpa using h2⟩

theorem pyStartsWith_atr_imp_at {s : String} (h : pyStartsWith s "@r" = true) :
    pyStartsWith s "@" = true := by
  rw [pyStartsWith] at h ⊢
  revert h
  rcases s.data with _ | ⟨c, t⟩
  · intro h
    exact absurd h (by decide)
  · intro h
    rw [show ("@r").data = ['@', 'r'] from rfl] at h
    rw [show ("@").data = ['@'] from rfl]
    obtain ⟨h1, -⟩ := isPrefixOf_cons_head h
    show (('@' == c) && List.isPrefixOf [] t) = true
    rw [h1]
    simp [List.isPrefixOf]

theorem abbrevKey_no_atr {k : String} (h : pyStartsWith k "@r" = false) :
    pyStartsWith (abbrevKey k) "@r" = false := by
  rw [abbrevKey]
  rcases hl : List.lookup k KEY_ABBREV_N with _ | v
  · simpa using h
  · have hmem := lookup_mem _ _ _ hl
    have hall := List.all_eq_true.mp keyAbbrev_vals_no_at _ hmem
    simp only [Bool.not_eq_true'] at hall
    simp only [Option.getD_some]
    by_contra hc
    simp only [Bool.not_eq_false] at hc
    rw [pyStartsWith_atr_imp_at hc] at hall
    exact absurd hall (by decide)

/-! The encoder never emits a reference-marker string: every string it produces is
a sentinel, a dictionary marker `@s...`, a pattern tag `$...`, an abbreviated key,
or a pass-through of an input string. -/

theorem compressString_noAtR (sdict : List (String × String))
    (hs : ∀ p ∈ sdict, pyStartsWith p.1 "s" = true) (lvl : Nat) (s : String)
    (hA : pyStartsWith s "@r" = false) :
    pyStartsWith (compressString lvl sdict s) "@r" = false := by
  by_cases h3 : 3 ≤ lvl
  · rcases hf : sdict.find? (fun p => p.2 == s) with _ | p
    · simp only [compressString, if_pos h3, hf]
      by_cases hiso : isoTimestamp s
      · rw [if_pos hiso]
        refine no_atr_of_dollar _ '$' ('t' :: 's' :: ':' :: s.data) ?_ (by decide)
        rw [String.data_append, show ("$ts:").data = ['$', 't', 's', ':'] from rfl]
        rfl
      · rw [if_neg hiso]
        by_cases huid : isUuidStr s
        · rw [if_pos huid]
          refine no_atr_of_dollar _ '$' ('u' :: 'i' :: 'd' :: ':' :: s.data) ?_ (by decide)
          rw [String.data_append, show ("$uid:").data = ['$', 'u', 'i', 'd', ':'] from rfl]
          rfl
        · rw [if_neg huid]
          exact hA
    · simp only [compressString, if_pos h3, hf]
      exact no_atr_of_dict_marker p.1 (hs p (List.mem_of_find?_eq_some hf))
  · simp only [compressString, if_neg h3]
    exact hA

/-- Members with good keys and values fold into a dict with good keys and values. -/
theorem noAtRPairs_pyFoldF (f : String → String) (l : List (String × Doc))
    (h : ∀ q ∈ l, pyStartsWith (f q.1) "@r" = false ∧ noAtR q.2 = true) :
    noAtRPairs (l.foldl (fun a kv => pyInsert a (f kv.1) kv.2) []) = true := by
  rw [noAtRPairs_iff]
  intro p hp
  rcases mem_pyFoldF f l [] p hp with h1 | ⟨q, hq, he⟩
  · exact absurd h1 (by simp)
  · obtain ⟨hk, hv⟩ := h q hq
    rw [he]
    exact ⟨hk, hv⟩

theorem mem_interKeys_head (k0 : List String) (rest : List (List String)) (x : String)
    (h : x ∈ interKeys (k0 :: rest)) : x ∈ k0 := by
  rw [interKeys] at h
  have haux : ∀ (rs : List (List String)) (acc : List String), x ∈ rs.foldl
      (fun acc ks => acc.filter (fun y => ks.contains y)) acc → x ∈ acc := by
    intro rs
    induction rs with
    | nil => intro acc hx; exact hx
    | cons r rt ih =>
      intro acc hx
      have := ih _ hx
      exact List.mem_of_mem_filter this
  have := haux rest _ h
  exact (mem_pyDedup k0 x).mp this

/-- Encoding a document with no `@r`-prefixed string (value or key) yields a value
tree with no `@r`-prefixed string. -/
theorem enc_noAtR (sdict : List (String × String))
    (hs : ∀ p ∈ sdict, pyStartsWith p.1 "s" = true) (lvl : Nat) :
    ∀ (n : Nat) (d : Doc), sizeOf d ≤ n → noAtR d = true →
      noAtR (conv lvl sdict d) = true := by
  intro n
  induction n using Nat.strong_induction_on with
  | _ n IH =>
    intro d hsz hA
    have hIH : ∀ y : Doc, sizeOf y < n → noAtR y = true →
        noAtR (conv lvl sdict y) = true := by
      intro y hy hAy
      exact IH (sizeOf y) (by omega) y le_rfl hAy
    cases d with
    | null => rfl
    | bool b => cases b <;> rfl
    | num m => rfl
    | str s =>
      show (!pyStartsWith (compressString lvl sdict s) "@r") = true
      have hA2 : (!pyStartsWith s "@r") = true := hA
      rw [compressString_noAtR sdict hs lvl s (by simpa using hA2)]
      rfl
    | obj kvs =>
      show noAtRPairs (mkObjPy lvl (convVals lvl sdict kvs)) = true
      rw [mkObjPy]
      refine noAtRPairs_pyFoldF (fun k => if 1 ≤ lvl then abbrevKey k else k) _ ?_
      intro q hq
      obtain ⟨w, hw, he⟩ := mem_convVals lvl sdict kvs q hq
      have hprops := (noAtRPairs_iff kvs).mp hA w hw
      have hval : noAtR (conv lvl sdict w.2) = true := by
        refine hIH w.2 ?_ hprops.2
        have := sizeOf_obj_val (k := w.1) (v := w.2) (by rw [show (w.1, w.2) = w from rfl]; exact hw)
        omega
      constructor
      · rw [he]
        by_cases h1 : 1 ≤ lvl
        · simp only [if_pos h1]
          exact abbrevKey_no_atr hprops.1
        · simp only [if_neg h1]
          exact hprops.1
      · rw [he]
        exact hval
    | arr xs =>
      show noAtR (mkArray lvl (convElems lvl sdict xs)) = true
      have hAxs : ∀ x ∈ xs, noAtR x = true := (noAtRList_iff xs).mp hA
      have hsub : ∀ x ∈ xs, noAtR (conv lvl sdict x) = true := by
        intro x hx
        refine hIH x ?_ (hAxs x hx)
        have := sizeOf_arr_elem hx
        omega
      -- common fact: every cell drawn from an element's converted pairs is good,
      -- and every raw key of an object element is good
      have hcell : ∀ (e : ConvElem), e ∈ convElems lvl sdict xs →
          ∀ q ∈ e.pairs, pyStartsWith q.1 "@r" = false ∧ noAtR q.2 = true := by
        intro e he q hq
        rcases mem_convElems lvl sdict xs e he with ⟨kvs, hk, hee⟩ | ⟨y, _, hee⟩
        · rw [hee] at hq
          obtain ⟨w, hw, hqe⟩ := mem_convVals lvl sdict kvs q hq
          have hprops := (noAtRPairs_iff kvs).mp (hAxs _ hk) w hw
          have hval : noAtR (conv lvl sdict w.2) = true := by
            refine hIH w.2 ?_ hprops.2
            have h1 := sizeOf_obj_val (k := w.1) (v := w.2)
              (by rw [show (w.1, w.2) = w from rfl]; exact hw)
            have h2 := sizeOf_arr_elem hk
            omega
          rw [hqe]
          exact ⟨hprops.1, hval⟩
        · rw [hee] at hq
          exact absurd hq (by simp [ConvElem.pairs])
      rw [mkArray]
      by_cases hemp : (convElems lvl sdict xs).isEmpty
      · rw [if_pos hemp]
        rfl
      rw [if_neg hemp]
      by_cases hall : (convElems lvl sdict xs).all ConvElem.isObjE
      case neg =>
        rw [if_neg hall]
        show noAtRList _ = true
        rw [convElems_fallback, noAtRList_iff]
        intro y hy
        obtain ⟨x, hx, hxe⟩ := List.mem_map.mp hy
        exact hxe ▸ hsub x hx
      rw [if_pos hall]
      -- keys of any object element are good
      have hkeyOf : ∀ (e : ConvElem), e ∈ convElems lvl sdict xs →
          ∀ k ∈ e.pairs.map Prod.fst, pyStartsWith k "@r" = false := by
        intro e he k hk
        obtain ⟨q, hq, hqe⟩ := List.mem_map.mp hk
        exact hqe ▸ (hcell e he q hq).1
      by_cases h2 : 2 ≤ lvl
      case neg =>
        rw [if_neg h2]
        show noAtRList _ = true
        rw [convElems_fallback, noAtRList_iff]
        intro y hy
        obtain ⟨x, hx, hxe⟩ := List.mem_map.mp hy
        exact hxe ▸ hsub x hx
      rw [if_pos h2]
      -- facts about the head element used by both schema branches
      have hrowsGood : ∀ o ∈ (convElems lvl sdict xs).map ConvElem.pairs,
          ∀ q ∈ o, pyStartsWith q.1 "@r" = false ∧ noAtR q.2 = true := by
        intro o ho q hq
        obtain ⟨e, he, hoe⟩ := List.mem_map.mp ho
        exact hcell e he q (hoe ▸ hq)
      by_cases hperf :
          (pyDedup ((((convElems lvl sdict xs).map ConvElem.pairs).map
            (fun o => o.map Prod.fst)).map (fun ks => sortStr (pyDedup ks)))).length = 1
      · rw [if_pos (by simpa using hperf)]
        rw [show ∀ a b : Doc, noAtR (Doc.obj [("_sch", a), ("_dat", b)]) =
            (!pyStartsWith "_sch" "@r" && noAtR a &&
              (!pyStartsWith "_dat" "@r" && noAtR b && true)) from fun a b => rfl]
        simp only [show pyStartsWith "_sch" "@r" = false from rfl,
          show pyStartsWith "_dat" "@r" = false from rfl, Bool.not_false, Bool.true_and,
          Bool.and_true, Bool.and_eq_true]
        constructor
        · -- the schema key strings
          show noAtRList _ = true
          rw [noAtRList_iff]
          intro y hy
          obtain ⟨k, hk, hke⟩ := List.mem_map.mp hy
          rw [← hke]
          show (!pyStartsWith (abbrevKey k) "@r") = true
          rw [sortStr, mem_sortLe] at hk
          -- k is a key of the head element
          rcases hh : (((convElems lvl sdict xs).map ConvElem.pairs).map
              (fun o => o.map Prod.fst)) with _ | ⟨ks0, krest⟩
          · rw [hh] at hk
            exact absurd hk (by simp)
          · rw [hh] at hk
            simp only [List.headD_cons] at hk
            have hks0 : ks0 ∈ ((convElems lvl sdict xs).map ConvElem.pairs).map
                (fun o => o.map Prod.fst) := by
              rw [hh]
              exact List.mem_cons_self _ _
            obtain ⟨o, ho, hoe⟩ := List.mem_map.mp hks0
            obtain ⟨e, he, hoee⟩ := List.mem_map.mp ho
            have hres := hkeyOf e he k (by rw [hoee, hoe]; exact hk)
            rw [abbrevKey_no_atr hres]
            rfl
        · -- the rows
          show noAtRList _ = true
          rw [noAtRList_iff]
          intro r hr
          obtain ⟨o, ho, hoe⟩ := List.mem_map.mp hr
          rw [← hoe]
          show noAtRList ((sortPairsLe o).map Prod.snd) = true
          rw [noAtRList_iff]
          intro c hc
          obtain ⟨q, hq, hqe⟩ := List.mem_map.mp hc
          rw [sortPairsLe, mem_sortLe] at hq
          exact hqe ▸ (hrowsGood o ho q hq).2
      · rw [if_neg (by simpa using hperf)]
        by_cases h3 : 3 ≤ lvl
        case neg =>
          rw [if_neg h3]
          show noAtRList _ = true
          rw [convElems_fallback, noAtRList_iff]
          intro y hy
          obtain ⟨x, hx, hxe⟩ := List.mem_map.mp hy
          exact hxe ▸ hsub x hx
        rw [if_pos h3]
        by_cases hcm : 3 ≤ (interKeys (((convElems lvl sdict xs).map ConvElem.pairs).map
            (fun o => o.map Prod.fst))).length
        case neg =>
          rw [if_neg hcm]
          show noAtRList _ = true
          rw [convElems_fallback, noAtRList_iff]
          intro y hy
          obtain ⟨x, hx, hxe⟩ := List.mem_map.mp hy
          exact hxe ▸ hsub x hx
        rw [if_pos hcm]
        -- membership in the common-key intersection lands in the head element's keys
        have hcommon : ∀ k, k ∈ interKeys (((convElems lvl sdict xs).map
            ConvElem.pairs).map (fun o => o.map Prod.fst)) →
            pyStartsWith k "@r" = false := by
          intro k hk
          rcases hh : (((convElems lvl sdict xs).map ConvElem.pairs).map
              (fun o => o.map Prod.fst)) with _ | ⟨ks0, krest⟩
          · rw [hh] at hk
            exact absurd hk (by simp [interKeys])
          · rw [hh] at hk
            have hk0 := mem_interKeys_head ks0 krest k hk
            have hks0 : ks0 ∈ ((convElems lvl sdict xs).map ConvElem.pairs).map
                (fun o => o.map Prod.fst) := by
              rw [hh]
              exact List.mem_cons_self _ _
            obtain ⟨o, ho, hoe⟩ := List.mem_map.mp hks0
            obtain ⟨e, he, hoee⟩ := List.mem_map.mp ho
            refine hkeyOf e he k ?_
            rw [hoee, hoe]
            exact hk0
        rw [show ∀ a b : Doc, noAtR (Doc.obj [("_sch", a), ("_dat", b)]) =
            (!pyStartsWith "_sch" "@r" && noAtR a &&
              (!pyStartsWith "_dat" "@r" && noAtR b && true)) from fun a b => rfl]
        simp only [show pyStartsWith "_sch" "@r" = false from rfl,
          show pyStartsWith "_dat" "@r" = false from rfl, Bool.not_false, Bool.true_and,
          Bool.and_true, Bool.and_eq_true]
        constructor
        · show noAtRList _ = true
          rw [noAtRList_iff]
          intro y hy
          obtain ⟨k, hk, hke⟩ := List.mem_map.mp hy
          rw [← hke]
          show (!pyStartsWith (abbrevKey k) "@r") = true
          rw [sortStr, mem_sortLe] at hk
          rw [abbrevKey_no_atr (hcommon k hk)]
          rfl
        · show noAtRList _ = true
          rw [noAtRList_iff]
          intro r hr
          obtain ⟨o, ho, hoe⟩ := List.mem_map.mp hr
          rw [← hoe]
          rw [mkPartialRow]
          set common := interKeys (((convElems lvl sdict xs).map ConvElem.pairs).map
            (fun o => o.map Prod.fst)) with hcdef
          show noAtRList _ = true
          rw [noAtRList_iff]
          intro c hc
          by_cases hoptE : ((o.filter (fun kv => !common.contains kv.1)).foldl
              (fun acc kv => pyInsert acc (abbrevKey kv.1) kv.2) []).isEmpty
          · rw [if_pos hoptE] at hc
            obtain ⟨q, hq, hqe⟩ := List.mem_map.mp hc
            rw [sortPairsLe, mem_sortLe] at hq
            exact hqe ▸ (hrowsGood o ho q (List.mem_of_mem_filter hq)).2
          · rw [if_neg hoptE] at hc
            rcases List.mem_append.mp hc with hc1 | hc1
            · obtain ⟨q, hq, hqe⟩ := List.mem_map.mp hc1
              rw [sortPairsLe, mem_sortLe] at hq
              exact hqe ▸ (hrowsGood o ho q (List.mem_of_mem_filter hq)).2
            · simp only [List.mem_singleton] at hc1
              rw [hc1]
              show noAtRPairs [("_opt", Doc.obj _)] = true
              rw [noAtRPairs_iff]
              intro p hp
              simp only [List.mem_singleton] at hp
              rw [hp]
              refine ⟨?_, ?_⟩
              · show pyStartsWith "_opt" "@r" = false
                decide
              · show noAtRPairs _ = true
                refine noAtRPairs_pyFoldF abbrevKey _ ?_
                intro q hq
                have hgood := hrowsGood o ho q (List.mem_of_mem_filter hq)
                exact ⟨abbrevKey_no_atr hgood.1, hgood.2⟩


/-! Independence of decoding from the references table.  `decStr` consults the
table only on the `@r` branch, so on data free of `@r`-prefixed strings the
whole recursive decode is the same under any two tables.  The congruence lemmas
walk each helper of `_convert_from_toon` with the needed equality supplied for
the members actually decoded. -/

theorem decStr_refs_indep (refs refs' sdict : List (String × Doc)) (s : String)
    (h : pyStartsWith s "@r" = false) :
    decStr refs sdict s = decStr refs' sdict s := by
  simp only [decStr, h, Bool.false_eq_true, if_false]

theorem decList_congr (refs refs' sdict : List (String × Doc)) :
    ∀ xs : List Doc, (∀ x ∈ xs, dec refs sdict x = dec refs' sdict x) →
      decList refs sdict xs = decList refs' sdict xs := by
  intro xs
  induction xs with
  | nil => intro _; rfl
  | cons x t ih =>
    intro h
    simp only [decList]
    rw [h x (List.mem_cons_self _ _), ih (fun y hy => h y (List.mem_cons_of_mem _ hy))]

theorem decPairs_congr (refs refs' sdict : List (String × Doc)) :
    ∀ kvs : List (String × Doc),
      (∀ p ∈ kvs, dec refs sdict p.2 = dec refs' sdict p.2) →
      decPairs refs sdict kvs = decPairs refs' sdict kvs := by
  intro kvs
  induction kvs with
  | nil => intro _; rfl
  | cons p t ih =>
    intro h
    obtain ⟨k, v⟩ := p
    simp only [decPairs]
    rw [h (k, v) (List.mem_cons_self _ _), ih (fun q hq => h q (List.mem_cons_of_mem _ hq))]

theorem decOptPairs_congr (refs refs' sdict : List (String × Doc)) :
    ∀ kvs : List (String × Doc),
      (∀ p ∈ kvs, dec refs sdict p.2 = dec refs' sdict p.2) →
      decOptPairs refs sdict kvs = decOptPairs refs' sdict kvs := by
  intro kvs
  induction kvs with
  | nil => intro _; rfl
  | cons p t ih =>
    intro h
    obtain ⟨k, v⟩ := p
    simp only [decOptPairs]
    rw [h (k, v) (List.mem_cons_self _ _), ih (fun q hq => h q (List.mem_cons_of_mem _ hq))]

theorem decMarkerPairs_cons_opt (refs sdict : List (String × Doc)) (v : Doc)
    (t : List (String × Doc)) :
    decMarkerPairs refs sdict (("_opt", v) :: t) =
      (if docTruthy v then
        match v with
        | Doc.obj okvs =>
          match decOptPairs refs sdict okvs with
          | Except.error e => Except.error e
          | Except.ok opts => Except.ok ([], opts)
        | _ => Except.error DErr.typeError
      else Except.ok ([], [])) := by
  rw [decMarkerPairs.eq_def]
  rfl

theorem decMarkerPairs_cons_other (refs sdict : List (String × Doc)) (k : String) (v : Doc)
    (t : List (String × Doc)) (hk : ¬ k = "_opt") :
    decMarkerPairs refs sdict ((k, v) :: t) = decMarkerPairs refs sdict t := by
  rw [decMarkerPairs.eq_def]
  split
  · rename_i heq
    simp at heq
  · rename_i optv tail heq
    simp only [List.cons.injEq, Prod.mk.injEq] at heq
    exact absurd heq.1.1 hk
  · rename_i hno heq
    simp only [List.cons.injEq] at heq
    rw [heq.2]

theorem decMarkerPairs_congr (refs refs' sdict : List (String × Doc)) :
    ∀ lkvs : List (String × Doc),
      (∀ p ∈ lkvs, ∀ okvs, p.2 = Doc.obj okvs →
        decOptPairs refs sdict okvs = decOptPairs refs' sdict okvs) →
      decMarkerPairs refs sdict lkvs = decMarkerPairs refs' sdict lkvs := by
  intro lkvs
  induction lkvs with
  | nil => intro _; rfl
  | cons p t ih =>
    intro h
    obtain ⟨k, v⟩ := p
    by_cases hk : k = "_opt"
    · subst hk
      rw [decMarkerPairs_cons_opt, decMarkerPairs_cons_opt]
      by_cases ht : docTruthy v
      · simp only [ht, if_true]
        cases v with
        | obj okvs =>
          show (match decOptPairs refs sdict okvs with
                | Except.error e => Except.error e
                | Except.ok opts => Except.ok ([], opts)) =
              (match decOptPairs refs' sdict okvs with
                | Except.error e => Except.error e
                | Except.ok opts => Except.ok ([], opts))
          rw [h ("_opt", Doc.obj okvs) (List.mem_cons_self _ _) okvs rfl]
        | null => rfl
        | bool b => rfl
        | num n => rfl
        | str s => rfl
        | arr xs => rfl
      · simp only [ht, Bool.false_eq_true, if_false]
    · rw [decMarkerPairs_cons_other refs sdict k v t hk,
        decMarkerPairs_cons_other refs' sdict k v t hk]
      exact ih (fun q hq => h q (List.mem_cons_of_mem _ hq))

theorem decMarker_congr (refs refs' sdict : List (String × Doc)) (c : Doc)
    (h : ∀ lkvs, c = Doc.obj lkvs →
      decMarkerPairs refs sdict lkvs = decMarkerPairs refs' sdict lkvs) :
    decMarker refs sdict c = decMarker refs' sdict c := by
  cases c with
  | obj lkvs =>
    show decMarkerPairs refs sdict lkvs = decMarkerPairs refs' sdict lkvs
    exact h lkvs rfl
  | null => rfl
  | bool b => rfl
  | num n => rfl
  | str s => rfl
  | arr xs => rfl

theorem decCells_cons_cons (refs sdict : List (String × Doc)) (k : String) (kt : List String)
    (c c2 : Doc) (ct2 : List Doc) (mk : Bool) :
    decCells refs sdict (k :: kt) (c :: c2 :: ct2) mk =
      (match dec refs sdict c with
       | Except.error e => Except.error e
       | Except.ok v =>
         match decCells refs sdict kt (c2 :: ct2) mk with
         | Except.error e => Except.error e
         | Except.ok (pairs, opts) => Except.ok ((k, v) :: pairs, opts)) := by
  rw [decCells.eq_def]

theorem decCells_cons_single_false (refs sdict : List (String × Doc)) (k : String)
    (kt : List String) (c : Doc) :
    decCells refs sdict (k :: kt) [c] false =
      (match dec refs sdict c with
       | Except.error e => Except.error e
       | Except.ok v =>
         match decCells refs sdict kt [] false with
         | Except.error e => Except.error e
         | Except.ok (pairs, opts) => Except.ok ((k, v) :: pairs, opts)) := by
  rw [decCells.eq_def]

theorem decCells_congr (refs refs' sdict : List (String × Doc)) :
    ∀ (cells : List Doc) (keys : List String) (mk : Bool),
      (∀ c ∈ cells, dec refs sdict c = dec refs' sdict c) →
      (∀ c ∈ cells, decMarker refs sdict c = decMarker refs' sdict c) →
      decCells refs sdict keys cells mk = decCells refs' sdict keys cells mk := by
  intro cells
  induction cells with
  | nil => intro keys mk _ _; cases keys <;> rfl
  | cons c ct ih =>
    intro keys mk hdec hmk
    have hc : dec refs sdict c = dec refs' sdict c := hdec c (List.mem_cons_self _ _)
    have ihct : ∀ keys mk, decCells refs sdict keys ct mk = decCells refs' sdict keys ct mk :=
      fun ks m => ih ks m (fun y hy => hdec y (List.mem_cons_of_mem _ hy))
        (fun y hy => hmk y (List.mem_cons_of_mem _ hy))
    cases ct with
    | nil =>
      cases mk with
      | true =>
        have hm := hmk c (List.mem_cons_self _ _)
        cases keys with
        | nil => exact hm
        | cons k kt => exact hm
      | false =>
        cases keys with
        | nil => rfl
        | cons k kt =>
          rw [decCells_cons_single_false refs sdict k kt c,
            decCells_cons_single_false refs' sdict k kt c, hc, ihct kt false]
    | cons c2 ct2 =>
      cases keys with
      | nil =>
        show decCells refs sdict [] (c2 :: ct2) mk = decCells refs' sdict [] (c2 :: ct2) mk
        exact ihct [] mk
      | cons k kt =>
        rw [decCells_cons_cons refs sdict k kt c c2 ct2 mk,
          decCells_cons_cons refs' sdict k kt c c2 ct2 mk, hc, ihct kt mk]

theorem decRows_cons_arr (refs sdict : List (String × Doc)) (keys : List String)
    (cells : List Doc) (t : List Doc) :
    decRows refs sdict keys (Doc.arr cells :: t) =
      (match cells.getLast? with
       | none => Except.error DErr.indexError
       | some last =>
         match decCells refs sdict keys cells (isOptMarker last) with
         | Except.error e => Except.error e
         | Except.ok (pairs, opts) =>
           match decRows refs sdict keys t with
           | Except.error e => Except.error e
           | Except.ok rest => Except.ok (Doc.obj (pyFold (pyFold [] pairs) opts) :: rest)) := by
  rw [decRows.eq_def]

theorem decRows_congr (refs refs' sdict : List (String × Doc)) (keys : List String) :
    ∀ rows : List Doc,
      (∀ r ∈ rows, ∀ cells, r = Doc.arr cells → ∀ mk,
        decCells refs sdict keys cells mk = decCells refs' sdict keys cells mk) →
      decRows refs sdict keys rows = decRows refs' sdict keys rows := by
  intro rows
  induction rows with
  | nil => intro _; rfl
  | cons r t ih =>
    intro h
    have iht : decRows refs sdict keys t = decRows refs' sdict keys t :=
      ih (fun q hq => h q (List.mem_cons_of_mem _ hq))
    cases r with
    | arr cells =>
      rw [decRows_cons_arr refs sdict keys cells t, decRows_cons_arr refs' sdict keys cells t]
      cases hlast : cells.getLast? with
      | none => rfl
      | some last =>
        show (match decCells refs sdict keys cells (isOptMarker last) with
              | Except.error e => Except.error e
              | Except.ok (pairs, opts) =>
                match decRows refs sdict keys t with
                | Except.error e => Except.error e
                | Except.ok rest => Except.ok (Doc.obj (pyFold (pyFold [] pairs) opts) :: rest)) =
            (match decCells refs' sdict keys cells (isOptMarker last) with
              | Except.error e => Except.error e
              | Except.ok (pairs, opts) =>
                match decRows refs' sdict keys t with
                | Except.error e => Except.error e
                | Except.ok rest => Except.ok (Doc.obj (pyFold (pyFold [] pairs) opts) :: rest))
        rw [h (Doc.arr cells) (List.mem_cons_self _ _) cells rfl, iht]
    | null => rfl
    | bool b => rfl
    | num n => rfl
    | str s => rfl
    | obj kvs => rfl

theorem decSchemaDat_cons_dat_arr (refs sdict : List (String × Doc)) (keys : List String)
    (rows : List Doc) (t : List (String × Doc)) :
    decSchemaDat refs sdict keys (("_dat", Doc.arr rows) :: t) =
      (match decRows refs sdict keys rows with
       | Except.error e => Except.error e
       | Except.ok objs => Except.ok (Doc.arr objs)) := by
  rw [decSchemaDat.eq_def]
  rfl

theorem decSchemaDat_cons_other (refs sdict : List (String × Doc)) (keys : List String)
    (k : String) (v : Doc) (t : List (String × Doc)) (hk : ¬ k = "_dat") :
    decSchemaDat refs sdict keys ((k, v) :: t) = decSchemaDat refs sdict keys t := by
  rw [decSchemaDat.eq_def]
  split
  · rename_i heq
    simp at heq
  · rename_i rows tail heq
    simp only [List.cons.injEq, Prod.mk.injEq] at heq
    exact absurd heq.1.1 hk
  · rename_i v2 tail heq
    simp only [List.cons.injEq, Prod.mk.injEq] at heq
    exact absurd heq.1.1 hk
  · rename_i hno heq
    simp only [List.cons.injEq] at heq
    rw [heq.2]

theorem decSchemaDat_congr (refs refs' sdict : List (String × Doc)) (keys : List String) :
    ∀ kvs : List (String × Doc),
      (∀ p ∈ kvs, ∀ rows, p.2 = Doc.arr rows →
        decRows refs sdict keys rows = decRows refs' sdict keys rows) →
      decSchemaDat refs sdict keys kvs = decSchemaDat refs' sdict keys kvs := by
  intro kvs
  induction kvs with
  | nil => intro _; rfl
  | cons p t ih =>
    intro h
    obtain ⟨k, v⟩ := p
    by_cases hk : k = "_dat"
    · subst hk
      cases v with
      | arr rows =>
        rw [decSchemaDat_cons_dat_arr refs sdict keys rows t,
          decSchemaDat_cons_dat_arr refs' sdict keys rows t,
          h ("_dat", Doc.arr rows) (List.mem_cons_self _ _) rows rfl]
      | null => rfl
      | bool b => rfl
      | num n => rfl
      | str s => rfl
      | obj kvs2 => rfl
    · rw [decSchemaDat_cons_other refs sdict keys k v t hk,
        decSchemaDat_cons_other refs' sdict keys k v t hk]
      exact ih (fun q hq => h q (List.mem_cons_of_mem _ hq))

theorem dec_refs_indep (refs refs' sdict : List (String × Doc)) :
    ∀ (n : Nat) (d : Doc), sizeOf d ≤ n → noAtR d = true →
      dec refs sdict d = dec refs' sdict d := by
  intro n
  induction n using Nat.strong_induction_on with
  | _ n IH =>
    intro d hsz hA
    have hIH : ∀ y : Doc, sizeOf y < n → noAtR y = true →
        dec refs sdict y = dec refs' sdict y := by
      intro y hy hAy
      exact IH (sizeOf y) (by omega) y le_rfl hAy
    cases d with
    | null => rfl
    | bool b => rfl
    | num m => rfl
    | str s =>
      have hA2 : (!pyStartsWith s "@r") = true := hA
      simp only [dec]
      rw [decStr_refs_indep refs refs' sdict s (by simpa using hA2)]
    | arr xs =>
      have hAxs := (noAtRList_iff xs).mp hA
      simp only [dec]
      rw [decList_congr refs refs' sdict xs (fun x hx =>
        hIH x (lt_of_lt_of_le (sizeOf_arr_elem hx) hsz) (hAxs x hx))]
    | obj kvs =>
      have hAkvs := (noAtRPairs_iff kvs).mp hA
      have hdecv : ∀ p ∈ kvs, dec refs sdict p.2 = dec refs' sdict p.2 := by
        intro p hp
        refine hIH p.2 ?_ (hAkvs p hp).2
        have := sizeOf_obj_val (k := p.1) (v := p.2)
          (by rw [show (p.1, p.2) = p from rfl]; exact hp)
        omega
      simp only [dec]
      by_cases hsd : (hasKey kvs "_sch" && hasKey kvs "_dat") = true
      · simp only [hsd, if_true]
        cases hks : schemaKeysOf kvs with
        | none => rfl
        | some keys =>
          refine decSchemaDat_congr refs refs' sdict keys kvs ?_
          intro p hp rows hrows
          have hvA : noAtR p.2 = true := (hAkvs p hp).2
          rw [hrows] at hvA
          have hszrows : sizeOf (Doc.arr rows) ≤ n := by
            have h1 := sizeOf_obj_val (k := p.1) (v := p.2)
              (by rw [show (p.1, p.2) = p from rfl]; exact hp)
            rw [hrows] at h1
            omega
          have hArows := (noAtRList_iff rows).mp hvA
          refine decRows_congr refs refs' sdict keys rows ?_
          intro r hr cells hcells mk
          have hrA : noAtR r = true := hArows r hr
          rw [hcells] at hrA
          have hszr : sizeOf (Doc.arr cells) ≤ n := by
            have h2 := sizeOf_arr_elem (x := r) hr
            rw [hcells] at h2
            have h3 : sizeOf (Doc.arr rows) ≤ n := hszrows
            omega
          have hAcells := (noAtRList_iff cells).mp hrA
          have hdecc : ∀ c ∈ cells, dec refs sdict c = dec refs' sdict c := by
            intro c hc
            refine hIH c ?_ (hAcells c hc)
            have := sizeOf_arr_elem (x := c) hc
            omega
          refine decCells_congr refs refs' sdict cells keys mk hdecc ?_
          intro c hc
          have hcA : noAtR c = true := hAcells c hc
          have hszc : sizeOf c < n := by
            have := sizeOf_arr_elem (x := c) hc
            omega
          refine decMarker_congr refs refs' sdict c ?_
          intro lkvs hlk
          rw [hlk] at hcA hszc
          have hAlk := (noAtRPairs_iff lkvs).mp hcA
          refine decMarkerPairs_congr refs refs' sdict lkvs ?_
          intro q hq okvs hok
          have hqA : noAtR q.2 = true := (hAlk q hq).2
          rw [hok] at hqA
          have hszq : sizeOf (Doc.obj okvs) < n := by
            have := sizeOf_obj_val (k := q.1) (v := q.2)
              (by rw [show (q.1, q.2) = q from rfl]; exact hq)
            rw [hok] at this
            omega
          have hAok := (noAtRPairs_iff okvs).mp hqA
          refine decOptPairs_congr refs refs' sdict okvs ?_
          intro w hw
          refine hIH w.2 ?_ (hAok w hw).2
          have := sizeOf_obj_val (k := w.1) (v := w.2)
            (by rw [show (w.1, w.2) = w from rfl]; exact hw)
          omega
      · simp only [hsd, Bool.false_eq_true, if_false]
        rw [decPairs_congr refs refs' sdict kvs hdecv]

/-! The `_refs` and `d` entries of the assembled envelope. -/

theorem pyGet_mkEnv_d (lvl : Int) (d : Doc) (r : List (String × Doc))
    (s : List (String × String)) :
    pyGet (mkEnvDoc lvl d r s) "d" = some d := by
  cases r <;> cases s <;> rfl

theorem pyGet_mkEnv_refs (lvl : Int) (d : Doc) (r : List (String × Doc))
    (s : List (String × String)) :
    pyGet (mkEnvDoc lvl d r s) "_refs" =
      (if r.isEmpty then none else some (Doc.obj r)) := by
  cases r <;> cases s <;> rfl

/-- The envelope dict carried by the serialized text: the text itself for the
raw form, the inner envelope for the EXTREME zlib wrapper. -/
def envOf : ToonText → Doc
  | .raw env => env
  | .zwrap _ _ inner => inner

theorem envOf_json_to_toon (level : CompressionLevel) (d : Doc) :
    envOf (json_to_toon level d) =
      mkEnvDoc (level.value : Int)
        (conv level.value (if 3 ≤ level.value then buildStringDict d else []) d)
        (if 2 ≤ level.value then buildRefCache d else [])
        (if 3 ≤ level.value then buildStringDict d else []) := by
  cases level <;> rfl

/-! The shape census `collect_structures`: every recorded pair carries the
sorted key list of the very dict it records. -/

theorem mem_collectShapesList :
    ∀ (xs : List Doc) (o : List String × List (String × Doc)),
      o ∈ collectShapesList xs → ∃ x ∈ xs, o ∈ collectShapes x := by
  intro xs
  induction xs with
  | nil =>
    intro o ho
    rw [show collectShapesList [] = [] from rfl] at ho
    exact absurd ho (List.not_mem_nil o)
  | cons x t ih =>
    intro o ho
    simp only [collectShapesList] at ho
    rcases List.mem_append.mp ho with h | h
    · exact ⟨x, List.mem_cons_self _ _, h⟩
    · obtain ⟨y, hy, hoy⟩ := ih o h
      exact ⟨y, List.mem_cons_of_mem _ hy, hoy⟩

theorem mem_collectShapesPairs :
    ∀ (kvs : List (String × Doc)) (o : List String × List (String × Doc)),
      o ∈ collectShapesPairs kvs → ∃ p ∈ kvs, o ∈ collectShapes p.2 := by
  intro kvs
  induction kvs with
  | nil =>
    intro o ho
    rw [show collectShapesPairs [] = [] from rfl] at ho
    exact absurd ho (List.not_mem_nil o)
  | cons p t ih =>
    intro o ho
    obtain ⟨k, v⟩ := p
    simp only [collectShapesPairs] at ho
    rcases List.mem_append.mp ho with h | h
    · exact ⟨(k, v), List.mem_cons_self _ _, h⟩
    · obtain ⟨q, hq, hoq⟩ := ih o h
      exact ⟨q, List.mem_cons_of_mem _ hq, hoq⟩

theorem collectShapes_fst :
    ∀ (n : Nat) (d : Doc), sizeOf d ≤ n →
      ∀ o ∈ collectShapes d, o.1 = sortStr (o.2.map Prod.fst) := by
  intro n
  induction n using Nat.strong_induction_on with
  | _ n IH =>
    intro d hsz o ho
    have hIH : ∀ y : Doc, sizeOf y < n →
        ∀ o2 ∈ collectShapes y, o2.1 = sortStr (o2.2.map Prod.fst) := by
      intro y hy
      exact IH (sizeOf y) (by omega) y le_rfl
    cases d with
    | null =>
      rw [show collectShapes Doc.null = [] from rfl] at ho
      exact absurd ho (List.not_mem_nil o)
    | bool b =>
      rw [show collectShapes (Doc.bool b) = [] from rfl] at ho
      exact absurd ho (List.not_mem_nil o)
    | num m =>
      rw [show collectShapes (Doc.num m) = [] from rfl] at ho
      exact absurd ho (List.not_mem_nil o)
    | str s =>
      rw [show collectShapes (Doc.str s) = [] from rfl] at ho
      exact absurd ho (List.not_mem_nil o)
    | arr xs =>
      simp only [collectShapes] at ho
      obtain ⟨x, hx, hox⟩ := mem_collectShapesList xs o ho
      refine hIH x ?_ o hox
      have := sizeOf_arr_elem (x := x) hx
      omega
    | obj kvs =>
      simp only [collectShapes] at ho
      rcases List.mem_cons.mp ho with rfl | ho2
      · rfl
      · obtain ⟨p, hp, hop⟩ := mem_collectShapesPairs kvs o ho2
        refine hIH p.2 ?_ o hop
        have := sizeOf_obj_val (k := p.1) (v := p.2)
          (by rw [show (p.1, p.2) = p from rfl]; exact hp)
        omega

theorem firstWithShape_mem (occs : List (List String × List (String × Doc)))
    (sh : List String) (h : sh ∈ occs.map Prod.fst) :
    (sh, firstWithShape occs sh) ∈ occs := by
  obtain ⟨o, ho, hsh⟩ := List.mem_map.mp h
  have hex : (occs.find? (fun q => q.1 == sh)).isSome = true :=
    List.find?_isSome.mpr ⟨o, ho, by simp [hsh]⟩
  cases hf : occs.find? (fun q => q.1 == sh) with
  | none => rw [hf] at hex; simp at hex
  | some q =>
    have hq1 : q.1 = sh := by
      have := List.find?_some hf
      simpa using this
    have hqm := List.mem_of_find?_eq_some hf
    have hfs : firstWithShape occs sh = q.2 := by
      rw [firstWithShape, hf]
    rw [hfs, ← hq1, show (q.1, q.2) = q from rfl]
    exact hqm

/-- The representative bound to a shape present in the census is a dict whose
sorted key list is that very shape. -/
theorem firstWithShape_shape (d : Doc) (sh : List String)
    (h : sh ∈ (collectShapes d).map Prod.fst) :
    sortStr ((firstWithShape (collectShapes d) sh).map Prod.fst) = sh := by
  have hm := firstWithShape_mem (collectShapes d) sh h
  have := collectShapes_fst (sizeOf d) d le_rfl (sh, firstWithShape (collectShapes d) sh) hm
  exact this.symm

/-- The shapes of the reference-cache entries are exactly the distinct shapes
occurring at least three times in the census, in first-occurrence order. -/
theorem refShapes_eq (d : Doc) :
    (buildRefCache d).map (fun e => sortStr (docKeys e.2)) =
      (pyDedup ((collectShapes d).map Prod.fst)).filter
        (fun sh => 3 ≤ ((collectShapes d).map Prod.fst).count sh) := by
  simp only [buildRefCache]
  rw [List.map_map]
  refine Eq.trans (List.map_congr_left ?_) (List.enum_map_snd _)
  intro p hp
  have hmem : p.2 ∈ (pyDedup ((collectShapes d).map Prod.fst)).filter
      (fun sh => 3 ≤ ((collectShapes d).map Prod.fst).count sh) := by
    have h1 := List.mem_map_of_mem Prod.snd hp
    rwa [List.enum_map_snd] at h1
  have hsh : p.2 ∈ (collectShapes d).map Prod.fst :=
    (mem_pyDedup _ _).mp (List.mem_of_mem_filter hmem)
  show sortStr (docKeys (Doc.obj (firstWithShape (collectShapes d) p.2))) = p.2
  rw [show docKeys (Doc.obj (firstWithShape (collectShapes d) p.2)) =
    (firstWithShape (collectShapes d) p.2).map Prod.fst from rfl]
  exact firstWithShape_shape d p.2 hsh

/-- Every reference-cache entry holds a dict of the document whose own sorted
key list is the entry's shape. -/
theorem refcache_val_occurrence (d : Doc) :
    ∀ e ∈ buildRefCache d, ∃ kvs, e.2 = Doc.obj kvs ∧
      (sortStr (docKeys e.2), kvs) ∈ collectShapes d := by
  intro e he
  simp only [buildRefCache] at he
  obtain ⟨p, hp, hpe⟩ := List.mem_map.mp he
  subst hpe
  have hmem : p.2 ∈ (pyDedup ((collectShapes d).map Prod.fst)).filter
      (fun sh => 3 ≤ ((collectShapes d).map Prod.fst).count sh) := by
    have h1 := List.mem_map_of_mem Prod.snd hp
    rwa [List.enum_map_snd] at h1
  have hsh : p.2 ∈ (collectShapes d).map Prod.fst :=
    (mem_pyDedup _ _).mp (List.mem_of_mem_filter hmem)
  refine ⟨firstWithShape (collectShapes d) p.2, rfl, ?_⟩
  show (sortStr (docKeys (Doc.obj (firstWithShape (collectShapes d) p.2))),
    firstWithShape (collectShapes d) p.2) ∈ collectShapes d
  rw [show docKeys (Doc.obj (firstWithShape (collectShapes d) p.2)) =
    (firstWithShape (collectShapes d) p.2).map Prod.fst from rfl]
  rw [firstWithShape_shape d p.2 hsh]
  exact firstWithShape_mem (collectShapes d) p.2 hsh

/-- Every id of the string dictionary starts with `s`. -/
theorem buildStringDict_keys (d : Doc) :
    ∀ p ∈ buildStringDict d, pyStartsWith p.1 "s" = true := by
  intro p hp
  simp only [buildStringDict] at hp
  obtain ⟨q, hq, hqe⟩ := List.mem_map.mp hp
  subst hqe
  show List.isPrefixOf ("s").data ("s" ++ natToStr q.1).data = true
  rw [String.data_append, show ("s").data = ['s'] from rfl, List.cons_append, List.nil_append]
  rw [show List.isPrefixOf ['s'] ('s' :: (natToStr q.1).data) =
    (('s' == 's') && List.isPrefixOf ([] : List Char) (natToStr q.1).data) from rfl]
  rw [show (('s' == 's') : Bool) = true from rfl, Bool.true_and]
  cases (natToStr q.1).data <;> rfl

/-- **C4** (amended): at STANDARD and above the reference cache holds exactly one
entry per structural shape — sorted key set — occurring at least three times in
the document, each entry's value being a dict of the document with exactly that
shape, and when non-empty the cache is emitted in the envelope under `_refs`.
The remaining halves of the claim hold for documents free of `@r`-prefixed
strings (the amendment; the encoder does not escape pass-through strings): the
encoded data section then contains no reference-marker token, and the decode of
that data section is the same under any two references tables. -/
theorem refcache_one_rep_emitted_decode_indep (level : CompressionLevel) (d : Doc)
    (h2 : 2 ≤ level.value) (hA : noAtR d = true) :
    ((buildRefCache d).map (fun e => sortStr (docKeys e.2)) =
      (pyDedup ((collectShapes d).map Prod.fst)).filter
        (fun sh => 3 ≤ ((collectShapes d).map Prod.fst).count sh)) ∧
    ((buildRefCache d).map (fun e => sortStr (docKeys e.2))).Nodup ∧
    (∀ e ∈ buildRefCache d, ∃ kvs, e.2 = Doc.obj kvs ∧
        (sortStr (docKeys e.2), kvs) ∈ collectShapes d) ∧
    (buildRefCache d ≠ [] →
      pyGet (envOf (json_to_toon level d)) "_refs" = some (Doc.obj (buildRefCache d))) ∧
    (∀ sd, pyGet (envOf (json_to_toon level d)) "d" = some sd →
      noAtR sd = true ∧
      ∀ refs refs' sdict, dec refs sdict sd = dec refs' sdict sd) := by
  refine ⟨refShapes_eq d, ?_, refcache_val_occurrence d, ?_, ?_⟩
  · rw [refShapes_eq d]
    exact List.Nodup.filter _ (nodup_pyDedup _)
  · intro hne
    rw [envOf_json_to_toon, if_pos h2, pyGet_mkEnv_refs]
    cases hb : buildRefCache d with
    | nil => exact absurd hb hne
    | cons a t => rfl
  · intro sd hsd
    rw [envOf_json_to_toon, pyGet_mkEnv_d] at hsd
    have hsd2 : sd = conv level.value (if 3 ≤ level.value then buildStringDict d else []) d :=
      (Option.some.inj hsd).symm
    subst hsd2
    have hkeys : ∀ p ∈ (if 3 ≤ level.value then buildStringDict d else []),
        pyStartsWith p.1 "s" = true := by
      by_cases h3 : 3 ≤ level.value
      · rw [if_pos h3]
        exact buildStringDict_keys d
      · rw [if_neg h3]
        intro p hp
        exact absurd hp (List.not_mem_nil p)
    have hnoatr := enc_noAtR _ hkeys level.value (sizeOf d) d le_rfl hA
    exact ⟨hnoatr, fun refs refs' sdict =>
      dec_refs_indep refs refs' sdict (sizeOf (conv level.value
        (if 3 ≤ level.value then buildStringDict d else []) d)) _ le_rfl hnoatr⟩

/-- An array of three dicts of one shape: the cache gets one entry for it. -/
def c4w : Doc :=
  Doc.arr [Doc.obj [("x", Doc.num 1)], Doc.obj [("x", Doc.num 1)], Doc.obj [("x", Doc.num 1)]]

/-- Witness: at STANDARD on `c4w` the hypotheses hold, the cache is emitted, and
decoding the data section under a junk references table equals decoding it under
the empty one. -/
theorem refcache_one_rep_emitted_decode_indep_witness :
    2 ≤ CompressionLevel.STANDARD.value ∧ noAtR c4w = true ∧
    pyGet (envOf (json_to_toon CompressionLevel.STANDARD c4w)) "_refs" =
      some (Doc.obj (buildRefCache c4w)) ∧
    dec [("r0", Doc.null)] [] (conv 2 [] c4w) = dec [] [] (conv 2 [] c4w) :=
  ⟨by decide, by decide,
    (refcache_one_rep_emitted_decode_indep CompressionLevel.STANDARD c4w
      (by decide) (by decide)).2.2.2.1
      (fun h => absurd (congrArg List.length h) (by decide)),
    ((refcache_one_rep_emitted_decode_indep CompressionLevel.STANDARD c4w
      (by decide) (by decide)).2.2.2.2 (conv 2 [] c4w) rfl).2 [("r0", Doc.null)] [] []⟩

/-- An array with three dicts of one shape and a pass-through string `"@r0"`. -/
def c4bad : Doc :=
  Doc.arr [Doc.obj [("x", Doc.num 1)], Doc.obj [("x", Doc.num 2)],
    Doc.obj [("x", Doc.num 3)], Doc.str "@r0"]

/-- **C4** counterexample: on a document containing the literal string `"@r0"`
the claim fails as stated.  The encoder passes the string through unescaped, so
the encoded data section does contain a reference-marker token, and the decoder
then substitutes the cached representative for it: decoding the encoder's own
envelope yields a different result than decoding the same envelope with the
references table removed, so the decode is not independent of the table. -/
theorem atr_passthrough_decode_depends_on_refs :
    noAtR (conv 2 [] c4bad) = false ∧
    buildRefCache c4bad = [("r0", Doc.obj [("x", Doc.num 1)])] ∧
    toon_to_json (json_to_toon CompressionLevel.STANDARD c4bad) =
      .ok (Doc.arr [Doc.obj [("x", Doc.num 1)], Doc.obj [("x", Doc.num 2)],
        Doc.obj [("x", Doc.num 3)], Doc.obj [("x", Doc.num 1)]]) ∧
    decodeBody (mkEnvDoc 2 (conv 2 [] c4bad) [] []) =
      .ok (Doc.arr [Doc.obj [("x", Doc.num 1)], Doc.obj [("x", Doc.num 2)],
        Doc.obj [("x", Doc.num 3)], Doc.str "@r0"]) :=
  ⟨rfl, rfl, rfl, rfl⟩


/-! Infrastructure for the round-trip law: lookups over the serialized string
dictionary, key-stable sorting of pairs, membership views of the safe fragment,
and the intersection of key sets. -/

theorem lookup_map_str : ∀ (l : List (String × String)) (k : String),
    List.lookup k (l.map (fun p => (p.1, Doc.str p.2))) =
      Option.map Doc.str (List.lookup k l) := by
  intro l
  induction l with
  | nil => intro k; rfl
  | cons p t ih =>
    intro k
    obtain ⟨k1, v1⟩ := p
    cases hk : (k == k1) with
    | true => simp only [List.map_cons, List.lookup, hk]; rfl
    | false => simp only [List.map_cons, List.lookup, hk]; exact ih k

theorem mem_nodup_lookup {β : Type} : ∀ (l : List (String × β)) (p : String × β),
    (l.map Prod.fst).Nodup → p ∈ l → List.lookup p.1 l = some p.2 := by
  intro l
  induction l with
  | nil => intro p _ hp; exact absurd hp (List.not_mem_nil p)
  | cons q t ih =>
    intro p hnd hp
    obtain ⟨k1, v1⟩ := q
    simp only [List.map_cons, List.nodup_cons] at hnd
    rcases List.mem_cons.mp hp with rfl | hp2
    · exact lookup_cons_self _ _ _
    · have hne : (p.1 == k1) = false := by
        rw [beq_eq_false_iff_ne]
        intro he
        exact hnd.1 (he ▸ List.mem_map_of_mem Prod.fst hp2)
      simp only [List.lookup, hne]
      exact ih p hnd.2 hp2

theorem nodupKeys_iff : ∀ l : List String, nodupKeys l = true ↔ l.Nodup := by
  intro l
  induction l with
  | nil => simp [nodupKeys]
  | cons x t ih =>
    show (!t.contains x && nodupKeys t) = true ↔ _
    rw [Bool.and_eq_true, ih, List.nodup_cons]
    constructor
    · rintro ⟨h1, h2⟩
      refine ⟨?_, h2⟩
      intro hx
      rw [Bool.not_eq_true'] at h1
      rw [(contains_iff t x).mpr hx] at h1
      exact absurd h1 (by simp)
    · rintro ⟨h1, h2⟩
      refine ⟨?_, h2⟩
      rw [Bool.not_eq_true']
      by_contra hc
      rw [Bool.not_eq_false] at hc
      exact h1 ((contains_iff t x).mp hc)

theorem safeList_iff : ∀ xs : List Doc,
    safeList xs = true ↔ ∀ x ∈ xs, safeDoc x = true := by
  intro xs
  induction xs with
  | nil => simp [safeList]
  | cons x t ih =>
    show (safeDoc x && safeList t) = true ↔ _
    rw [Bool.and_eq_true, ih]
    constructor
    · rintro ⟨h1, h2⟩ y hy
      rcases List.mem_cons.mp hy with rfl | hy
      · exact h1
      · exact h2 y hy
    · intro h
      exact ⟨h x (List.mem_cons_self _ _), fun y hy => h y (List.mem_cons_of_mem _ hy)⟩

theorem safePairs_iff : ∀ kvs : List (String × Doc),
    safePairs kvs = true ↔ ∀ p ∈ kvs, safeKey p.1 = true ∧ safeDoc p.2 = true := by
  intro kvs
  induction kvs with
  | nil => simp [safePairs]
  | cons p t ih =>
    obtain ⟨k, v⟩ := p
    show (safeKey k && safeDoc v && safePairs t) = true ↔ _
    simp only [Bool.and_eq_true, ih, List.mem_cons]
    constructor
    · rintro ⟨⟨h1, h2⟩, h3⟩ q hq
      rcases hq with rfl | hq
      · exact ⟨h1, h2⟩
      · exact h3 q hq
    · intro h
      have h1 := h (k, v) (Or.inl rfl)
      exact ⟨⟨h1.1, h1.2⟩, fun q hq => h q (Or.inr hq)⟩

theorem safeDoc_obj (kvs : List (String × Doc)) :
    safeDoc (Doc.obj kvs) =
      (nodupKeys (kvs.map Prod.fst) && nodupKeys ((kvs.map Prod.fst).map abbrevKey) &&
        safePairs kvs) := rfl

theorem safeDoc_arr (xs : List Doc) :
    safeDoc (Doc.arr xs) = (!(!xs.isEmpty && xs.all isEmptyObj) && safeList xs) := rfl

theorem normList_eq_map : ∀ xs : List Doc, normList xs = xs.map normDoc := by
  intro xs
  induction xs with
  | nil => rfl
  | cons x t ih => rw [show normList (x :: t) = normDoc x :: normList t from rfl, ih]; rfl

theorem normPairs_eq_map : ∀ kvs : List (String × Doc),
    normPairs kvs = kvs.map (fun p => (p.1, normDoc p.2)) := by
  intro kvs
  induction kvs with
  | nil => rfl
  | cons p t ih =>
    obtain ⟨k, v⟩ := p
    rw [show normPairs ((k, v) :: t) = (k, normDoc v) :: normPairs t from rfl, ih]
    rfl

theorem insertLe_pairs_fst (p : String × Doc) :
    ∀ l : List (String × Doc),
      (insertLe (fun a b => strLe a.1 b.1) p l).map Prod.fst =
        insertLe strLe p.1 (l.map Prod.fst) := by
  intro l
  induction l with
  | nil => rfl
  | cons q t ih =>
    simp only [insertLe, List.map_cons]
    by_cases h : strLe p.1 q.1 = true
    · simp only [h, if_true, List.map_cons]
    · rw [Bool.not_eq_true] at h
      simp only [h, Bool.false_eq_true, if_false, List.map_cons, ih]

theorem map_fst_sortPairsLe : ∀ l : List (String × Doc),
    (sortPairsLe l).map Prod.fst = sortStr (l.map Prod.fst) := by
  intro l
  induction l with
  | nil => rfl
  | cons p t ih =>
    show (insertLe (fun a b => strLe a.1 b.1) p (sortLe _ t)).map Prod.fst = _
    rw [insertLe_pairs_fst,
      show sortLe (fun a b => strLe a.1 b.1) t = sortPairsLe t from rfl, ih]
    rfl

theorem insertLe_pairs_map (g : String × Doc → String × Doc)
    (hg : ∀ q, (g q).1 = q.1) (p : String × Doc) :
    ∀ l : List (String × Doc),
      insertLe (fun a b => strLe a.1 b.1) (g p) (l.map g) =
        (insertLe (fun a b => strLe a.1 b.1) p l).map g := by
  intro l
  induction l with
  | nil => rfl
  | cons q t ih =>
    simp only [List.map_cons, insertLe, hg]
    by_cases h : strLe p.1 q.1 = true
    · simp only [h, if_true, List.map_cons]
    · rw [Bool.not_eq_true] at h
      simp only [h, Bool.false_eq_true, if_false, List.map_cons, ih]

theorem sortPairsLe_map (g : String × Doc → String × Doc)
    (hg : ∀ q, (g q).1 = q.1) :
    ∀ l : List (String × Doc), sortPairsLe (l.map g) = (sortPairsLe l).map g := by
  intro l
  induction l with
  | nil => rfl
  | cons p t ih =>
    show insertLe (fun a b => strLe a.1 b.1) (g p) (sortLe _ (t.map g)) = _
    rw [show sortLe (fun a b => strLe a.1 b.1) (t.map g) = sortPairsLe (t.map g) from rfl,
      ih, insertLe_pairs_map g hg p (sortPairsLe t)]
    rfl

theorem sortPairsLe_sorted (l : List (String × Doc)) :
    (sortPairsLe l).Pairwise (fun a b => strLe a.1 b.1 = true) :=
  sortLe_sorted _ (fun a b => strLe_total a.1 b.1)
    (fun a b c h1 h2 => strLe_trans (a := a.1) (b := b.1) (c := c.1) h1 h2) l

theorem sortPairsLe_perm (l : List (String × Doc)) : (sortPairsLe l).Perm l :=
  sortLe_perm _ l

theorem sortPairsLe_eq_of_perm (l₁ l₂ : List (String × Doc)) (hp : l₁.Perm l₂)
    (hnd : (l₁.map Prod.fst).Nodup) : sortPairsLe l₁ = sortPairsLe l₂ := by
  refine sorted_perm_nodup_eq _ _ ?_ (sortPairsLe_sorted l₁) (sortPairsLe_sorted l₂) ?_
  · exact ((sortPairsLe_perm l₁).trans hp).trans (sortPairsLe_perm l₂).symm
  · rw [map_fst_sortPairsLe]
    show (sortLe strLe (l₁.map Prod.fst)).Nodup
    exact ((sortLe_perm strLe _).nodup_iff).mpr hnd

theorem sortStr_perm (l : List String) : (sortStr l).Perm l := sortLe_perm _ l

theorem sortStr_sorted (l : List String) :
    (sortStr l).Pairwise (fun a b => strLe a b = true) :=
  sortLe_sorted _ strLe_total (fun a b c h1 h2 => strLe_trans (a := a) (b := b) (c := c) h1 h2) l

theorem sortStr_eq_of_perm (l₁ l₂ : List String) (hp : l₁.Perm l₂) (hnd : l₁.Nodup) :
    sortStr l₁ = sortStr l₂ := by
  refine sorted_perm_nodup_eq_str _ _ ?_ (sortStr_sorted l₁) (sortStr_sorted l₂) ?_
  · exact ((sortStr_perm l₁).trans hp).trans (sortStr_perm l₂).symm
  · exact ((sortStr_perm l₁).nodup_iff).mpr hnd

theorem mem_interKeys_foldl : ∀ (rest : List (List String)) (acc : List String)
    (x : String), x ∈ rest.foldl (fun acc ks => acc.filter (fun y => ks.contains y)) acc ↔
      x ∈ acc ∧ ∀ ks ∈ rest, x ∈ ks := by
  intro rest
  induction rest with
  | nil => intro acc x; simp
  | cons r rt ih =>
    intro acc x
    rw [List.foldl_cons, ih]
    rw [List.mem_filter]
    constructor
    · rintro ⟨⟨h1, h2⟩, h3⟩
      refine ⟨h1, ?_⟩
      intro ks hks
      rcases List.mem_cons.mp hks with rfl | hks
      · exact (contains_iff _ _).mp h2
      · exact h3 ks hks
    · rintro ⟨h1, h2⟩
      exact ⟨⟨h1, (contains_iff _ _).mpr (h2 r (List.mem_cons_self _ _))⟩,
        fun ks hks => h2 ks (List.mem_cons_of_mem _ hks)⟩

theorem mem_interKeys_iff (k0 : List String) (rest : List (List String)) (x : String) :
    x ∈ interKeys (k0 :: rest) ↔ x ∈ k0 ∧ ∀ ks ∈ rest, x ∈ ks := by
  rw [interKeys, mem_interKeys_foldl, mem_pyDedup]

theorem interKeys_nodup_foldl : ∀ (rest : List (List String)) (acc : List String),
    acc.Nodup → (rest.foldl (fun acc ks => acc.filter (fun y => ks.contains y)) acc).Nodup := by
  intro rest
  induction rest with
  | nil => intro acc h; exact h
  | cons r rt ih =>
    intro acc h
    rw [List.foldl_cons]
    exact ih _ (List.Nodup.filter _ h)

theorem interKeys_nodup (k0 : List String) (rest : List (List String)) :
    (interKeys (k0 :: rest)).Nodup := by
  rw [interKeys]
  exact interKeys_nodup_foldl rest _ (nodup_pyDedup k0)

theorem decCells_nil (refs sdict : List (String × Doc)) (keys : List String) (mk : Bool) :
    decCells refs sdict keys [] mk = .ok ([], []) := by
  cases keys <;> rfl


/-! Scalar inversions: a safe string decodes to itself under every route the
encoder can send it through. -/

theorem sw_single_of_cons {s : String} {c : Char} {cs : List Char} {p q : String}
    (hp : p.data = c :: cs) (hq : q.data = [c]) (h : pyStartsWith s p = true) :
    pyStartsWith s q = true := by
  rw [pyStartsWith] at h ⊢
  rw [hp] at h
  rw [hq]
  revert h
  rcases s.data with _ | ⟨b, t⟩
  · intro h
    rw [show List.isPrefixOf (c :: cs) ([] : List Char) = false from rfl] at h
    exact absurd h (by decide)
  · intro h
    obtain ⟨h1, -⟩ := isPrefixOf_cons_head h
    show ((c == b) && List.isPrefixOf ([] : List Char) t) = true
    rw [h1]
    cases t <;> rfl

theorem decStr_safe (refs sdict : List (String × Doc)) (s : String)
    (h : safeStr s = true) :
    decStr refs sdict s = .str s := by
  have h5 : (!(s == "~") && !(s == "T") && !(s == "F") &&
      !pyStartsWith s "@" && !pyStartsWith s "$") = true := h
  simp only [Bool.and_eq_true, Bool.not_eq_true'] at h5
  obtain ⟨⟨⟨⟨h1, h2⟩, h3⟩, h4⟩, hd⟩ := h5
  have hs1 : pyStartsWith s "@s" = false := by
    cases hc : pyStartsWith s "@s" with
    | false => rfl
    | true =>
      have := sw_single_of_cons (show ("@s").data = '@' :: ['s'] from rfl)
        (show ("@").data = ['@'] from rfl) hc
      rw [h4] at this
      exact absurd this (by decide)
  have hs2 : pyStartsWith s "@r" = false := by
    cases hc : pyStartsWith s "@r" with
    | false => rfl
    | true =>
      have := pyStartsWith_atr_imp_at hc
      rw [h4] at this
      exact absurd this (by decide)
  have hs3 : pyStartsWith s "$ts:" = false := by
    cases hc : pyStartsWith s "$ts:" with
    | false => rfl
    | true =>
      have := sw_single_of_cons (show ("$ts:").data = '$' :: ['t', 's', ':'] from rfl)
        (show ("$").data = ['$'] from rfl) hc
      rw [hd] at this
      exact absurd this (by decide)
  have hs4 : pyStartsWith s "$uid:" = false := by
    cases hc : pyStartsWith s "$uid:" with
    | false => rfl
    | true =>
      have := sw_single_of_cons (show ("$uid:").data = '$' :: ['u', 'i', 'd', ':'] from rfl)
        (show ("$").data = ['$'] from rfl) hc
      rw [hd] at this
      exact absurd this (by decide)
  simp only [decStr, h1, h2, h3, hs1, hs2, hs3, hs4, Bool.false_eq_true, if_false]

theorem decStr_dict_marker (refs sdict : List (String × Doc)) (id : String)
    (hs : pyStartsWith id "s" = true) :
    decStr refs sdict ("@" ++ id) =
      (List.lookup id sdict).getD (.str ("@" ++ id)) := by
  obtain ⟨t, ht⟩ := pyStartsWith_s_shape hs
  have hd : ("@" ++ id).data = '@' :: 's' :: t := by
    rw [String.data_append, show ("@").data = ['@'] from rfl, ht]
    rfl
  have h1 : ("@" ++ id == "~") = false := by
    rw [beq_eq_false_iff_ne]
    intro h
    have h2 := congrArg String.data h
    rw [hd] at h2
    simp at h2
  have h2 : ("@" ++ id == "T") = false := by
    rw [beq_eq_false_iff_ne]
    intro h
    have h2 := congrArg String.data h
    rw [hd] at h2
    simp at h2
  have h3 : ("@" ++ id == "F") = false := by
    rw [beq_eq_false_iff_ne]
    intro h
    have h2 := congrArg String.data h
    rw [hd] at h2
    simp at h2
  have h4 : pyStartsWith ("@" ++ id) "@s" = true := by
    show ("@s").data.isPrefixOf (("@" ++ id).data) = true
    rw [hd, show ("@s").data = ['@', 's'] from rfl]
    show (('@' == '@') && (('s' == 's') && List.isPrefixOf ([] : List Char) t)) = true
    rw [show (('@' == '@') : Bool) = true from rfl, show (('s' == 's') : Bool) = true from rfl]
    cases t <;> rfl
  have h6 : pyDrop ("@" ++ id) 1 = id := by
    show String.mk (("@" ++ id).data.drop 1) = id
    rw [hd]
    show String.mk ('s' :: t) = id
    rw [← ht]
  simp only [decStr, h1, h2, h3, h4, Bool.false_eq_true, if_false, if_true, h6]

/-- The string transform inverts exactly on safe strings, whatever route
`_compress_string` takes, provided the string dictionary has distinct ids of the
generated `s...` form. -/
theorem compressString_rt (refs : List (String × Doc)) (lvl : Nat)
    (sdict : List (String × String))
    (hnd : (sdict.map Prod.fst).Nodup)
    (hks : ∀ p ∈ sdict, pyStartsWith p.1 "s" = true)
    (s : String) (hsafe : safeStr s = true) :
    decStr refs (sdict.map (fun p => (p.1, Doc.str p.2))) (compressString lvl sdict s) =
      .str s := by
  by_cases h3 : 3 ≤ lvl
  · rcases hf : sdict.find? (fun p => p.2 == s) with _ | p
    · simp only [compressString, if_pos h3, hf]
      by_cases hiso : isoTimestamp s = true
      · rw [if_pos hiso]
        exact ts_tag_decode _ _ s
      · rw [if_neg hiso]
        by_cases huid : isUuidStr s = true
        · rw [if_pos huid]
          exact uid_tag_decode _ _ s
        · rw [if_neg huid]
          exact decStr_safe _ _ s hsafe
    · simp only [compressString, if_pos h3, hf]
      have hmem := List.mem_of_find?_eq_some hf
      have hval : p.2 = s := by simpa using List.find?_some hf
      rw [decStr_dict_marker _ _ p.1 (hks p hmem), lookup_map_str,
        mem_nodup_lookup sdict p hnd hmem, hval]
      rfl
  · simp only [compressString, if_neg h3]
    exact decStr_safe _ _ s hsafe

/-- The generated ids of the string dictionary are distinct. -/
theorem buildStringDict_nodup (d : Doc) :
    ((buildStringDict d).map Prod.fst).Nodup := by
  simp only [buildStringDict]
  rw [List.map_map]
  rw [show (Prod.fst ∘ fun p : Nat × String => ("s" ++ natToStr p.1, p.2)) =
    ((fun i => "s" ++ natToStr i) ∘ Prod.fst) from rfl]
  rw [← List.map_map, List.enum_map_fst]
  refine List.Nodup.map ?_ (List.nodup_range _)
  intro a b hab
  have hd := congrArg String.data hab
  rw [String.data_append, String.data_append] at hd
  have h2 := List.append_cancel_left hd
  refine natToStr_inj a b ?_
  rw [← mk_data (natToStr a), ← mk_data (natToStr b), h2]


/-! Shape facts about converted values: no converted value carries the `_opt`
marker key, and a converted safe object never carries the schema keys. -/

theorem safeKey_parts {k : String} (h : safeKey k = true) :
    pyStartsWith k "_" = false ∧ expandKey (abbrevKey k) = k := by
  have h2 : (!pyStartsWith k "_" && (expandKey (abbrevKey k) == k)) = true := h
  simp only [Bool.and_eq_true, Bool.not_eq_true'] at h2
  exact ⟨h2.1, by simpa using h2.2⟩

theorem abbrevKey_no_underscore {k : String} (h : pyStartsWith k "_" = false) :
    pyStartsWith (abbrevKey k) "_" = false := by
  rw [abbrevKey]
  rcases hl : List.lookup k KEY_ABBREV_N with _ | v
  · simpa using h
  · have hmem := lookup_mem _ _ _ hl
    have hall := List.all_eq_true.mp keyAbbrev_vals_no_underscore _ hmem
    simp only [Bool.not_eq_true'] at hall
    simpa using hall

theorem mkObjPy_keys_no_underscore (lvl : Nat) (sdict : List (String × String))
    (kvs : List (String × Doc)) (hsafe : safePairs kvs = true) :
    ∀ k ∈ (mkObjPy lvl (convVals lvl sdict kvs)).map Prod.fst,
      pyStartsWith k "_" = false := by
  intro k hk
  obtain ⟨p, hp, hpk⟩ := List.mem_map.mp hk
  rw [mkObjPy] at hp
  rcases mem_pyFoldF (fun k => if 1 ≤ lvl then abbrevKey k else k)
      (convVals lvl sdict kvs) [] p hp with h | ⟨q, hq, he⟩
  · exact absurd h (List.not_mem_nil p)
  · obtain ⟨w, hw, hwe⟩ := mem_convVals lvl sdict kvs q hq
    have hkey := ((safePairs_iff kvs).mp hsafe w hw).1
    have hwu := (safeKey_parts hkey).1
    rw [← hpk, he]
    show pyStartsWith (if 1 ≤ lvl then abbrevKey q.1 else q.1) "_" = false
    have hq1 : q.1 = w.1 := by rw [hwe]
    rw [hq1]
    by_cases h1 : 1 ≤ lvl
    · rw [if_pos h1]
      exact abbrevKey_no_underscore hwu
    · rw [if_neg h1]
      exact hwu

theorem hasKey_false_of_underscore (l : List (String × Doc))
    (hks : ∀ k ∈ l.map Prod.fst, pyStartsWith k "_" = false)
    (tk : String) (htk : pyStartsWith tk "_" = true) : hasKey l tk = false := by
  show l.any (fun p => p.1 == tk) = false
  refine keys_not_mem_any l tk ?_
  intro hmem
  have h2 := hks tk hmem
  rw [htk] at h2
  exact absurd h2 (by decide)

theorem mkArray_not_opt (lvl : Nat) (es : List ConvElem) :
    isOptMarker (mkArray lvl es) = false := by
  simp only [mkArray]
  split_ifs <;> rfl

theorem conv_not_opt (lvl : Nat) (sdict : List (String × String)) (v : Doc)
    (hsafe : safeDoc v = true) :
    isOptMarker (conv lvl sdict v) = false := by
  cases v with
  | null => rfl
  | bool b => cases b <;> rfl
  | num n => rfl
  | str s => rfl
  | arr xs => exact mkArray_not_opt lvl (convElems lvl sdict xs)
  | obj kvs =>
    have hsp : safePairs kvs = true := by
      rw [safeDoc_obj] at hsafe
      simp only [Bool.and_eq_true] at hsafe
      exact hsafe.2
    show hasKey (mkObjPy lvl (convVals lvl sdict kvs)) "_opt" = false
    exact hasKey_false_of_underscore _
      (mkObjPy_keys_no_underscore lvl sdict kvs hsp) _ (by decide)

theorem mkObjPy_no_schema (lvl : Nat) (sdict : List (String × String))
    (kvs : List (String × Doc)) (hsafe : safePairs kvs = true) :
    (hasKey (mkObjPy lvl (convVals lvl sdict kvs)) "_sch" &&
      hasKey (mkObjPy lvl (convVals lvl sdict kvs)) "_dat") = false := by
  rw [hasKey_false_of_underscore _
    (mkObjPy_keys_no_underscore lvl sdict kvs hsafe) "_sch" (by decide)]
  rfl


/-! Decoder walkers inverting the converted views, each taking the round trip of
the strictly smaller values as a hypothesis. -/

theorem decList_rt (refs sdictD : List (String × Doc)) (lvl : Nat)
    (sdict : List (String × String)) :
    ∀ xs : List Doc,
      (∀ x ∈ xs, ∃ e, dec refs sdictD (conv lvl sdict x) = .ok e ∧
        normDoc e = normDoc x) →
      ∃ es, decList refs sdictD (xs.map (conv lvl sdict)) = .ok es ∧
        normList es = normList xs := by
  intro xs
  induction xs with
  | nil => intro _; exact ⟨[], rfl, rfl⟩
  | cons x t ih =>
    intro h
    obtain ⟨e, he, hne⟩ := h x (List.mem_cons_self _ _)
    obtain ⟨es, hes, hnes⟩ := ih (fun y hy => h y (List.mem_cons_of_mem _ hy))
    refine ⟨e :: es, ?_, ?_⟩
    · simp only [List.map_cons, decList, he, hes]
    · rw [show normList (e :: es) = normDoc e :: normList es from rfl,
        show normList (x :: t) = normDoc x :: normList t from rfl, hne, hnes]

theorem decPairs_rt (refs sdictD : List (String × Doc)) (lvl : Nat)
    (sdict : List (String × String)) :
    ∀ kvs : List (String × Doc),
      (∀ p ∈ kvs, safeKey p.1 = true) →
      (∀ p ∈ kvs, ∃ e, dec refs sdictD (conv lvl sdict p.2) = .ok e ∧
        normDoc e = normDoc p.2) →
      ∃ qs, decPairs refs sdictD
          (kvs.map (fun p => (abbrevKey p.1, conv lvl sdict p.2))) = .ok qs ∧
        qs.map Prod.fst = kvs.map Prod.fst ∧ normPairs qs = normPairs kvs := by
  intro kvs
  induction kvs with
  | nil => intro _ _; exact ⟨[], rfl, rfl, rfl⟩
  | cons p t ih =>
    intro hk h
    obtain ⟨k, v⟩ := p
    obtain ⟨e, he, hne⟩ := h (k, v) (List.mem_cons_self _ _)
    obtain ⟨qs, hqs, hqk, hqn⟩ := ih (fun q hq => hk q (List.mem_cons_of_mem _ hq))
      (fun q hq => h q (List.mem_cons_of_mem _ hq))
    have hexp : expandKey (abbrevKey k) = k :=
      (safeKey_parts (hk (k, v) (List.mem_cons_self _ _))).2
    refine ⟨(k, e) :: qs, ?_, ?_, ?_⟩
    · simp only [List.map_cons, decPairs, he, hqs, hexp]
    · simp only [List.map_cons, hqk]
    · rw [show normPairs ((k, e) :: qs) = (k, normDoc e) :: normPairs qs from rfl,
        show normPairs ((k, v) :: t) = (k, normDoc v) :: normPairs t from rfl, hne, hqn]

theorem decOptPairs_rt (refs sdictD : List (String × Doc)) (lvl : Nat)
    (sdict : List (String × String)) :
    ∀ kvs : List (String × Doc),
      (∀ p ∈ kvs, safeKey p.1 = true) →
      (∀ p ∈ kvs, ∃ e, dec refs sdictD (conv lvl sdict p.2) = .ok e ∧
        normDoc e = normDoc p.2) →
      ∃ qs, decOptPairs refs sdictD
          (kvs.map (fun p => (abbrevKey p.1, conv lvl sdict p.2))) = .ok qs ∧
        qs.map Prod.fst = kvs.map Prod.fst ∧ normPairs qs = normPairs kvs := by
  intro kvs
  induction kvs with
  | nil => intro _ _; exact ⟨[], rfl, rfl, rfl⟩
  | cons p t ih =>
    intro hk h
    obtain ⟨k, v⟩ := p
    obtain ⟨e, he, hne⟩ := h (k, v) (List.mem_cons_self _ _)
    obtain ⟨qs, hqs, hqk, hqn⟩ := ih (fun q hq => hk q (List.mem_cons_of_mem _ hq))
      (fun q hq => h q (List.mem_cons_of_mem _ hq))
    have hexp : expandKey (abbrevKey k) = k :=
      (safeKey_parts (hk (k, v) (List.mem_cons_self _ _))).2
    refine ⟨(k, e) :: qs, ?_, ?_, ?_⟩
    · simp only [List.map_cons, decOptPairs, he, hqs, hexp]
    · simp only [List.map_cons, hqk]
    · rw [show normPairs ((k, e) :: qs) = (k, normDoc e) :: normPairs qs from rfl,
        show normPairs ((k, v) :: t) = (k, normDoc v) :: normPairs t from rfl, hne, hqn]

theorem decCells_rt (refs sdictD : List (String × Doc)) (lvl : Nat)
    (sdict : List (String × String)) :
    ∀ ws : List (String × Doc),
      (∀ p ∈ ws, ∃ e, dec refs sdictD (conv lvl sdict p.2) = .ok e ∧
        normDoc e = normDoc p.2) →
      ∃ qs, decCells refs sdictD (ws.map Prod.fst)
          (ws.map (fun p => conv lvl sdict p.2)) false = .ok (qs, []) ∧
        qs.map Prod.fst = ws.map Prod.fst ∧ normPairs qs = normPairs ws := by
  intro ws
  induction ws with
  | nil => intro _; exact ⟨[], rfl, rfl, rfl⟩
  | cons w wt ih =>
    intro h
    obtain ⟨e, he, hne⟩ := h w (List.mem_cons_self _ _)
    obtain ⟨qs, hqs, hqk, hqn⟩ := ih (fun y hy => h y (List.mem_cons_of_mem _ hy))
    refine ⟨(w.1, e) :: qs, ?_, ?_, ?_⟩
    · cases wt with
      | nil =>
        simp only [List.map_cons, List.map_nil]
        rw [decCells_cons_single_false refs sdictD w.1 [] (conv lvl sdict w.2), he]
        simp only [List.map_nil] at hqs
        rw [decCells_nil] at hqs
        have hq : qs = [] := by
          have := hqs
          simp only [Except.ok.injEq, Prod.mk.injEq] at this
          exact this.1.symm
        rw [hq]
        rfl
      | cons w2 wt2 =>
        simp only [List.map_cons]
        simp only [List.map_cons] at hqs
        rw [decCells_cons_cons refs sdictD w.1 (w2.1 :: wt2.map Prod.fst)
          (conv lvl sdict w.2) (conv lvl sdict w2.2)
          (wt2.map (fun p => conv lvl sdict p.2)) false, he, hqs]
    · simp only [List.map_cons, hqk]
    · rw [show normPairs ((w.1, e) :: qs) = (w.1, normDoc e) :: normPairs qs from rfl,
        show normPairs (w :: wt) = (w.1, normDoc w.2) :: normPairs wt from rfl, hne, hqn]

theorem decCells_marker_rt (refs sdictD : List (String × Doc)) (lvl : Nat)
    (sdict : List (String × String)) :
    ∀ (ws : List (String × Doc)) (m : Doc) (opts : List (String × Doc)),
      (∀ p ∈ ws, ∃ e, dec refs sdictD (conv lvl sdict p.2) = .ok e ∧
        normDoc e = normDoc p.2) →
      decMarker refs sdictD m = .ok ([], opts) →
      ∃ qs, decCells refs sdictD (ws.map Prod.fst)
          (ws.map (fun p => conv lvl sdict p.2) ++ [m]) true = .ok (qs, opts) ∧
        qs.map Prod.fst = ws.map Prod.fst ∧ normPairs qs = normPairs ws := by
  intro ws
  induction ws with
  | nil =>
    intro m opts _ hm
    refine ⟨[], ?_, rfl, rfl⟩
    simp only [List.map_nil, List.nil_append]
    rw [show decCells refs sdictD ([] : List String) [m] true =
      decMarker refs sdictD m from rfl, hm]
  | cons w wt ih =>
    intro m opts h hm
    obtain ⟨e, he, hne⟩ := h w (List.mem_cons_self _ _)
    obtain ⟨qs, hqs, hqk, hqn⟩ := ih m opts (fun y hy => h y (List.mem_cons_of_mem _ hy)) hm
    refine ⟨(w.1, e) :: qs, ?_, ?_, ?_⟩
    · cases wt with
      | nil =>
        simp only [List.map_cons, List.map_nil, List.cons_append, List.nil_append]
        rw [decCells_cons_cons refs sdictD w.1 [] (conv lvl sdict w.2) m [] true, he]
        simp only [List.map_nil, List.nil_append] at hqs
        rw [hqs]
      | cons w2 wt2 =>
        simp only [List.map_cons, List.cons_append]
        simp only [List.map_cons, List.cons_append] at hqs
        rw [decCells_cons_cons refs sdictD w.1 (w2.1 :: wt2.map Prod.fst)
          (conv lvl sdict w.2) (conv lvl sdict w2.2)
          (wt2.map (fun p => conv lvl sdict p.2) ++ [m]) true, he, hqs]
    · simp only [List.map_cons, hqk]
    · rw [show normPairs ((w.1, e) :: qs) = (w.1, normDoc e) :: normPairs qs from rfl,
        show normPairs (w :: wt) = (w.1, normDoc w.2) :: normPairs wt from rfl, hne, hqn]

theorem decMarker_opt_rt (refs sdictD : List (String × Doc))
    (opt : List (String × Doc)) (hne : opt ≠ [])
    (qs : List (String × Doc)) (hdec : decOptPairs refs sdictD opt = .ok qs) :
    decMarker refs sdictD (Doc.obj [("_opt", Doc.obj opt)]) = .ok ([], qs) := by
  show decMarkerPairs refs sdictD [("_opt", Doc.obj opt)] = .ok ([], qs)
  rw [decMarkerPairs_cons_opt]
  have ht : docTruthy (Doc.obj opt) = true := by
    cases opt with
    | nil => exact absurd rfl hne
    | cons a t => rfl
  rw [if_pos ht]
  show (match decOptPairs refs sdictD opt with
        | Except.error e => Except.error e
        | Except.ok opts => Except.ok ([], opts)) = Except.ok ([], qs)
  rw [hdec]

theorem foldInsertF_eq_map (f : String → String) :
    ∀ l : List (String × Doc), ((l.map (fun p => (f p.1, p.2))).map Prod.fst).Nodup →
      l.foldl (fun acc kv => pyInsert acc (f kv.1) kv.2) [] =
        l.map (fun p => (f p.1, p.2)) := by
  intro l hnd
  have h1 : l.foldl (fun acc kv => pyInsert acc (f kv.1) kv.2) [] =
      (l.map (fun p => (f p.1, p.2))).foldl (fun a kv => pyInsert a kv.1 kv.2) [] := by
    rw [List.foldl_map]
  rw [h1]
  exact pyDict_nodup_id _ hnd

theorem mkObjPy_eq_map (lvl : Nat) (h1 : 1 ≤ lvl) (ps : List (String × Doc))
    (hnd : ((ps.map (fun p => (abbrevKey p.1, p.2))).map Prod.fst).Nodup) :
    mkObjPy lvl ps = ps.map (fun p => (abbrevKey p.1, p.2)) := by
  rw [mkObjPy]
  have hfun : (fun (acc : List (String × Doc)) (kv : String × Doc) =>
      pyInsert acc (if 1 ≤ lvl then abbrevKey kv.1 else kv.1) kv.2) =
      (fun acc kv => pyInsert acc (abbrevKey kv.1) kv.2) := by
    funext acc kv
    rw [if_pos h1]
  rw [hfun]
  exact foldInsertF_eq_map abbrevKey ps hnd


/-! Assembly helpers for the round trip: object normalization respects pair
permutations, the fallback array inverts elementwise, and the two schema blocks
invert row by row. -/

theorem normDoc_obj (kvs : List (String × Doc)) :
    normDoc (Doc.obj kvs) = Doc.obj (sortPairsLe (normPairs kvs)) := rfl

theorem normDoc_arr (xs : List Doc) :
    normDoc (Doc.arr xs) = Doc.arr (normList xs) := rfl

theorem convVals_eq_map (lvl : Nat) (sdict : List (String × String)) :
    ∀ kvs : List (String × Doc),
      convVals lvl sdict kvs = kvs.map (fun p => (p.1, conv lvl sdict p.2)) := by
  intro kvs
  induction kvs with
  | nil => rfl
  | cons p t ih =>
    obtain ⟨k, v⟩ := p
    rw [show convVals lvl sdict ((k, v) :: t) =
      (k, conv lvl sdict v) :: convVals lvl sdict t from rfl, ih]
    rfl

theorem norm_obj_eq_of_normPairs_perm (A B : List (String × Doc))
    (hp : (normPairs A).Perm (normPairs B)) (hnd : (A.map Prod.fst).Nodup) :
    normDoc (Doc.obj A) = normDoc (Doc.obj B) := by
  rw [normDoc_obj, normDoc_obj]
  refine congrArg Doc.obj (sortPairsLe_eq_of_perm _ _ hp ?_)
  rw [normPairs_eq_map, List.map_map]
  exact hnd

theorem norm_obj_eq_of_perm (A B : List (String × Doc)) (hp : A.Perm B)
    (hnd : (A.map Prod.fst).Nodup) :
    normDoc (Doc.obj A) = normDoc (Doc.obj B) := by
  refine norm_obj_eq_of_normPairs_perm A B ?_ hnd
  rw [normPairs_eq_map, normPairs_eq_map]
  exact hp.map _

theorem arr_elems_rt (refs sdictD : List (String × Doc)) (lvl : Nat)
    (sdict : List (String × String)) (xs : List Doc)
    (h : ∀ x ∈ xs, ∃ e, dec refs sdictD (conv lvl sdict x) = .ok e ∧
      normDoc e = normDoc x) :
    ∃ e, dec refs sdictD (Doc.arr (xs.map (conv lvl sdict))) = .ok e ∧
      normDoc e = normDoc (Doc.arr xs) := by
  obtain ⟨es, hes, hnes⟩ := decList_rt refs sdictD lvl sdict xs h
  refine ⟨.arr es, ?_, ?_⟩
  · simp only [dec, hes]
  · rw [normDoc_arr, normDoc_arr, hnes]

theorem decSchemaDat_block (refs sdictD : List (String × Doc)) (ks : List String)
    (A : Doc) (rows : List Doc) :
    decSchemaDat refs sdictD ks [("_sch", A), ("_dat", Doc.arr rows)] =
      (match decRows refs sdictD ks rows with
       | .error e => .error e
       | .ok objs => .ok (.arr objs)) := by
  rw [decSchemaDat_cons_other refs sdictD ks "_sch" A _ (by decide)]
  rw [decSchemaDat_cons_dat_arr]

/-- Decoding a schema block: the structural keys are found, the schema entries
are read back through `expand_key`, and control passes to the row walker. -/
theorem dec_block (refs sdictD : List (String × Doc)) (keys : List String)
    (rows : List Doc)
    (hexp : ∀ k ∈ keys, expandKey (abbrevKey k) = k) :
    dec refs sdictD (Doc.obj
        [("_sch", Doc.arr (keys.map (fun k => Doc.str (abbrevKey k)))),
          ("_dat", Doc.arr rows)]) =
      (match decRows refs sdictD keys rows with
       | .error e => .error e
       | .ok objs => .ok (.arr objs)) := by
  have hhk : (hasKey [("_sch", Doc.arr (keys.map (fun k => Doc.str (abbrevKey k)))),
      ("_dat", Doc.arr rows)] "_sch" &&
      hasKey [("_sch", Doc.arr (keys.map (fun k => Doc.str (abbrevKey k)))),
      ("_dat", Doc.arr rows)] "_dat") = true := rfl
  have hsk : schemaKeysOf [("_sch", Doc.arr (keys.map (fun k => Doc.str (abbrevKey k)))),
      ("_dat", Doc.arr rows)] =
      some ((keys.map (fun k => Doc.str (abbrevKey k))).map schemaEntryKey) := rfl
  have hkeys : (keys.map (fun k => Doc.str (abbrevKey k))).map schemaEntryKey = keys := by
    rw [List.map_map]
    refine Eq.trans (List.map_congr_left ?_) (List.map_id keys)
    intro k hk
    show expandKey (abbrevKey k) = k
    exact hexp k hk
  simp only [dec, hhk, if_true, hsk, hkeys]
  exact decSchemaDat_block refs sdictD keys _ rows

/-- One row of a perfect-schema block: the last cell is a converted value, never
an optional marker, and pairing the sorted keys with the sorted values rebuilds
the originating object up to normalization. -/
theorem perfect_row_rt (refs sdictD : List (String × Doc)) (lvl : Nat)
    (sdict : List (String × String)) (o : List (String × Doc))
    (hne : o ≠ []) (hnd : (o.map Prod.fst).Nodup)
    (hsafe : ∀ p ∈ o, safeDoc p.2 = true)
    (hIH : ∀ p ∈ o, ∃ e, dec refs sdictD (conv lvl sdict p.2) = .ok e ∧
      normDoc e = normDoc p.2) :
    ∃ last qs,
      ((sortPairsLe (convVals lvl sdict o)).map Prod.snd).getLast? = some last ∧
      isOptMarker last = false ∧
      decCells refs sdictD (sortStr (o.map Prod.fst))
        ((sortPairsLe (convVals lvl sdict o)).map Prod.snd) false = .ok (qs, []) ∧
      (qs.map Prod.fst).Nodup ∧
      normDoc (Doc.obj qs) = normDoc (Doc.obj o) := by
  have hg : ∀ q : String × Doc, ((fun p : String × Doc =>
      (p.1, conv lvl sdict p.2)) q).1 = q.1 := fun q => rfl
  have hsp : sortPairsLe (convVals lvl sdict o) =
      (sortPairsLe o).map (fun p => (p.1, conv lvl sdict p.2)) := by
    rw [convVals_eq_map, sortPairsLe_map _ hg]
  have hcells : (sortPairsLe (convVals lvl sdict o)).map Prod.snd =
      (sortPairsLe o).map (fun p => conv lvl sdict p.2) := by
    rw [hsp, List.map_map]
    rfl
  have hwsne : sortPairsLe o ≠ [] := by
    intro hc
    have hl := (sortPairsLe_perm o).length_eq
    rw [hc] at hl
    cases o with
    | nil => exact hne rfl
    | cons a t => simp at hl
  have hwskeys : (sortPairsLe o).map Prod.fst = sortStr (o.map Prod.fst) :=
    map_fst_sortPairsLe o
  have hwsnd : ((sortPairsLe o).map Prod.fst).Nodup := by
    rw [hwskeys]
    exact ((sortStr_perm _).nodup_iff).mpr hnd
  obtain ⟨qs, hq, hqk, hqn⟩ := decCells_rt refs sdictD lvl sdict (sortPairsLe o)
    (fun p hp => hIH p ((sortPairsLe_perm o).mem_iff.mp hp))
  rcases hl : ((sortPairsLe (convVals lvl sdict o)).map Prod.snd).getLast? with _ | last
  · exfalso
    have hc := List.getLast?_eq_none.mp hl
    rw [hcells] at hc
    exact hwsne (List.map_eq_nil.mp hc)
  · have hmem := List.mem_of_mem_getLast? hl
    rw [hcells] at hmem
    obtain ⟨p, hp, hpe⟩ := List.mem_map.mp hmem
    have hpo : p ∈ o := (sortPairsLe_perm o).mem_iff.mp hp
    have hnopt : isOptMarker last = false := by
      rw [← hpe]
      exact conv_not_opt lvl sdict p.2 (hsafe p hpo)
    refine ⟨last, qs, rfl, hnopt, ?_, ?_, ?_⟩
    · rw [hcells, ← hwskeys]
      exact hq
    · rw [hqk]
      exact hwsnd
    · have h1 : normDoc (Doc.obj qs) = normDoc (Doc.obj (sortPairsLe o)) := by
        refine norm_obj_eq_of_normPairs_perm qs (sortPairsLe o) ?_ ?_
        · rw [hqn]
        · rw [hqk]
          exact hwsnd
      have h2 : normDoc (Doc.obj (sortPairsLe o)) = normDoc (Doc.obj o) :=
        norm_obj_eq_of_perm _ _ (sortPairsLe_perm o) hwsnd
      rw [h1, h2]

/-- The row walker over a perfect-schema block. -/
theorem decRows_perfect_rt (refs sdictD : List (String × Doc)) (lvl : Nat)
    (sdict : List (String × String)) (ks : List String) :
    ∀ objs : List (List (String × Doc)),
      (∀ o ∈ objs, o ≠ [] ∧ (o.map Prod.fst).Nodup ∧
        sortStr (o.map Prod.fst) = ks ∧
        (∀ p ∈ o, safeDoc p.2 = true) ∧
        (∀ p ∈ o, ∃ e, dec refs sdictD (conv lvl sdict p.2) = .ok e ∧
          normDoc e = normDoc p.2)) →
      ∃ ds, decRows refs sdictD ks
          (objs.map (fun o => Doc.arr ((sortPairsLe (convVals lvl sdict o)).map Prod.snd)))
        = .ok ds ∧ normList ds = normList (objs.map Doc.obj) := by
  intro objs
  induction objs with
  | nil => intro _; exact ⟨[], rfl, rfl⟩
  | cons o t ih =>
    intro h
    obtain ⟨hone, hond, hok, hosafe, hoIH⟩ := h o (List.mem_cons_self _ _)
    obtain ⟨ds, hds, hnds⟩ := ih (fun y hy => h y (List.mem_cons_of_mem _ hy))
    obtain ⟨last, qs, hlast, hnopt, hcells, hqnd, hqnorm⟩ :=
      perfect_row_rt refs sdictD lvl sdict o hone hond hosafe hoIH
    have hfold : pyFold (pyFold [] qs) [] = qs := pyDict_nodup_id qs hqnd
    refine ⟨Doc.obj qs :: ds, ?_, ?_⟩
    · simp only [List.map_cons]
      rw [decRows_cons_arr, hlast]
      show (match decCells refs sdictD ks
          ((sortPairsLe (convVals lvl sdict o)).map Prod.snd) (isOptMarker last) with
        | Except.error e => Except.error e
        | Except.ok (pairs, opts) =>
          match decRows refs sdictD ks
              (t.map (fun o => Doc.arr ((sortPairsLe (convVals lvl sdict o)).map Prod.snd))) with
          | Except.error e => Except.error e
          | Except.ok rest => Except.ok (Doc.obj (pyFold (pyFold [] pairs) opts) :: rest)) = _
      rw [hok] at hcells
      rw [hnopt, hcells, hds]
      show Except.ok (Doc.obj (pyFold (pyFold [] qs) []) :: ds) = _
      rw [hfold]
    · rw [List.map_cons,
        show normList (Doc.obj qs :: ds) = normDoc (Doc.obj qs) :: normList ds from rfl,
        show normList (Doc.obj o :: t.map Doc.obj) =
          normDoc (Doc.obj o) :: normList (t.map Doc.obj) from rfl,
        hqnorm, hnds]


/-! The partial-schema row: common keys are paired through the schema, the extra
keys ride in the `_opt` side map, and together they rebuild the object. -/

theorem map_fst_filter_key (pkey : String → Bool) :
    ∀ o : List (String × Doc),
      (o.filter (fun kv => pkey kv.1)).map Prod.fst = (o.map Prod.fst).filter pkey := by
  intro o
  induction o with
  | nil => rfl
  | cons p t ih =>
    obtain ⟨k, v⟩ := p
    cases hp : pkey k with
    | true =>
      simp only [List.filter_cons, List.map_cons, hp, if_true, ih]
    | false =>
      simp only [List.filter_cons, List.map_cons, hp, Bool.false_eq_true, if_false, ih]

theorem filter_key_map_val (pkey : String → Bool) (g : String × Doc → String × Doc)
    (hg : ∀ q, (g q).1 = q.1) :
    ∀ o : List (String × Doc),
      (o.map g).filter (fun kv => pkey kv.1) = (o.filter (fun kv => pkey kv.1)).map g := by
  intro o
  induction o with
  | nil => rfl
  | cons p t ih =>
    simp only [List.map_cons, List.filter_cons, hg]
    cases hp : pkey p.1 with
    | true => simp only [hp, if_true, List.map_cons, ih]
    | false => simp only [hp, Bool.false_eq_true, if_false, ih]

theorem sortStr_filter_common (common keys : List String)
    (hcnd : common.Nodup) (hknd : keys.Nodup) (hsub : ∀ x ∈ common, x ∈ keys) :
    sortStr (keys.filter (fun x => common.contains x)) = sortStr common := by
  refine sortStr_eq_of_perm _ _ ?_ (List.Nodup.filter _ hknd)
  rw [List.perm_ext_iff_of_nodup (List.Nodup.filter _ hknd) hcnd]
  intro a
  rw [List.mem_filter, contains_iff]
  constructor
  · rintro ⟨-, h2⟩
    exact h2
  · intro ha
    exact ⟨hsub a ha, ha⟩

set_option maxHeartbeats 1600000 in
theorem partial_row_rt (refs sdictD : List (String × Doc)) (lvl : Nat)
    (sdict : List (String × String)) (common : List String)
    (hcnd : common.Nodup) (hcne : common ≠ [])
    (o : List (String × Doc)) (hnd : (o.map Prod.fst).Nodup)
    (hnda : ((o.map Prod.fst).map abbrevKey).Nodup)
    (hsub : ∀ x ∈ common, x ∈ o.map Prod.fst)
    (hsafe : ∀ p ∈ o, safeKey p.1 = true ∧ safeDoc p.2 = true)
    (hIH : ∀ p ∈ o, ∃ e, dec refs sdictD (conv lvl sdict p.2) = .ok e ∧
      normDoc e = normDoc p.2) :
    ∃ cells last qs opts,
      mkPartialRow common (convVals lvl sdict o) = Doc.arr cells ∧
      cells.getLast? = some last ∧
      decCells refs sdictD (sortStr common) cells (isOptMarker last) = .ok (qs, opts) ∧
      normDoc (Doc.obj (pyFold (pyFold [] qs) opts)) = normDoc (Doc.obj o) := by
  have hg : ∀ q : String × Doc, ((fun p : String × Doc =>
      (p.1, conv lvl sdict p.2)) q).1 = q.1 := fun q => rfl
  have hcv : convVals lvl sdict o = o.map (fun p => (p.1, conv lvl sdict p.2)) :=
    convVals_eq_map lvl sdict o
  have hfC : (convVals lvl sdict o).filter (fun kv => common.contains kv.1) =
      (o.filter (fun kv => common.contains kv.1)).map
        (fun p => (p.1, conv lvl sdict p.2)) := by
    rw [hcv]
    exact filter_key_map_val _ _ hg o
  have hCkeys : (o.filter (fun kv => common.contains kv.1)).map Prod.fst =
      (o.map Prod.fst).filter (fun x => common.contains x) := map_fst_filter_key _ o
  have hCknd : ((o.filter (fun kv => common.contains kv.1)).map Prod.fst).Nodup := by
    rw [hCkeys]
    exact List.Nodup.filter _ hnd
  have hwsC : sortPairsLe ((convVals lvl sdict o).filter
      (fun kv => common.contains kv.1)) =
      (sortPairsLe (o.filter (fun kv => common.contains kv.1))).map
        (fun p => (p.1, conv lvl sdict p.2)) := by
    rw [hfC, sortPairsLe_map _ hg]
  have hrow : (sortPairsLe ((convVals lvl sdict o).filter
      (fun kv => common.contains kv.1))).map Prod.snd =
      (sortPairsLe (o.filter (fun kv => common.contains kv.1))).map
        (fun p => conv lvl sdict p.2) := by
    rw [hwsC, List.map_map]
    rfl
  have hwsCkeys : (sortPairsLe (o.filter (fun kv => common.contains kv.1))).map
      Prod.fst = sortStr common := by
    rw [map_fst_sortPairsLe, hCkeys]
    exact sortStr_filter_common common _ hcnd hnd hsub
  have hwsCnd : ((sortPairsLe (o.filter (fun kv => common.contains kv.1))).map
      Prod.fst).Nodup := by
    rw [hwsCkeys]
    exact ((sortStr_perm common).nodup_iff).mpr hcnd
  have hwsCne : sortPairsLe (o.filter (fun kv => common.contains kv.1)) ≠ [] := by
    intro hc
    obtain ⟨x, hx⟩ : ∃ x, x ∈ common := by
      cases common with
      | nil => exact absurd rfl hcne
      | cons a t => exact ⟨a, List.mem_cons_self _ _⟩
    have hx2 : x ∈ (sortPairsLe (o.filter (fun kv => common.contains kv.1))).map
        Prod.fst := by
      rw [hwsCkeys, (sortStr_perm common).mem_iff]
      exact hx
    rw [hc] at hx2
    exact absurd hx2 (List.not_mem_nil x)
  have hmemC : ∀ p ∈ sortPairsLe (o.filter (fun kv => common.contains kv.1)), p ∈ o :=
    fun p hp => List.mem_of_mem_filter ((sortPairsLe_perm _).mem_iff.mp hp)
  have hfX : (convVals lvl sdict o).filter (fun kv => !common.contains kv.1) =
      (o.filter (fun kv => !common.contains kv.1)).map
        (fun p => (p.1, conv lvl sdict p.2)) := by
    rw [hcv]
    exact filter_key_map_val (fun x => !common.contains x) _ hg o
  have hXkeys : (o.filter (fun kv => !common.contains kv.1)).map Prod.fst =
      (o.map Prod.fst).filter (fun x => !common.contains x) :=
    map_fst_filter_key (fun x => !common.contains x) o
  have hXknd : ((o.filter (fun kv => !common.contains kv.1)).map Prod.fst).Nodup := by
    rw [hXkeys]
    exact List.Nodup.filter _ hnd
  have hXab : (((o.filter (fun kv => !common.contains kv.1)).map Prod.fst).map
      abbrevKey).Nodup := by
    rw [hXkeys]
    refine List.Nodup.sublist ?_ hnda
    exact List.Sublist.map abbrevKey (List.filter_sublist _)
  have hoptnd : ((((o.filter (fun kv => !common.contains kv.1)).map
      (fun p => (p.1, conv lvl sdict p.2))).map
        (fun p => (abbrevKey p.1, p.2))).map Prod.fst).Nodup := by
    rw [List.map_map, List.map_map]
    rw [show ((Prod.fst ∘ fun p : String × Doc => (abbrevKey p.1, p.2)) ∘
      fun p : String × Doc => (p.1, conv lvl sdict p.2)) =
      (abbrevKey ∘ Prod.fst) from rfl]
    rw [← List.map_map]
    exact hXab
  have hopt : ((convVals lvl sdict o).filter (fun kv => !common.contains kv.1)).foldl
      (fun acc kv => pyInsert acc (abbrevKey kv.1) kv.2) [] =
      (o.filter (fun kv => !common.contains kv.1)).map
        (fun p => (abbrevKey p.1, conv lvl sdict p.2)) := by
    rw [hfX, foldInsertF_eq_map abbrevKey _ hoptnd, List.map_map]
    rfl
  obtain ⟨qsO, hqsO, hqOk, hqOn⟩ := decOptPairs_rt refs sdictD lvl sdict
    (o.filter (fun kv => !common.contains kv.1))
    (fun p hp => (hsafe p (List.mem_of_mem_filter hp)).1)
    (fun p hp => hIH p (List.mem_of_mem_filter hp))
  have hqsOnd : (qsO.map Prod.fst).Nodup := by
    rw [hqOk]
    exact hXknd
  have hdisj : ∀ k ∈ qsO.map Prod.fst, k ∉ sortStr common := by
    intro k hk
    rw [hqOk, hXkeys] at hk
    rw [List.mem_filter] at hk
    intro hks
    have hkc : k ∈ common := (sortStr_perm common).mem_iff.mp hks
    have := (contains_iff common k).mpr hkc
    rw [this] at hk
    exact absurd hk.2 (by decide)
  by_cases hoe : (o.filter (fun kv => !common.contains kv.1)) = []
  · -- no extras: the row is exactly the sorted common values
    have hoptem : (((convVals lvl sdict o).filter (fun kv => !common.contains kv.1)).foldl
        (fun acc kv => pyInsert acc (abbrevKey kv.1) kv.2) []).isEmpty = true := by
      rw [hopt, hoe]
      rfl
    have hmk : mkPartialRow common (convVals lvl sdict o) =
        Doc.arr ((sortPairsLe ((convVals lvl sdict o).filter
          (fun kv => common.contains kv.1))).map Prod.snd) := by
      simp only [mkPartialRow, hoptem, if_true]
    obtain ⟨qs, hq, hqk, hqn⟩ := decCells_rt refs sdictD lvl sdict
      (sortPairsLe (o.filter (fun kv => common.contains kv.1)))
      (fun p hp => hIH p (hmemC p hp))
    have hqnd : (qs.map Prod.fst).Nodup := by
      rw [hqk]
      exact hwsCnd
    rcases hl : ((sortPairsLe ((convVals lvl sdict o).filter
        (fun kv => common.contains kv.1))).map Prod.snd).getLast? with _ | last
    · exfalso
      have hc := List.getLast?_eq_none.mp hl
      rw [hrow] at hc
      exact hwsCne (List.map_eq_nil.mp hc)
    · have hmem := List.mem_of_mem_getLast? hl
      rw [hrow] at hmem
      obtain ⟨p, hp, hpe⟩ := List.mem_map.mp hmem
      have hnopt : isOptMarker last = false := by
        rw [← hpe]
        exact conv_not_opt lvl sdict p.2 (hsafe p (hmemC p hp)).2
      refine ⟨_, last, qs, [], hmk, hl, ?_, ?_⟩
      · rw [hnopt, hrow, ← hwsCkeys]
        exact hq
      · have hfold : pyFold (pyFold [] qs) [] = qs := pyDict_nodup_id qs hqnd
        rw [hfold]
        have h1 : normDoc (Doc.obj qs) =
            normDoc (Doc.obj (sortPairsLe (o.filter
              (fun kv => common.contains kv.1)))) :=
          norm_obj_eq_of_normPairs_perm _ _ (by rw [hqn]) hqnd
        have h2 : normDoc (Doc.obj (sortPairsLe (o.filter
            (fun kv => common.contains kv.1)))) =
            normDoc (Doc.obj (o.filter (fun kv => common.contains kv.1))) :=
          norm_obj_eq_of_perm _ _ (sortPairsLe_perm _) hwsCnd
        have hpermo : (o.filter (fun kv => common.contains kv.1)).Perm o := by
          have hap : (o.filter (fun kv => common.contains kv.1) ++
              o.filter (fun kv => !common.contains kv.1)).Perm o :=
            List.filter_append_perm _ o
          rw [hoe, List.append_nil] at hap
          exact hap
        have h3 : normDoc (Doc.obj (o.filter (fun kv => common.contains kv.1))) =
            normDoc (Doc.obj o) :=
          norm_obj_eq_of_perm _ _ hpermo hCknd
        rw [h1, h2, h3]
  · -- extras present: the row carries the optional side map as its last cell
    have hXne : (o.filter (fun kv => !common.contains kv.1)).map
        (fun p => (abbrevKey p.1, conv lvl sdict p.2)) ≠ [] := by
      intro hc
      exact hoe (List.map_eq_nil.mp hc)
    have hoptem : (((convVals lvl sdict o).filter (fun kv => !common.contains kv.1)).foldl
        (fun acc kv => pyInsert acc (abbrevKey kv.1) kv.2) []).isEmpty = false := by
      rw [hopt]
      rcases hx : (o.filter (fun kv => !common.contains kv.1)).map
          (fun p => (abbrevKey p.1, conv lvl sdict p.2)) with _ | ⟨a, t⟩
      · exact absurd hx hXne
      · rw [hx]
        rfl
    have hmk : mkPartialRow common (convVals lvl sdict o) =
        Doc.arr ((sortPairsLe ((convVals lvl sdict o).filter
          (fun kv => common.contains kv.1))).map Prod.snd ++
          [Doc.obj [("_opt", Doc.obj (((convVals lvl sdict o).filter
            (fun kv => !common.contains kv.1)).foldl
              (fun acc kv => pyInsert acc (abbrevKey kv.1) kv.2) []))]]) := by
      simp only [mkPartialRow, hoptem, Bool.false_eq_true, if_false]
    have hm : decMarker refs sdictD (Doc.obj [("_opt", Doc.obj
        (((convVals lvl sdict o).filter (fun kv => !common.contains kv.1)).foldl
          (fun acc kv => pyInsert acc (abbrevKey kv.1) kv.2) []))]) =
        .ok ([], qsO) := by
      rw [hopt]
      refine decMarker_opt_rt refs sdictD _ hXne qsO ?_
      exact hqsO
    obtain ⟨qs, hq, hqk, hqn⟩ := decCells_marker_rt refs sdictD lvl sdict
      (sortPairsLe (o.filter (fun kv => common.contains kv.1)))
      (Doc.obj [("_opt", Doc.obj (((convVals lvl sdict o).filter
        (fun kv => !common.contains kv.1)).foldl
          (fun acc kv => pyInsert acc (abbrevKey kv.1) kv.2) []))])
      qsO (fun p hp => hIH p (hmemC p hp)) hm
    have hqnd : (qs.map Prod.fst).Nodup := by
      rw [hqk]
      exact hwsCnd
    have hl : ((sortPairsLe ((convVals lvl sdict o).filter
        (fun kv => common.contains kv.1))).map Prod.snd ++
        [Doc.obj [("_opt", Doc.obj (((convVals lvl sdict o).filter
          (fun kv => !common.contains kv.1)).foldl
            (fun acc kv => pyInsert acc (abbrevKey kv.1) kv.2) []))]]).getLast? =
        some (Doc.obj [("_opt", Doc.obj (((convVals lvl sdict o).filter
          (fun kv => !common.contains kv.1)).foldl
            (fun acc kv => pyInsert acc (abbrevKey kv.1) kv.2) []))]) :=
      List.getLast?_concat _
    have hioM : isOptMarker (Doc.obj [("_opt", Doc.obj (((convVals lvl sdict o).filter
        (fun kv => !common.contains kv.1)).foldl
          (fun acc kv => pyInsert acc (abbrevKey kv.1) kv.2) []))]) = true := rfl
    refine ⟨_, _, qs, qsO, hmk, hl, ?_, ?_⟩
    · rw [hioM, hrow, ← hwsCkeys]
      exact hq
    · have hfold1 : pyFold [] qs = qs := pyDict_nodup_id qs hqnd
      have hdisj2 : ∀ k ∈ qsO.map Prod.fst, k ∉ qs.map Prod.fst := by
        intro k hk
        rw [hqk, hwsCkeys]
        exact hdisj k hk
      have hfold2 : pyFold qs qsO = qs ++ qsO := pyFold_append qsO qs hqsOnd hdisj2
      have hfold : pyFold (pyFold [] qs) qsO = qs ++ qsO := by
        rw [hfold1, hfold2]
      rw [hfold]
      have happnd : ((qs ++ qsO).map Prod.fst).Nodup := by
        rw [List.map_append, List.nodup_append]
        refine ⟨hqnd, hqsOnd, ?_⟩
        intro a ha hb
        have := hdisj2 a hb
        exact absurd ha this
      refine norm_obj_eq_of_normPairs_perm _ _ ?_ happnd
      have hnp : normPairs (qs ++ qsO) = normPairs qs ++ normPairs qsO := by
        rw [normPairs_eq_map, normPairs_eq_map, normPairs_eq_map, List.map_append]
      rw [hnp, hqn, hqOn]
      have hstep1 : (normPairs (sortPairsLe (o.filter
          (fun kv => common.contains kv.1)))).Perm
          (normPairs (o.filter (fun kv => common.contains kv.1))) := by
        rw [normPairs_eq_map, normPairs_eq_map]
        exact (sortPairsLe_perm _).map _
      have hstep2 : (normPairs (sortPairsLe (o.filter (fun kv => common.contains kv.1))) ++
          normPairs (o.filter (fun kv => !common.contains kv.1))).Perm
          (normPairs (o.filter (fun kv => common.contains kv.1)) ++
            normPairs (o.filter (fun kv => !common.contains kv.1))) :=
        hstep1.append_right _
      refine hstep2.trans ?_
      have hstep3 : (normPairs (o.filter (fun kv => common.contains kv.1)) ++
          normPairs (o.filter (fun kv => !common.contains kv.1))) =
          normPairs (o.filter (fun kv => common.contains kv.1) ++
            o.filter (fun kv => !common.contains kv.1)) := by
        rw [normPairs_eq_map, normPairs_eq_map, normPairs_eq_map, List.map_append]
      rw [hstep3]
      have hap : (o.filter (fun kv => common.contains kv.1) ++
          o.filter (fun kv => !common.contains kv.1)).Perm o :=
        List.filter_append_perm _ o
      rw [normPairs_eq_map, normPairs_eq_map]
      exact hap.map _

/-- The row walker over a partial-schema block. -/
theorem decRows_partial_rt (refs sdictD : List (String × Doc)) (lvl : Nat)
    (sdict : List (String × String)) (common : List String)
    (hcnd : common.Nodup) (hcne : common ≠ []) :
    ∀ objs : List (List (String × Doc)),
      (∀ o ∈ objs, (o.map Prod.fst).Nodup ∧
        ((o.map Prod.fst).map abbrevKey).Nodup ∧
        (∀ x ∈ common, x ∈ o.map Prod.fst) ∧
        (∀ p ∈ o, safeKey p.1 = true ∧ safeDoc p.2 = true) ∧
        (∀ p ∈ o, ∃ e, dec refs sdictD (conv lvl sdict p.2) = .ok e ∧
          normDoc e = normDoc p.2)) →
      ∃ ds, decRows refs sdictD (sortStr common)
          (objs.map (fun o => mkPartialRow common (convVals lvl sdict o))) = .ok ds ∧
        normList ds = normList (objs.map Doc.obj) := by
  intro objs
  induction objs with
  | nil => intro _; exact ⟨[], rfl, rfl⟩
  | cons o t ih =>
    intro h
    obtain ⟨hond, honda, hosub, hosafe, hoIH⟩ := h o (List.mem_cons_self _ _)
    obtain ⟨ds, hds, hnds⟩ := ih (fun y hy => h y (List.mem_cons_of_mem _ hy))
    obtain ⟨cells, last, qs, opts, hmk, hlast, hdec, hnorm⟩ :=
      partial_row_rt refs sdictD lvl sdict common hcnd hcne o hond honda hosub hosafe hoIH
    refine ⟨Doc.obj (pyFold (pyFold [] qs) opts) :: ds, ?_, ?_⟩
    · simp only [List.map_cons]
      rw [hmk, decRows_cons_arr, hlast]
      show (match decCells refs sdictD (sortStr common) cells (isOptMarker last) with
        | Except.error e => Except.error e
        | Except.ok (pairs, opts) =>
          match decRows refs sdictD (sortStr common)
              (t.map (fun o => mkPartialRow common (convVals lvl sdict o))) with
          | Except.error e => Except.error e
          | Except.ok rest => Except.ok (Doc.obj (pyFold (pyFold [] pairs) opts) :: rest)) = _
      rw [hdec, hds]
    · rw [List.map_cons,
        show normList (Doc.obj (pyFold (pyFold [] qs) opts) :: ds) =
          normDoc (Doc.obj (pyFold (pyFold [] qs) opts)) :: normList ds from rfl,
        show normList (Doc.obj o :: t.map Doc.obj) =
          normDoc (Doc.obj o) :: normList (t.map Doc.obj) from rfl,
        hnorm, hnds]


/-! Branch selection of `_compress_array` and the per-element object views. -/

theorem mkArray_empty (lvl : Nat) (es : List ConvElem) (h : es.isEmpty = true) :
    mkArray lvl es = .arr [] := by
  simp only [mkArray, h, if_true]

theorem mkArray_fallback_notobj (lvl : Nat) (es : List ConvElem)
    (h0 : es.isEmpty = false) (h1 : es.all ConvElem.isObjE = false) :
    mkArray lvl es = .arr (es.map (ConvElem.fallback lvl)) := by
  simp only [mkArray, h0, h1, Bool.false_eq_true, if_false]

theorem mkArray_fallback_lowlvl (lvl : Nat) (es : List ConvElem)
    (h0 : es.isEmpty = false) (h2 : ¬ 2 ≤ lvl) :
    mkArray lvl es = .arr (es.map (ConvElem.fallback lvl)) := by
  simp only [mkArray, h0, Bool.false_eq_true, if_false, if_neg h2]
  split_ifs <;> rfl

theorem mkArray_perfect (lvl : Nat) (es : List ConvElem)
    (h0 : es.isEmpty = false) (h1 : es.all ConvElem.isObjE = true) (h2 : 2 ≤ lvl)
    (h3 : ((pyDedup (List.map (fun ks => sortStr (pyDedup ks))
        (List.map (fun o => List.map Prod.fst o)
          (List.map ConvElem.pairs es)))).length == 1) = true) :
    mkArray lvl es = Doc.obj
      [("_sch", Doc.arr (List.map (fun k => Doc.str (abbrevKey k))
        (sortStr ((List.map (fun o => List.map Prod.fst o)
          (List.map ConvElem.pairs es)).headD [])))),
       ("_dat", Doc.arr (List.map (fun o => Doc.arr (List.map Prod.snd (sortPairsLe o)))
         (List.map ConvElem.pairs es)))] := by
  simp only [mkArray, h0, h1, Bool.false_eq_true, if_false, if_true, h2, h3]

theorem mkArray_partial (lvl : Nat) (es : List ConvElem)
    (h0 : es.isEmpty = false) (h1 : es.all ConvElem.isObjE = true) (h2 : 2 ≤ lvl)
    (h3 : ((pyDedup (List.map (fun ks => sortStr (pyDedup ks))
        (List.map (fun o => List.map Prod.fst o)
          (List.map ConvElem.pairs es)))).length == 1) = false)
    (h4 : 3 ≤ lvl)
    (h5 : 3 ≤ (interKeys (List.map (fun o => List.map Prod.fst o)
      (List.map ConvElem.pairs es))).length) :
    mkArray lvl es = Doc.obj
      [("_sch", Doc.arr (List.map (fun k => Doc.str (abbrevKey k))
        (sortStr (interKeys (List.map (fun o => List.map Prod.fst o)
          (List.map ConvElem.pairs es)))))),
       ("_dat", Doc.arr (List.map (mkPartialRow (interKeys
          (List.map (fun o => List.map Prod.fst o) (List.map ConvElem.pairs es))))
         (List.map ConvElem.pairs es)))] := by
  simp only [mkArray, h0, h1, h2, h3, Bool.false_eq_true, if_false, if_true,
    if_pos h4, if_pos h5]

theorem mkArray_fallback_shapes (lvl : Nat) (es : List ConvElem)
    (h0 : es.isEmpty = false) (h1 : es.all ConvElem.isObjE = true) (h2 : 2 ≤ lvl)
    (h3 : ((pyDedup (List.map (fun ks => sortStr (pyDedup ks))
        (List.map (fun o => List.map Prod.fst o)
          (List.map ConvElem.pairs es)))).length == 1) = false)
    (h4 : ¬ 3 ≤ lvl) :
    mkArray lvl es = .arr (es.map (ConvElem.fallback lvl)) := by
  simp only [mkArray, h0, h1, h2, h3, Bool.false_eq_true, if_false, if_true, if_neg h4]

theorem mkArray_fallback_smallcommon (lvl : Nat) (es : List ConvElem)
    (h0 : es.isEmpty = false) (h1 : es.all ConvElem.isObjE = true) (h2 : 2 ≤ lvl)
    (h3 : ((pyDedup (List.map (fun ks => sortStr (pyDedup ks))
        (List.map (fun o => List.map Prod.fst o)
          (List.map ConvElem.pairs es)))).length == 1) = false)
    (h4 : 3 ≤ lvl)
    (h5 : ¬ 3 ≤ (interKeys (List.map (fun o => List.map Prod.fst o)
      (List.map ConvElem.pairs es))).length) :
    mkArray lvl es = .arr (es.map (ConvElem.fallback lvl)) := by
  simp only [mkArray, h0, h1, h2, h3, Bool.false_eq_true, if_false, if_true,
    if_pos h4, if_neg h5]

/-- The pairs of an object element, the empty list otherwise. -/
def docPairs : Doc → List (String × Doc)
  | .obj kvs => kvs
  | _ => []

theorem docKeys_eq (x : Doc) : docKeys x = (docPairs x).map Prod.fst := by
  cases x <;> rfl

theorem obj_eq_of_isObj (x : Doc) (h : docIsObj x = true) :
    x = Doc.obj (docPairs x) := by
  cases x with
  | obj kvs => rfl
  | null => exact nomatch h
  | bool b => exact nomatch h
  | num n => exact nomatch h
  | str s => exact nomatch h
  | arr ys => exact nomatch h

theorem convElems_pairs (lvl : Nat) (sdict : List (String × String)) :
    ∀ xs : List Doc, (convElems lvl sdict xs).map ConvElem.pairs =
      xs.map (fun x => convVals lvl sdict (docPairs x)) := by
  intro xs
  induction xs with
  | nil => rfl
  | cons x t ih =>
    cases x with
    | obj kvs =>
      rw [show convElems lvl sdict (Doc.obj kvs :: t) =
        ConvElem.objE (convVals lvl sdict kvs) :: convElems lvl sdict t from rfl,
        List.map_cons, List.map_cons, ih]
      rfl
    | null =>
      rw [show convElems lvl sdict (Doc.null :: t) =
        ConvElem.other (conv lvl sdict Doc.null) :: convElems lvl sdict t from rfl,
        List.map_cons, List.map_cons, ih]
      rfl
    | bool b =>
      rw [show convElems lvl sdict (Doc.bool b :: t) =
        ConvElem.other (conv lvl sdict (Doc.bool b)) :: convElems lvl sdict t from rfl,
        List.map_cons, List.map_cons, ih]
      rfl
    | num m =>
      rw [show convElems lvl sdict (Doc.num m :: t) =
        ConvElem.other (conv lvl sdict (Doc.num m)) :: convElems lvl sdict t from rfl,
        List.map_cons, List.map_cons, ih]
      rfl
    | str a =>
      rw [show convElems lvl sdict (Doc.str a :: t) =
        ConvElem.other (conv lvl sdict (Doc.str a)) :: convElems lvl sdict t from rfl,
        List.map_cons, List.map_cons, ih]
      rfl
    | arr ys =>
      rw [show convElems lvl sdict (Doc.arr ys :: t) =
        ConvElem.other (conv lvl sdict (Doc.arr ys)) :: convElems lvl sdict t from rfl,
        List.map_cons, List.map_cons, ih]
      rfl

theorem all_obj_decomp : ∀ xs : List Doc, xs.all docIsObj = true →
    (xs.map docPairs).map Doc.obj = xs := by
  intro xs
  induction xs with
  | nil => intro _; rfl
  | cons x t ih =>
    intro h
    simp only [List.all_cons, Bool.and_eq_true] at h
    simp only [List.map_cons]
    rw [ih h.2, ← obj_eq_of_isObj x h.1]

theorem pyDedup_len_one {α : Type} [BEq α] [LawfulBEq α] (L : List α)
    (h : (pyDedup L).length = 1) : ∀ a ∈ L, ∀ b ∈ L, a = b := by
  intro a ha b hb
  rcases hp : pyDedup L with _ | ⟨z, t⟩
  · rw [hp] at h
    simp at h
  · rcases t with _ | ⟨w, t2⟩
    · have ha2 : a ∈ pyDedup L := (mem_pyDedup L a).mpr ha
      have hb2 : b ∈ pyDedup L := (mem_pyDedup L b).mpr hb
      rw [hp] at ha2 hb2
      simp only [List.mem_singleton] at ha2 hb2
      rw [ha2, hb2]
    · rw [hp] at h
      simp at h

theorem sortStr_eq_nil {l : List String} (h : sortStr l = []) : l = [] := by
  have hl := (sortStr_perm l).length_eq
  rw [h] at hl
  exact List.length_eq_zero.mp hl.symm

theorem pyDedup_ne_nil {α : Type} [BEq α] [LawfulBEq α] {L : List α} (h : L ≠ []) :
    pyDedup L ≠ [] := by
  intro hc
  obtain ⟨b, t, rfl⟩ := List.exists_cons_of_ne_nil h
  have : b ∈ pyDedup (b :: t) := (mem_pyDedup _ b).mpr (List.mem_cons_self _ _)
  rw [hc] at this
  exact absurd this (List.not_mem_nil b)


/-! The round-trip core: over the safe fragment, decoding the converted tree
recovers the document up to object key order, whatever branch the encoder took. -/

set_option maxHeartbeats 1600000 in
theorem roundtrip_core (refs : List (String × Doc)) (lvl : Nat) (h1lvl : 1 ≤ lvl)
    (sdict : List (String × String))
    (hnd : (sdict.map Prod.fst).Nodup)
    (hks : ∀ p ∈ sdict, pyStartsWith p.1 "s" = true) :
    ∀ (n : Nat) (d : Doc), sizeOf d ≤ n → safeDoc d = true →
      ∃ e, dec refs (sdict.map (fun p => (p.1, Doc.str p.2)))
          (conv lvl sdict d) = .ok e ∧ normDoc e = normDoc d := by
  intro n
  induction n using Nat.strong_induction_on with
  | _ n IH =>
    intro d hsz hsafe
    have hIH : ∀ y : Doc, sizeOf y < n → safeDoc y = true →
        ∃ e, dec refs (sdict.map (fun p => (p.1, Doc.str p.2)))
          (conv lvl sdict y) = .ok e ∧ normDoc e = normDoc y := by
      intro y hy hs
      exact IH (sizeOf y) (by omega) y le_rfl hs
    cases d with
    | null => exact ⟨.null, rfl, rfl⟩
    | bool b =>
      cases b with
      | true => exact ⟨.bool true, rfl, rfl⟩
      | false => exact ⟨.bool false, rfl, rfl⟩
    | num m => exact ⟨.num m, rfl, rfl⟩
    | str s =>
      refine ⟨.str s, ?_, rfl⟩
      show Except.ok (decStr refs (sdict.map (fun p => (p.1, Doc.str p.2)))
        (compressString lvl sdict s)) = Except.ok (Doc.str s)
      rw [compressString_rt refs lvl sdict hnd hks s hsafe]
    | obj kvs =>
      rw [safeDoc_obj] at hsafe
      simp only [Bool.and_eq_true] at hsafe
      obtain ⟨⟨hknd, hkabnd⟩, hsp⟩ := hsafe
      rw [nodupKeys_iff] at hknd hkabnd
      have hpairs := (safePairs_iff kvs).mp hsp
      have hIHv : ∀ p ∈ kvs, ∃ e, dec refs (sdict.map (fun p => (p.1, Doc.str p.2)))
          (conv lvl sdict p.2) = .ok e ∧ normDoc e = normDoc p.2 := by
        intro p hp
        refine hIH p.2 ?_ (hpairs p hp).2
        have := sizeOf_obj_val (k := p.1) (v := p.2)
          (by rw [show (p.1, p.2) = p from rfl]; exact hp)
        omega
      have hmapnd : (((convVals lvl sdict kvs).map
          (fun p => (abbrevKey p.1, p.2))).map Prod.fst).Nodup := by
        rw [List.map_map,
          show (Prod.fst ∘ fun p : String × Doc => (abbrevKey p.1, p.2)) =
            (abbrevKey ∘ Prod.fst) from rfl,
          ← List.map_map, convVals_keys]
        exact hkabnd
      have hmk : mkObjPy lvl (convVals lvl sdict kvs) =
          kvs.map (fun p => (abbrevKey p.1, conv lvl sdict p.2)) := by
        rw [mkObjPy_eq_map lvl h1lvl _ hmapnd, convVals_eq_map, List.map_map]
        rfl
      have hsch : (hasKey (kvs.map (fun p => (abbrevKey p.1, conv lvl sdict p.2)))
          "_sch" && hasKey (kvs.map (fun p => (abbrevKey p.1, conv lvl sdict p.2)))
          "_dat") = false := by
        rw [← hmk]
        exact mkObjPy_no_schema lvl sdict kvs hsp
      obtain ⟨qs, hqs, hqk, hqn⟩ := decPairs_rt refs _ lvl sdict kvs
        (fun p hp => (hpairs p hp).1) hIHv
      have hqnd : (qs.map Prod.fst).Nodup := by
        rw [hqk]
        exact hknd
      refine ⟨.obj (pyFold [] qs), ?_, ?_⟩
      · show dec refs (sdict.map (fun p => (p.1, Doc.str p.2)))
          (Doc.obj (mkObjPy lvl (convVals lvl sdict kvs))) = _
        rw [hmk]
        simp only [dec, hsch, Bool.false_eq_true, if_false, hqs]
      · have hf : pyFold [] qs = qs := pyDict_nodup_id qs hqnd
        rw [hf]
        exact norm_obj_eq_of_normPairs_perm qs kvs (by rw [hqn]) hqnd
    | arr xs =>
      have hconv : conv lvl sdict (Doc.arr xs) =
          mkArray lvl (convElems lvl sdict xs) := rfl
      rw [safeDoc_arr] at hsafe
      simp only [Bool.and_eq_true] at hsafe
      obtain ⟨hnae, hsl⟩ := hsafe
      have hselems := (safeList_iff xs).mp hsl
      have hIHx : ∀ x ∈ xs, ∃ e, dec refs (sdict.map (fun p => (p.1, Doc.str p.2)))
          (conv lvl sdict x) = .ok e ∧ normDoc e = normDoc x := by
        intro x hx
        refine hIH x ?_ (hselems x hx)
        have := sizeOf_arr_elem (x := x) hx
        omega
      by_cases hemp : xs = []
      · subst hemp
        exact ⟨.arr [], rfl, rfl⟩
      · have hne : xs ≠ [] := hemp
        have h0 : (convElems lvl sdict xs).isEmpty = false := by
          rw [convElems_isEmpty]
          cases xs with
          | nil => exact absurd rfl hne
          | cons a t => rfl
        by_cases hobj : xs.all docIsObj = true
        · have h1 : (convElems lvl sdict xs).all ConvElem.isObjE = true := by
            rw [convElems_all_objE]
            exact hobj
          have hallkeys : (List.map (fun o => List.map Prod.fst o)
              (List.map ConvElem.pairs (convElems lvl sdict xs))) = xs.map docKeys := by
            rw [List.map_map,
              show ((fun o : List (String × Doc) => List.map Prod.fst o) ∘
                ConvElem.pairs) = (fun e : ConvElem => e.pairs.map Prod.fst) from rfl]
            exact convElems_keys lvl sdict xs
          obtain ⟨x0, xt, hxs⟩ := List.exists_cons_of_ne_nil hne
          have hx0 : x0 ∈ xs := by
            rw [hxs]
            exact List.mem_cons_self _ _
          have hobjall := List.all_eq_true.mp hobj
          have helem : ∀ x ∈ xs, x = Doc.obj (docPairs x) :=
            fun x hx => obj_eq_of_isObj x (hobjall x hx)
          have hesafe : ∀ x ∈ xs, ((docPairs x).map Prod.fst).Nodup ∧
              (((docPairs x).map Prod.fst).map abbrevKey).Nodup ∧
              (∀ p ∈ docPairs x, safeKey p.1 = true ∧ safeDoc p.2 = true) := by
            intro x hx
            have hs := hselems x hx
            rw [helem x hx, safeDoc_obj] at hs
            simp only [Bool.and_eq_true] at hs
            obtain ⟨⟨ha, hb⟩, hc⟩ := hs
            rw [nodupKeys_iff] at ha hb
            exact ⟨ha, hb, (safePairs_iff _).mp hc⟩
          have hIHp : ∀ x ∈ xs, ∀ p ∈ docPairs x,
              ∃ e, dec refs (sdict.map (fun p => (p.1, Doc.str p.2)))
                (conv lvl sdict p.2) = .ok e ∧ normDoc e = normDoc p.2 := by
            intro x hx p hp
            refine hIH p.2 ?_ (((hesafe x hx).2.2 p hp).2)
            have hx2 := sizeOf_arr_elem (x := x) hx
            have hp2 : sizeOf p.2 < sizeOf x := by
              rw [helem x hx]
              exact sizeOf_obj_val (k := p.1) (v := p.2)
                (by rw [show (p.1, p.2) = p from rfl]; exact hp)
            omega
          by_cases h2 : 2 ≤ lvl
          · by_cases h3 : ((pyDedup (List.map (fun ks => sortStr (pyDedup ks))
                (List.map (fun o => List.map Prod.fst o)
                  (List.map ConvElem.pairs (convElems lvl sdict xs))))).length == 1) = true
            · -- perfect schema block
              have h3' : (pyDedup ((xs.map docKeys).map
                  (fun ks => sortStr (pyDedup ks)))).length = 1 := by
                rw [hallkeys] at h3
                exact beq_iff_eq.mp h3
              have hone := pyDedup_len_one _ h3'
              have hshx : ∀ x ∈ xs, sortStr (pyDedup (docKeys x)) =
                  sortStr (pyDedup (docKeys x0)) := by
                intro x hx
                exact hone _ (List.mem_map_of_mem _ (List.mem_map_of_mem docKeys hx))
                  _ (List.mem_map_of_mem _ (List.mem_map_of_mem docKeys hx0))
              have hxe : xs.isEmpty = false := by
                rw [hxs]
                rfl
              have hallne : xs.all isEmptyObj = false := by
                rw [Bool.not_eq_true'] at hnae
                rw [hxe] at hnae
                simpa using hnae
              obtain ⟨x1, hx1, hx1e⟩ := List.all_eq_false.mp hallne
              have hx1ne : docKeys x1 ≠ [] := by
                have hx1o := helem x1 hx1
                intro hc
                rw [docKeys_eq] at hc
                have hc2 : docPairs x1 = [] := List.map_eq_nil.mp hc
                apply hx1e
                rw [hx1o, hc2]
                rfl
              have hshne : sortStr (pyDedup (docKeys x0)) ≠ [] := by
                rw [← hshx x1 hx1]
                intro hc
                exact pyDedup_ne_nil hx1ne (sortStr_eq_nil hc)
              have hkeysne : ∀ x ∈ xs, docKeys x ≠ [] := by
                intro x hx hc
                have hcc := hshx x hx
                rw [hc, show sortStr (pyDedup ([] : List String)) = [] from rfl] at hcc
                exact hshne hcc.symm
              have hsheq : ∀ x ∈ xs, sortStr ((docPairs x).map Prod.fst) =
                  sortStr (docKeys x0) := by
                intro x hx
                rw [← docKeys_eq,
                  ← pyDedup_of_nodup (docKeys x) (by rw [docKeys_eq]; exact (hesafe x hx).1),
                  hshx x hx,
                  pyDedup_of_nodup (docKeys x0) (by rw [docKeys_eq]; exact (hesafe x0 hx0).1)]
              have hexp : ∀ k ∈ sortStr (docKeys x0), expandKey (abbrevKey k) = k := by
                intro k hk
                have hk2 : k ∈ docKeys x0 := (sortStr_perm _).mem_iff.mp hk
                rw [docKeys_eq] at hk2
                obtain ⟨p, hp, hpk⟩ := List.mem_map.mp hk2
                rw [← hpk]
                exact (safeKey_parts (((hesafe x0 hx0).2.2 p hp).1)).2
              have hconds : ∀ o ∈ xs.map docPairs, o ≠ [] ∧
                  (o.map Prod.fst).Nodup ∧
                  sortStr (o.map Prod.fst) = sortStr (docKeys x0) ∧
                  (∀ p ∈ o, safeDoc p.2 = true) ∧
                  (∀ p ∈ o, ∃ e, dec refs (sdict.map (fun p => (p.1, Doc.str p.2)))
                    (conv lvl sdict p.2) = .ok e ∧ normDoc e = normDoc p.2) := by
                intro o ho
                obtain ⟨x, hx, hxo⟩ := List.mem_map.mp ho
                subst hxo
                refine ⟨?_, (hesafe x hx).1, hsheq x hx,
                  fun p hp => ((hesafe x hx).2.2 p hp).2, hIHp x hx⟩
                intro hc
                apply hkeysne x hx
                rw [docKeys_eq, hc]
                rfl
              obtain ⟨ds, hds, hnds⟩ := decRows_perfect_rt refs
                (sdict.map (fun p => (p.1, Doc.str p.2))) lvl sdict
                (sortStr (docKeys x0)) (xs.map docPairs) hconds
              rw [hconv, mkArray_perfect lvl _ h0 h1 h2 h3, hallkeys,
                convElems_pairs,
                show (xs.map docKeys).headD [] = docKeys x0 from by rw [hxs]; rfl,
                List.map_map,
                show ((fun o => Doc.arr (List.map Prod.snd (sortPairsLe o))) ∘
                  (fun x => convVals lvl sdict (docPairs x))) =
                  ((fun o => Doc.arr ((sortPairsLe (convVals lvl sdict o)).map
                    Prod.snd)) ∘ docPairs) from rfl,
                ← List.map_map,
                dec_block refs _ (sortStr (docKeys x0)) _ hexp, hds]
              refine ⟨.arr ds, rfl, ?_⟩
              rw [normDoc_arr, normDoc_arr, hnds, all_obj_decomp xs hobj]
            · have h3f : ((pyDedup (List.map (fun ks => sortStr (pyDedup ks))
                  (List.map (fun o => List.map Prod.fst o)
                    (List.map ConvElem.pairs (convElems lvl sdict xs))))).length == 1)
                  = false := by
                cases hb : ((pyDedup (List.map (fun ks => sortStr (pyDedup ks))
                    (List.map (fun o => List.map Prod.fst o)
                      (List.map ConvElem.pairs (convElems lvl sdict xs))))).length == 1) with
                | true => exact absurd hb h3
                | false => rfl
              by_cases h4 : 3 ≤ lvl
              · by_cases h5 : 3 ≤ (interKeys (List.map (fun o => List.map Prod.fst o)
                    (List.map ConvElem.pairs (convElems lvl sdict xs)))).length
                · -- partial schema block
                  have h5' : 3 ≤ (interKeys (xs.map docKeys)).length := by
                    rw [hallkeys] at h5
                    exact h5
                  have hmapc : xs.map docKeys = docKeys x0 :: xt.map docKeys := by
                    rw [hxs]
                    rfl
                  have hcnd : (interKeys (xs.map docKeys)).Nodup := by
                    rw [hmapc]
                    exact interKeys_nodup _ _
                  have hcne : interKeys (xs.map docKeys) ≠ [] := by
                    intro hc
                    rw [hc] at h5'
                    simp at h5'
                  have hsub : ∀ x ∈ xs, ∀ k ∈ interKeys (xs.map docKeys),
                      k ∈ (docPairs x).map Prod.fst := by
                    intro x hx k hk
                    rw [hmapc] at hk
                    have hmemk := (mem_interKeys_iff (docKeys x0)
                      (xt.map docKeys) k).mp hk
                    rw [← docKeys_eq]
                    rw [hxs] at hx
                    rcases List.mem_cons.mp hx with rfl | hx2
                    · exact hmemk.1
                    · exact hmemk.2 (docKeys x) (List.mem_map_of_mem docKeys hx2)
                  have hexp : ∀ k ∈ sortStr (interKeys (xs.map docKeys)),
                      expandKey (abbrevKey k) = k := by
                    intro k hk
                    have hk2 : k ∈ interKeys (xs.map docKeys) :=
                      (sortStr_perm _).mem_iff.mp hk
                    have hk3 := hsub x0 hx0 k hk2
                    obtain ⟨p, hp, hpk⟩ := List.mem_map.mp hk3
                    rw [← hpk]
                    exact (safeKey_parts (((hesafe x0 hx0).2.2 p hp).1)).2
                  have hconds : ∀ o ∈ xs.map docPairs,
                      (o.map Prod.fst).Nodup ∧
                      ((o.map Prod.fst).map abbrevKey).Nodup ∧
                      (∀ k ∈ interKeys (xs.map docKeys), k ∈ o.map Prod.fst) ∧
                      (∀ p ∈ o, safeKey p.1 = true ∧ safeDoc p.2 = true) ∧
                      (∀ p ∈ o, ∃ e, dec refs (sdict.map (fun p => (p.1, Doc.str p.2)))
                        (conv lvl sdict p.2) = .ok e ∧ normDoc e = normDoc p.2) := by
                    intro o ho
                    obtain ⟨x, hx, hxo⟩ := List.mem_map.mp ho
                    subst hxo
                    exact ⟨(hesafe x hx).1, (hesafe x hx).2.1,
                      fun k hk => hsub x hx k hk,
                      (hesafe x hx).2.2, hIHp x hx⟩
                  obtain ⟨ds, hds, hnds⟩ := decRows_partial_rt refs
                    (sdict.map (fun p => (p.1, Doc.str p.2))) lvl sdict
                    (interKeys (xs.map docKeys)) hcnd hcne (xs.map docPairs) hconds
                  rw [hconv, mkArray_partial lvl _ h0 h1 h2 h3f h4 h5, hallkeys,
                    convElems_pairs, List.map_map,
                    show ((mkPartialRow (interKeys (xs.map docKeys))) ∘
                      (fun x => convVals lvl sdict (docPairs x))) =
                      ((fun o => mkPartialRow (interKeys (xs.map docKeys))
                        (convVals lvl sdict o)) ∘ docPairs) from rfl,
                    ← List.map_map,
                    dec_block refs _ (sortStr (interKeys (xs.map docKeys))) _ hexp, hds]
                  refine ⟨.arr ds, rfl, ?_⟩
                  rw [normDoc_arr, normDoc_arr, hnds, all_obj_decomp xs hobj]
                · rw [hconv, mkArray_fallback_smallcommon lvl _ h0 h1 h2 h3f h4 h5,
                    convElems_fallback]
                  exact arr_elems_rt refs _ lvl sdict xs hIHx
              · rw [hconv, mkArray_fallback_shapes lvl _ h0 h1 h2 h3f h4,
                  convElems_fallback]
                exact arr_elems_rt refs _ lvl sdict xs hIHx
          · rw [hconv, mkArray_fallback_lowlvl lvl _ h0 h2, convElems_fallback]
            exact arr_elems_rt refs _ lvl sdict xs hIHx
        · have h1f : (convElems lvl sdict xs).all ConvElem.isObjE = false := by
            rw [convElems_all_objE]
            cases hb : xs.all docIsObj with
            | true => exact absurd hb hobj
            | false => rfl
          rw [hconv, mkArray_fallback_notobj lvl _ h0 h1f, convElems_fallback]
          exact arr_elems_rt refs _ lvl sdict xs hIHx


/-- The serialized text decodes through the decoder body on the assembled
envelope: version tag found, no zlib flag on the raw forms, the wrapper unwound
on the EXTREME form. -/
theorem toon_to_json_json_to_toon (level : CompressionLevel) (d : Doc) :
    toon_to_json (json_to_toon level d) =
      dec (if 2 ≤ level.value then buildRefCache d else [])
        ((if 3 ≤ level.value then buildStringDict d else []).map
          (fun p => (p.1, Doc.str p.2)))
        (conv level.value (if 3 ≤ level.value then buildStringDict d else []) d) := by
  cases level with
  | MINIMAL =>
    show toon_to_json (.raw (mkEnvDoc 1 (conv 1 [] d) [] [])) = _
    simp only [toon_to_json, pyGet_mkEnv_toon, Option.isSome_some, if_true,
      pyGet_mkEnv_zlib, docTruthyOpt, Bool.false_eq_true, if_false, decodeBody_mkEnv]
    rfl
  | STANDARD =>
    show toon_to_json (.raw (mkEnvDoc 2 (conv 2 [] d) (buildRefCache d) [])) = _
    simp only [toon_to_json, pyGet_mkEnv_toon, Option.isSome_some, if_true,
      pyGet_mkEnv_zlib, docTruthyOpt, Bool.false_eq_true, if_false, decodeBody_mkEnv]
    rfl
  | AGGRESSIVE =>
    show toon_to_json (.raw (mkEnvDoc 3 (conv 3 (buildStringDict d) d)
      (buildRefCache d) (buildStringDict d))) = _
    simp only [toon_to_json, pyGet_mkEnv_toon, Option.isSome_some, if_true,
      pyGet_mkEnv_zlib, docTruthyOpt, Bool.false_eq_true, if_false, decodeBody_mkEnv]
    rfl
  | EXTREME =>
    show toon_to_json (.zwrap 4 true (mkEnvDoc 4 (conv 4 (buildStringDict d) d)
      (buildRefCache d) (buildStringDict d))) = _
    show decodeBody (mkEnvDoc 4 (conv 4 (buildStringDict d) d)
      (buildRefCache d) (buildStringDict d)) = _
    rw [decodeBody_mkEnv]
    rfl

/-- **C1** (amended): over the safe fragment — strings that are not the
sentinels `~`/`T`/`F` and do not start with `@` or `$`, keys that avoid the `_`
prefix and invert through the abbreviation tables, objects with distinct keys
whose abbreviations stay distinct, and no non-empty array made entirely of empty
objects — decoding the encoding at every level returns a document equal to the
original up to object key order: `normDoc`, which sorts every object's pairs by
key, maps both to the same tree.  On the full document model the law fails (see
the counterexample theorem). -/
theorem roundtrip_safe (level : CompressionLevel) (d : Doc)
    (hsafe : safeDoc d = true) :
    ∃ e, toon_to_json (json_to_toon level d) = .ok e ∧ normDoc e = normDoc d := by
  have h1lvl : 1 ≤ level.value := by cases level <;> decide
  have hnd : (((if 3 ≤ level.value then buildStringDict d else []) :
      List (String × String)).map Prod.fst).Nodup := by
    by_cases h3 : 3 ≤ level.value
    · rw [if_pos h3]
      exact buildStringDict_nodup d
    · rw [if_neg h3]
      exact List.nodup_nil
  have hks : ∀ p ∈ (if 3 ≤ level.value then buildStringDict d else []),
      pyStartsWith p.1 "s" = true := by
    by_cases h3 : 3 ≤ level.value
    · rw [if_pos h3]
      exact buildStringDict_keys d
    · rw [if_neg h3]
      intro p hp
      exact absurd hp (List.not_mem_nil p)
  obtain ⟨e, he, hne⟩ := roundtrip_core
    (if 2 ≤ level.value then buildRefCache d else []) level.value h1lvl
    (if 3 ≤ level.value then buildStringDict d else []) hnd hks (sizeOf d) d le_rfl hsafe
  refine ⟨e, ?_, hne⟩
  rw [toon_to_json_json_to_toon]
  exact he

/-- A safe document exercising the perfect-schema path. -/
def c1w : Doc :=
  Doc.arr [Doc.obj [("id", Doc.num 1), ("name", Doc.str "a")],
    Doc.obj [("id", Doc.num 2), ("name", Doc.str "b")],
    Doc.obj [("id", Doc.num 3), ("name", Doc.str "c")]]

/-- Witness: the round trip at AGGRESSIVE on a safe array of objects. -/
theorem roundtrip_safe_witness :
    safeDoc c1w = true ∧
    Except.map normDoc (toon_to_json (json_to_toon CompressionLevel.AGGRESSIVE c1w)) =
      .ok (normDoc c1w) :=
  ⟨by decide, by
    obtain ⟨e, he, hn⟩ := roundtrip_safe CompressionLevel.AGGRESSIVE c1w (by decide)
    rw [he]
    show Except.ok (normDoc e) = Except.ok (normDoc c1w)
    rw [hn]⟩

/-- **C1** counterexample: on the full document model the law fails — the string
`"T"` is encoded unchanged and decoded as the boolean `true`, which differs from
the original even up to object key order. -/
theorem roundtrip_fails_on_reserved_token :
    toon_to_json (json_to_toon CompressionLevel.MINIMAL (Doc.str "T")) =
      .ok (Doc.bool true) ∧
    normDoc (Doc.bool true) ≠ normDoc (Doc.str "T") :=
  ⟨rfl, fun h => nomatch h⟩

end J2T
